import Mathlib

/-!
# Spreadsheet: cells, formulas and the sheet

A shallow embedding of `cell.h`, `cell.cpp`, `formula.cpp` and `sheet.cpp`.

* C++ `int` coordinates are `Int`.
* `double` is a type parameter `Num`: nothing below depends on arithmetic.
* A member function that can throw returns `Except Exn _`; a member function
  that mutates the sheet returns the outcome together with the sheet it leaves
  behind, so that the state after a thrown exception stays observable.
* Recursive member functions take a recursion budget and return `none` when
  it is exhausted.
* `std::unordered_map<Position, std::unique_ptr<Cell>>` is an association
  list; the first entry for a key is the one the map holds.
* What a member function writes to a `std::ostream` is the `String` written.
-/

namespace Spreadsheet

/-! ## common.h -/

/-- Position of a cell: the two `int` fields `row` and `col`. -/
structure Position where
  row : Int
  col : Int
deriving DecidableEq

/-- Modelled from the spec: `Position::operator<` of `common.h` (not among the
sources), "ascending by (row, column)". -/
def Position.lt (a b : Position) : Bool :=
  decide (a.row < b.row) || (decide (a.row = b.row) && decide (a.col < b.col))

/-- The relation `std::list::sort` arranges by: `a` may stand before `b` when
`b < a` is false. -/
def Position.le (a b : Position) : Prop := b.lt a = false

instance Position.decidableLe : DecidableRel Position.le :=
  fun a b => inferInstanceAs (Decidable (b.lt a = false))

/-- Categories of `FormulaError`. -/
inductive FormulaError.Category where
  | Ref
  | Value
  | Div0
deriving DecidableEq

/-- The `FormulaError` class: its only field is the category. -/
structure FormulaError where
  category_ : FormulaError.Category
deriving DecidableEq

/-- The type `CellInterface::Value`, `std::variant<std::string, double, FormulaError>`. -/
inductive CellInterface.Value (Num : Type) where
  | str (s : String)
  | num (d : Num)
  | err (e : FormulaError)
deriving DecidableEq

/-- The type `FormulaInterface::Value`, `std::variant<double, FormulaError>`. -/
inductive FormulaInterface.Value (Num : Type) where
  | num (d : Num)
  | err (e : FormulaError)
deriving DecidableEq

/-- What a call can end with other than a normal return: the three exception
classes of `common.h`, and `NullDereference` for a member access through a
null pointer (undefined behaviour in C++, which no `catch` clause intercepts). -/
inductive Exn where
  | InvalidPositionException
  | CircularDependencyException
  | FormulaException
  | NullDereference
deriving DecidableEq

deriving instance DecidableEq for Except

/-! ## FormulaAST.h (external parser and evaluator) -/

/-- Modelled from the spec: `FormulaAST::Execute` of `FormulaAST.h` (not among
the sources), "walks the tree; each leaf referencing a position asks the sheet
for that cell's value ... The first error encountered during the walk
terminates evaluation immediately".  A run is a tree of questions to the sheet:
it returns a number, throws a `FormulaError`, or asks for the cell at a
position (answered by `none` when `GetCell` gives a null pointer, by the
cell's `GetValue()` otherwise) and continues with the answer. -/
inductive Exec (Num : Type) where
  | ret (d : Num)
  | raise (e : FormulaError)
  | ask (pos : Position) (k : Option (CellInterface.Value Num) → Exec Num)

/-- Modelled from the spec: the class `FormulaAST` of `FormulaAST.h` (not among
the sources), seen through the three members `formula.cpp` calls: `GetCells()`,
`Execute` and `PrintFormula`. -/
structure FormulaAST (Num : Type) where
  GetCells : List Position
  Execute : Exec Num
  PrintFormula : String

/-- Modelled from the spec: what `common.h` and `FormulaAST.h` (not among the
sources) fix: the grid extent used by `Position::IsValid` ("each bounded by an
implementation-defined maximum grid extent") and the parser `ParseFormulaAST`
("parse(text) -> ExpressionTree, fails with SyntaxError"; `none` is the
failure). -/
structure Env (Num : Type) where
  MAX_ROWS : Int
  MAX_COLS : Int
  ParseFormulaAST : String → Option (FormulaAST Num)

/-- Modelled from the spec: `Position::IsValid` of `common.h` (not among the
sources), "a position is valid iff both coordinates lie in range". -/
def Position.IsValid {Num : Type} (env : Env Num) (p : Position) : Bool :=
  decide (0 ≤ p.row) && decide (0 ≤ p.col) &&
    decide (p.row < env.MAX_ROWS) && decide (p.col < env.MAX_COLS)

/-! ## formula.cpp -/

/-- Helper of `unique`: drop the elements equal to the one just kept. -/
def uniqueFrom (prev : Position) : List Position → List Position
  | [] => []
  | x :: xs => if x = prev then uniqueFrom prev xs else x :: uniqueFrom x xs

/-- The call `std::list::unique`: of every run of consecutive equal elements
only the first stays. -/
def unique : List Position → List Position
  | [] => []
  | x :: xs => x :: uniqueFrom x xs

/-- The class `Formula`: the tree and the list `cells_` computed by the
constructor. -/
structure Formula (Num : Type) where
  ast_ : FormulaAST Num
  cells_ : List Position

/-- The constructor `Formula::Formula` once the text has been parsed:
`cells = ast_.GetCells(); cells.unique(); cells.sort();`. -/
def Formula.ofAST {Num : Type} (ast : FormulaAST Num) : Formula Num :=
  { ast_ := ast, cells_ := (unique ast.GetCells).insertionSort Position.le }

/-- The function `ParseFormula`: `none` when the parser throws. -/
def ParseFormula {Num : Type} (env : Env Num) (expression : String) : Option (Formula Num) :=
  (env.ParseFormulaAST expression).map Formula.ofAST

/-- The member `Formula::GetExpression`. -/
def Formula.GetExpression {Num : Type} (f : Formula Num) : String := f.ast_.PrintFormula

/-- The member `Formula::GetReferencedCells`. -/
def Formula.GetReferencedCells {Num : Type} (f : Formula Num) : List Position := f.cells_

/-! ## cell.h, cell.cpp: the data -/

/-- The three subclasses of `Cell::Impl`. -/
inductive Impl (Num : Type) where
  | EmptyImpl
  | TextImpl (text_ : String)
  | FormulaImpl (formula_ : Formula Num)

/-- The struct `Cell::CellCache`; `exists_` starts as `true`. -/
structure CellCache (Num : Type) where
  value_ : CellInterface.Value Num
  exists_ : Bool

/-- The class `Cell`: `impl_` is a `unique_ptr` and may be null; the
back-reference `sheet_` is the sheet the functions below receive. -/
structure Cell (Num : Type) where
  impl_ : Option (Impl Num)
  cache_ : CellCache Num

/-- A default-constructed `CellCache`: `value_` is the variant's first
alternative, the empty string, and `exists_ = true`. -/
def CellCache.init {Num : Type} : CellCache Num := { value_ := .str "", exists_ := true }

/-- The constructor `Cell::Cell(Sheet&)`: an `EmptyImpl` and a fresh cache. -/
def Cell.new {Num : Type} : Cell Num := { impl_ := some .EmptyImpl, cache_ := CellCache.init }

/-- The virtual `Impl::GetText`. -/
def Impl.GetText {Num : Type} : Impl Num → String
  | .EmptyImpl => ""
  | .TextImpl t => t
  | .FormulaImpl f => "=" ++ f.GetExpression

/-- The virtual `Impl::GetReferencedCells`: `{}` unless overridden by `FormulaImpl`. -/
def Impl.GetReferencedCells {Num : Type} : Impl Num → List Position
  | .FormulaImpl f => f.GetReferencedCells
  | _ => []

/-- The member `Cell::IsModified`: `!cache_.exists_`. -/
def Cell.IsModified {Num : Type} (c : Cell Num) : Bool := !c.cache_.exists_

/-- The member `Cell::SetCache`: store the value and set `exists_ = false`. -/
def Cell.SetCache {Num : Type} (c : Cell Num) (val : CellInterface.Value Num) : Cell Num :=
  { c with cache_ := { value_ := val, exists_ := false } }

/-- The member `Cell::Clear`: `impl_.reset(nullptr); cache_.exists_ = true`. -/
def Cell.Clear {Num : Type} (c : Cell Num) : Cell Num :=
  { impl_ := none, cache_ := { c.cache_ with exists_ := true } }

/-- The member `Cell::GetText`. -/
def Cell.GetText {Num : Type} (c : Cell Num) : String :=
  match c.impl_ with
  | some impl => impl.GetText
  | none => ""

/-- The member `Cell::GetReferencedCells`: `impl_->GetReferencedCells()` with
no null test. -/
def Cell.GetReferencedCells {Num : Type} (c : Cell Num) : Except Exn (List Position) :=
  match c.impl_ with
  | some impl => .ok impl.GetReferencedCells
  | none => .error .NullDereference

/-- The functor `CellValueVisitor`: a string that starts with an apostrophe
loses it, a number or an error passes through.  On the empty string `front()`
reads the terminating zero, which is not an apostrophe. -/
def CellValueVisitor {Num : Type} : CellInterface.Value Num → CellInterface.Value Num
  | .str s =>
    match s.data with
    | c :: rest => if c = Char.ofNat 39 then .str (String.mk rest) else .str s
    | [] => .str s
  | .num d => .num d
  | .err fe => .err fe

/-! ## sheet.cpp: the map -/

/-- The field `Sheet::data_`. -/
abbrev Sheet (Num : Type) := List (Position × Cell Num)

/-- Lookup in `data_`: `data_.count(pos) ? data_.at(pos).get() : nullptr`. -/
def Sheet.find {Num : Type} : Sheet Num → Position → Option (Cell Num)
  | [], _ => none
  | (k, c) :: rest, pos => if k = pos then some c else Sheet.find rest pos

/-- Assignment `data_[pos] = cell`: replace the entry for `pos` or add one. -/
def Sheet.assign {Num : Type} : Sheet Num → Position → Cell Num → Sheet Num
  | [], pos, c => [(pos, c)]
  | (k, c0) :: rest, pos, c =>
    if k = pos then (k, c) :: rest else (k, c0) :: Sheet.assign rest pos c

/-- The call `data_.erase(pos)`. -/
def Sheet.erase {Num : Type} (s : Sheet Num) (pos : Position) : Sheet Num :=
  s.filter (fun kv => !decide (kv.1 = pos))

/-- The positions present in `data_`. -/
def Sheet.keys {Num : Type} (s : Sheet Num) : List Position := s.map Prod.fst

/-- The member `Sheet::GetCell` (both overloads). -/
def Sheet.GetCell {Num : Type} (env : Env Num) (s : Sheet Num) (pos : Position) :
    Except Exn (Option (Cell Num)) :=
  if pos.IsValid env then .ok (s.find pos) else .error .InvalidPositionException

/-- The member `Sheet::ClearCell`. -/
def Sheet.ClearCell {Num : Type} (env : Env Num) (pos : Position) (s : Sheet Num) :
    Except Exn Unit × Sheet Num :=
  if pos.IsValid env then (.ok (), s.erase pos) else (.error .InvalidPositionException, s)

/-! ## sheet.cpp and cell.cpp: the operations -/

/-- The loop of `Sheet::CheckForCircularDependencies` over the reference list,
`res` being the local of that name; `recurse` is the recursive call on the
pointer `GetCell` returned.  A reference equal to `head` returns `true` at
once; `res || ...` does not evaluate its right side once `res` is `true`. -/
def Sheet.CheckLoop {Num : Type} (env : Env Num)
    (recurse : Option (Cell Num) → Option (Except Exn Bool))
    (s : Sheet Num) (head : Position) : List Position → Bool → Option (Except Exn Bool)
  | [], res => some (.ok res)
  | next_cell_pos :: rest, res =>
    if next_cell_pos = head then some (.ok true)
    else if res then Sheet.CheckLoop env recurse s head rest true
    else
      match Sheet.GetCell env s next_cell_pos with
      | .error e => some (.error e)
      | .ok cell =>
        match recurse cell with
        | none => none
        | some (.error e) => some (.error e)
        | some (.ok b) => Sheet.CheckLoop env recurse s head rest b

/-- The member `Sheet::CheckForCircularDependencies(cell, head)`; the first
argument bounds the recursion depth. -/
def Sheet.CheckForCircularDependencies {Num : Type} (env : Env Num) :
    Nat → Sheet Num → Option (Cell Num) → Position → Option (Except Exn Bool)
  | 0, _, _, _ => none
  | _ + 1, _, none, _ => some (.ok false)
  | fuel + 1, s, some cell, head =>
    match cell.GetReferencedCells with
    | .error e => some (.error e)
    | .ok refs =>
      Sheet.CheckLoop env (fun c => Sheet.CheckForCircularDependencies env fuel s c head)
        s head refs false

/-- The clause `catch(...)` of `Cell::Set`: every exception becomes a
`FormulaException`. -/
def Cell.catchAll : Exn → Exn
  | .NullDereference => .NullDereference
  | _ => .FormulaException

/-- The loop of `Cell::Set` over the new formula's references: a referenced
position with no cell gets `sheet_.SetCell(ref_cell, "")`. -/
def Cell.Materialize {Num : Type} (env : Env Num)
    (SetCell : Position → String → Sheet Num → Option (Except Exn Unit × Sheet Num)) :
    List Position → Sheet Num → Option (Except Exn Unit × Sheet Num)
  | [], s => some (.ok (), s)
  | ref_cell :: rest, s =>
    match Sheet.GetCell env s ref_cell with
    | .error e => some (.error e, s)
    | .ok (some _) => Cell.Materialize env SetCell rest s
    | .ok none =>
      match SetCell ref_cell "" s with
      | none => none
      | some (.error e, s1) => some (.error e, s1)
      | some (.ok _, s1) => Cell.Materialize env SetCell rest s1

/-- The member `Cell::Set(text)` on the cell `cell` of the sheet `s`;
`SetCell` is the owning sheet's member.  Returns the outcome, the cell and the
sheet afterwards. -/
def Cell.Set {Num : Type} (env : Env Num)
    (SetCell : Position → String → Sheet Num → Option (Except Exn Unit × Sheet Num))
    (cell : Cell Num) (text : String) (s : Sheet Num) :
    Option (Except Exn Unit × Cell Num × Sheet Num) :=
  match text.data with
  | [] =>
    some (.ok (), { impl_ := some .EmptyImpl, cache_ := { cell.cache_ with exists_ := true } }, s)
  | c :: rest =>
    if c = '=' ∧ rest ≠ [] then
      match ParseFormula env (String.mk rest) with
      | none => some (.error .FormulaException, cell, s)
      | some f =>
        let cell1 : Cell Num := { cell with impl_ := some (.FormulaImpl f) }
        match Cell.Materialize env SetCell f.GetReferencedCells s with
        | none => none
        | some (.error e, s1) => some (.error (Cell.catchAll e), cell1, s1)
        | some (.ok _, s1) =>
          some (.ok (), { cell1 with cache_ := { cell1.cache_ with exists_ := true } }, s1)
    else
      some (.ok (), { impl_ := some (.TextImpl text),
                      cache_ := { cell.cache_ with exists_ := true } }, s)

/-- The member `Sheet::SetCell(pos, text)`; the first argument bounds the
nesting of `SetCell` inside `Cell::Set` and the depth of the cycle check. -/
def Sheet.SetCell {Num : Type} (env : Env Num) :
    Nat → Position → String → Sheet Num → Option (Except Exn Unit × Sheet Num)
  | 0, _, _, _ => none
  | fuel + 1, pos, text, s =>
    if pos.IsValid env then
      match Cell.Set env (Sheet.SetCell env fuel) Cell.new text s with
      | none => none
      | some (.error e, _, s1) => some (.error e, s1)
      | some (.ok _, temp_cell, s1) =>
        match Sheet.CheckForCircularDependencies env fuel s1 (some temp_cell) pos with
        | none => none
        | some (.error e) => some (.error e, s1)
        | some (.ok true) => some (.error .CircularDependencyException, s1)
        | some (.ok false) => some (.ok (), s1.assign pos temp_cell)
    else some (.error .InvalidPositionException, s)

/-- The call `std::any_of` inside `Cell::GetValue`: is some dependency's
`IsModified()` true?  `GetCell` may throw, and its result is dereferenced
with no null test. -/
def Cell.AnyModified {Num : Type} (env : Env Num) (s : Sheet Num) :
    List Position → Except Exn Bool
  | [] => .ok false
  | pos :: rest =>
    match Sheet.GetCell env s pos with
    | .error e => .error e
    | .ok none => .error .NullDereference
    | .ok (some c) => if c.IsModified then .ok true else Cell.AnyModified env s rest

/-- The condition of the `if` in `Cell::GetValue`:
`cache_.exists_ || any_of(dependency, IsModified)`. -/
def Cell.Recomputes {Num : Type} (env : Env Num) (s : Sheet Num) (cell : Cell Num) :
    Except Exn Bool :=
  match cell.GetReferencedCells with
  | .error e => .error e
  | .ok dependency =>
    if cell.cache_.exists_ then .ok true else Cell.AnyModified env s dependency

/-- Run of `FormulaAST::Execute` against the sheet: `.ok (.ok d)` is the
number returned, `.ok (.error fe)` a thrown `FormulaError`; `GetValue` is the
member `Cell::GetValue` of the cell at a position. -/
def Exec.run {Num : Type} (env : Env Num)
    (GetValue : Position → Sheet Num → Option (Except Exn (CellInterface.Value Num) × Sheet Num)) :
    Exec Num → Sheet Num → Option (Except Exn (Except FormulaError Num) × Sheet Num)
  | .ret d, s => some (.ok (.ok d), s)
  | .raise fe, s => some (.ok (.error fe), s)
  | .ask pos k, s =>
    match Sheet.GetCell env s pos with
    | .error e => some (.error e, s)
    | .ok none => Exec.run env GetValue (k none) s
    | .ok (some _) =>
      match GetValue pos s with
      | none => none
      | some (.error e, s1) => some (.error e, s1)
      | some (.ok v, s1) => Exec.run env GetValue (k (some v)) s1

/-- The member `Formula::Evaluate`: a `FormulaError` thrown by `Execute` is
caught and returned. -/
def Formula.Evaluate {Num : Type} (env : Env Num)
    (GetValue : Position → Sheet Num → Option (Except Exn (CellInterface.Value Num) × Sheet Num))
    (f : Formula Num) (s : Sheet Num) :
    Option (Except Exn (FormulaInterface.Value Num) × Sheet Num) :=
  match Exec.run env GetValue f.ast_.Execute s with
  | none => none
  | some (.error e, s1) => some (.error e, s1)
  | some (.ok (.ok d), s1) => some (.ok (.num d), s1)
  | some (.ok (.error fe), s1) => some (.ok (.err fe), s1)

/-- The virtual `Impl::GetValue(sheet)` of the three subclasses. -/
def Impl.GetValue {Num : Type} (env : Env Num)
    (GetValue : Position → Sheet Num → Option (Except Exn (CellInterface.Value Num) × Sheet Num))
    (impl : Impl Num) (s : Sheet Num) :
    Option (Except Exn (CellInterface.Value Num) × Sheet Num) :=
  match impl with
  | .EmptyImpl => some (.ok (.str ""), s)
  | .TextImpl t => some (.ok (.str t), s)
  | .FormulaImpl f =>
    match f.Evaluate env GetValue s with
    | none => none
    | some (.error e, s1) => some (.error e, s1)
    | some (.ok (.num d), s1) => some (.ok (.num d), s1)
    | some (.ok (.err fe), s1) => some (.ok (.err fe), s1)

/-- The write `SetCache(value)` on the cell object stored at `pos`. -/
def Sheet.SetCacheAt {Num : Type} (s : Sheet Num) (pos : Position)
    (val : CellInterface.Value Num) : Sheet Num :=
  match s.find pos with
  | some c => s.assign pos (c.SetCache val)
  | none => s

/-- The member `Cell::GetValue()` called on the cell stored at `pos`
(`GetCell(pos)->GetValue()`); the first argument bounds the depth of the
evaluation.  Returns the outcome and the sheet with the caches as the call
leaves them. -/
def Cell.GetValue {Num : Type} (env : Env Num) :
    Nat → Position → Sheet Num → Option (Except Exn (CellInterface.Value Num) × Sheet Num)
  | 0, _, _ => none
  | fuel + 1, pos, s =>
    match s.find pos with
    | none => some (.error .NullDereference, s)
    | some cell =>
      match Cell.Recomputes env s cell with
      | .error e => some (.error e, s)
      | .ok false => some (.ok cell.cache_.value_, s)
      | .ok true =>
        match cell.impl_ with
        | none => some (.ok (.str ""), s.SetCacheAt pos (.str ""))
        | some impl =>
          match impl.GetValue env (Cell.GetValue env fuel) s with
          | none => none
          | some (.error e, s1) => some (.error e, s1)
          | some (.ok v, s1) => some (.ok (CellValueVisitor v), s1.SetCacheAt pos (CellValueVisitor v))

/-! ## Driving the sheet -/

/-- One call on the sheet's interface. -/
inductive Call where
  | SetCell (pos : Position) (text : String)
  | ClearCell (pos : Position)
  | GetValue (pos : Position)

/-- The sheet a call leaves behind, whether it returned or threw; `none` when
the recursion budget is exhausted. -/
def Call.apply {Num : Type} (env : Env Num) (fuel : Nat) : Call → Sheet Num → Option (Sheet Num)
  | .SetCell pos text, s => (Sheet.SetCell env fuel pos text s).map Prod.snd
  | .ClearCell pos, s => some (Sheet.ClearCell env pos s).2
  | .GetValue pos, s => (Cell.GetValue env fuel pos s).map Prod.snd

/-- The sheet a sequence of calls leaves behind. -/
def Sheet.run {Num : Type} (env : Env Num) (fuel : Nat) : List Call → Sheet Num → Option (Sheet Num)
  | [], s => some s
  | c :: cs, s =>
    match c.apply env fuel s with
    | none => none
    | some s1 => Sheet.run env fuel cs s1

/-- The value `GetCell(pos)->GetValue()` returns in the sheet `s`. -/
def Sheet.read {Num : Type} (env : Env Num) (fuel : Nat) (pos : Position) (s : Sheet Num) :
    Option (Except Exn (CellInterface.Value Num)) :=
  (Cell.GetValue env fuel pos s).map Prod.fst

/-! ## A concrete instance for the worked examples -/

namespace Demo

/-- Modelled from the spec: an expression tree of the external parser, with
integers for numbers. -/
inductive Expr where
  | lit (d : Int)
  | cell (p : Position)
  | add (l r : Expr)
  | mul (l r : Expr)
  | div (l r : Expr)

/-- Grid extent of the instance. -/
def maxExtent : Int := 16384

/-- Validity of a position in the instance. -/
def valid (p : Position) : Bool :=
  decide (0 ≤ p.row) && decide (0 ≤ p.col) && decide (p.row < maxExtent) && decide (p.col < maxExtent)

/-- Modelled from the spec: reading a text as a number; only a non-empty run
of decimal digits is numeric. -/
def toNumber (s : String) : Option Int :=
  match s.data with
  | [] => none
  | cs => if cs.all Char.isDigit then some (cs.foldl (fun n c => 10 * n + (c.toNat - 48 : Nat)) (0 : Nat) : Nat) else none

/-- Modelled from the spec: the walk over the tree, in continuation style.  "A
reference to an out-of-range position yields Ref. A non-numeric operand where a
number is required yields Value. Division by zero yields Div0."  A position with
no cell is taken as unresolvable (Ref).  The spec does not fix the order of the
two operands: they are taken left to right when `leftFirst` is `true` and right
to left otherwise. -/
def Expr.exec (leftFirst : Bool) : Expr → (Int → Exec Int) → Exec Int
  | .lit d, k => k d
  | .cell p, k =>
    if valid p then
      .ask p (fun v =>
        match v with
        | none => .raise ⟨.Ref⟩
        | some (.num d) => k d
        | some (.err fe) => .raise fe
        | some (.str t) =>
          match toNumber t with
          | some d => k d
          | none => .raise ⟨.Value⟩)
    else .raise ⟨.Ref⟩
  | .add l r, k =>
    if leftFirst then l.exec leftFirst (fun a => r.exec leftFirst (fun b => k (a + b)))
    else r.exec leftFirst (fun b => l.exec leftFirst (fun a => k (a + b)))
  | .mul l r, k =>
    if leftFirst then l.exec leftFirst (fun a => r.exec leftFirst (fun b => k (a * b)))
    else r.exec leftFirst (fun b => l.exec leftFirst (fun a => k (a * b)))
  | .div l r, k =>
    if leftFirst then
      l.exec leftFirst (fun a => r.exec leftFirst (fun b =>
        if b = 0 then .raise ⟨.Div0⟩ else k (a / b)))
    else
      r.exec leftFirst (fun b => l.exec leftFirst (fun a =>
        if b = 0 then .raise ⟨.Div0⟩ else k (a / b)))

/-- The positions a tree mentions, in order of appearance. -/
def Expr.cells : Expr → List Position
  | .lit _ => []
  | .cell p => [p]
  | .add l r => l.cells ++ r.cells
  | .mul l r => l.cells ++ r.cells
  | .div l r => l.cells ++ r.cells

/-- The tree as a `FormulaAST`; `text` is its printed form. -/
def Expr.toAST (leftFirst : Bool) (e : Expr) (text : String) : FormulaAST Int :=
  { GetCells := e.cells, Execute := e.exec leftFirst Exec.ret, PrintFormula := text }

/-- The cell in row 0, column 0. -/
def A1 : Position := ⟨0, 0⟩

/-- The cell in row 0, column 1. -/
def B1 : Position := ⟨0, 1⟩

/-- The cell in row 0, column 2. -/
def C1 : Position := ⟨0, 2⟩

/-- The cell in row 0, column 3. -/
def D1 : Position := ⟨0, 3⟩

/-- Modelled from the spec: the external parser on the formulas of the
examples; any other text is a syntax error. -/
def parse (leftFirst : Bool) (text : String) : Option (FormulaAST Int) :=
  if text = "A1" then some ((Expr.cell A1).toAST leftFirst text)
  else if text = "B1" then some ((Expr.cell B1).toAST leftFirst text)
  else if text = "A1*2" then some ((Expr.mul (.cell A1) (.lit 2)).toAST leftFirst text)
  else if text = "A1+C1" then some ((Expr.add (.cell A1) (.cell C1)).toAST leftFirst text)
  else if text = "C1+A1" then some ((Expr.add (.cell C1) (.cell A1)).toAST leftFirst text)
  else if text = "1/0" then some ((Expr.div (.lit 1) (.lit 0)).toAST leftFirst text)
  else none

/-- The instance with the given order of operands: a 16384 by 16384 grid and
the parser above. -/
def envOrder (leftFirst : Bool) : Env Int :=
  { MAX_ROWS := maxExtent, MAX_COLS := maxExtent, ParseFormulaAST := parse leftFirst }

/-- The instance used in the examples: operands left to right. -/
def env : Env Int := envOrder true

end Demo

/-! ## Vocabulary of the statements -/

/-- The sheet with an `Empty` cell added at each listed position that has none:
what the loop of `Cell::Set` leaves behind when nothing throws. -/
def Sheet.fill {Num : Type} : Sheet Num → List Position → Sheet Num
  | s, [] => s
  | s, r :: rest =>
    match s.find r with
    | some _ => Sheet.fill s rest
    | none => Sheet.fill (s.assign r Cell.new) rest

/-- The candidate cell `Cell::Set` builds from a parsed formula. -/
def Cell.ofFormula {Num : Type} (f : Formula Num) : Cell Num :=
  { impl_ := some (.FormulaImpl f), cache_ := CellCache.init }

/-- The candidate cell `Cell::Set` builds from a plain text. -/
def Cell.ofText {Num : Type} (text : String) : Cell Num :=
  { impl_ := some (.TextImpl text), cache_ := CellCache.init }

/-! ## The reference graph -/

/-- An edge of the reference graph of the sheet: the cell held at `p` lists
`q` in `GetReferencedCells()`. -/
def Sheet.Edge {Num : Type} (s : Sheet Num) (p q : Position) : Prop :=
  ∃ c refs, s.find p = some c ∧ c.GetReferencedCells = .ok refs ∧ q ∈ refs

/-- The reference graph has no cycle: no position reaches itself along one or
more edges. -/
def Sheet.Acyclic {Num : Type} (s : Sheet Num) : Prop :=
  ∀ p, ¬ Relation.TransGen s.Edge p p

/-- Two facts about the cells a sheet holds: `impl_` is not null, and every
referenced position is a valid one. -/
structure Sheet.WellFormed {Num : Type} (env : Env Num) (s : Sheet Num) : Prop where
  impl_ne_null : ∀ p c, s.find p = some c → c.impl_ ≠ none
  refs_valid : ∀ p c refs, s.find p = some c → c.GetReferencedCells = .ok refs →
    ∀ r ∈ refs, r.IsValid env = true

/-! ## Reading a value changes caches only -/

/-- The two sheets hold cells at the same positions with the same `impl_`;
only caches may differ. -/
def Sheet.SameImpl {Num : Type} (s s1 : Sheet Num) : Prop :=
  ∀ p, (s1.find p).map Cell.impl_ = (s.find p).map Cell.impl_

/-- The sheets the interface can produce: from the empty sheet by calls of
`SetCell` (returning or throwing), `ClearCell` and `GetValue`. -/
inductive Reachable {Num : Type} (env : Env Num) : Sheet Num → Prop where
  | empty : Reachable env []
  | SetCell {s s1 : Sheet Num} {fuel : Nat} {pos : Position} {text : String}
      {o : Except Exn Unit} :
      Reachable env s → Sheet.SetCell env fuel pos text s = some (o, s1) → Reachable env s1
  | ClearCell {s : Sheet Num} (pos : Position) :
      Reachable env s → Reachable env (Sheet.ClearCell env pos s).2
  | GetValue {s s1 : Sheet Num} {fuel : Nat} {pos : Position}
      {o : Except Exn (CellInterface.Value Num)} :
      Reachable env s → Cell.GetValue env fuel pos s = some (o, s1) → Reachable env s1

/-! ## Evaluation returns on a closed sheet without cycles -/

/-- The run asks the sheet only about positions satisfying `R`. -/
inductive Exec.AsksWithin {Num : Type} (R : Position → Prop) : Exec Num → Prop where
  | ret (d : Num) : Exec.AsksWithin R (.ret d)
  | raise (fe : FormulaError) : Exec.AsksWithin R (.raise fe)
  | ask (pos : Position) (k : Option (CellInterface.Value Num) → Exec Num) :
      R pos → (∀ v, Exec.AsksWithin R (k v)) → Exec.AsksWithin R (.ask pos k)

/-- No dangling reference: every position a held cell references holds a cell. -/
def Sheet.Closed {Num : Type} (s : Sheet Num) : Prop :=
  ∀ p c refs, s.find p = some c → c.GetReferencedCells = .ok refs → ∀ r ∈ refs, s.find r ≠ none

/-- The tree of every formula cell asks only about the positions in the
formula's reference list. -/
def Sheet.AsksOwn {Num : Type} (s : Sheet Num) : Prop :=
  ∀ p c f, s.find p = some c → c.impl_ = some (.FormulaImpl f) →
    f.ast_.Execute.AsksWithin (fun q => q ∈ f.cells_)

/-- The parser's trees ask the sheet only about the positions `GetCells()`
reports. -/
def Env.AsksReported {Num : Type} (env : Env Num) : Prop :=
  ∀ text ast, env.ParseFormulaAST text = some ast →
    ast.Execute.AsksWithin (fun q => q ∈ ast.GetCells)

/-- A test for `Closed` that can be evaluated. -/
def Sheet.closedTest {Num : Type} (s : Sheet Num) : Bool :=
  s.all (fun kv =>
    match kv.2.GetReferencedCells with
    | .ok refs => refs.all (fun r => (s.find r).isSome)
    | .error _ => true)

/-- What `GetValue` of a formula cell at `pos` makes of a run of its tree: a
failure of the run is passed on; a number returned or a `FormulaError` thrown
becomes the value, which is stored in the cache of the cell and returned. -/
def Cell.ofRun {Num : Type} (pos : Position) :
    Option (Except Exn (Except FormulaError Num) × Sheet Num) →
      Option (Except Exn (CellInterface.Value Num) × Sheet Num)
  | none => none
  | some (.error e, s2) => some (.error e, s2)
  | some (.ok (.ok d), s2) => some (.ok (.num d), s2.SetCacheAt pos (.num d))
  | some (.ok (.error fe), s2) => some (.ok (.err fe), s2.SetCacheAt pos (.err fe))

/-! ## Sheets and calls of the worked examples -/

namespace Demo

/-- The sheet after `SetCell(A1, "=B1")`: `B1` was materialised as `Empty`. -/
def sheetA : Sheet Int := (Sheet.run env 5 [.SetCell A1 "=B1"] []).getD []

/-- The sheet after `SetCell(A1, "5")`. -/
def sheet5 : Sheet Int := (Sheet.run env 5 [.SetCell A1 "5"] []).getD []

/-- The sheet after `SetCell(A1, "5")` and `SetCell(B1, "=A1*2")`. -/
def sheet5B : Sheet Int := (Sheet.run env 5 [.SetCell A1 "5", .SetCell B1 "=A1*2"] []).getD []

/-- The calls of the invalidation example up to the edit of `A1`. -/
def editAfterRead : List Call :=
  [.SetCell A1 "1", .SetCell B1 "=A1", .SetCell C1 "=B1", .GetValue C1, .SetCell A1 "2"]

/-- Calls after which `D1` sits on a stale `B1`: `B1` was read before `A1` was
edited; `text` is the formula of `D1`, the sum of `C1` and `A1` in either order. -/
def diamond (text : String) : List Call :=
  [.SetCell A1 "1", .SetCell B1 "=A1", .GetValue B1, .SetCell A1 "2", .SetCell C1 "=B1",
    .SetCell D1 text]

/-- The calls `SetCell(A1, "1")`, `SetCell(B1, "=A1")`. -/
def pair : List Call := [.SetCell A1 "1", .SetCell B1 "=A1"]

/-- The formula parsed from `A1`. -/
def formulaA1 : Formula Int := Formula.ofAST ((Expr.cell A1).toAST true "A1")

/-- The formula parsed from `A1*2`. -/
def formulaA1x2 : Formula Int :=
  Formula.ofAST ((Expr.mul (.cell A1) (.lit 2)).toAST true "A1*2")

/-- The formula parsed from `A1+C1`. -/
def formulaA1C1 : Formula Int :=
  Formula.ofAST ((Expr.add (.cell A1) (.cell C1)).toAST true "A1+C1")

/-- The sheet after `SetCell(A1, "5")` and `SetCell(B1, "=A1+C1")`. -/
def sheet5C : Sheet Int := (Sheet.run env 5 [.SetCell A1 "5", .SetCell B1 "=A1+C1"] []).getD []

/-- A sequence with two rejected edits and a `ClearCell` in between. -/
def rejected : List Call :=
  [.SetCell A1 "=B1", .SetCell B1 "=A1", .ClearCell B1, .SetCell B1 "=A1", .GetValue A1]

/-- The sheet the sequence `rejected` leaves. -/
def sheetR : Sheet Int := (Sheet.run env 5 rejected []).getD []

/-- An invalid position: row `-1`. -/
def outside : Position := ⟨-1, 0⟩

end Demo

/-! ## Display of errors -/

/-- The member `FormulaError::ToString`.  The `default` branch of the `switch`
(a `std::runtime_error`) has no counterpart here: `Category` has exactly the
three values the `case` labels name. -/
def FormulaError.ToString (fe : FormulaError) : String :=
  match fe.category_ with
  | .Ref => "#REF!"
  | .Value => "#VALUE!"
  | .Div0 => "#ARITHM!"

/-! ## More sheets of the worked examples -/

namespace Demo

/-- The formula parsed from `1/0`. -/
def formulaDiv : Formula Int := Formula.ofAST ((Expr.div (.lit 1) (.lit 0)).toAST true "1/0")

/-- The sheet after `SetCell(A1, "=1/0")`. -/
def sheetDiv : Sheet Int := (Sheet.run env 5 [.SetCell A1 "=1/0"] []).getD []

/-- The tree of `A1+B1+A1`: it mentions `A1`, `B1`, `A1` in this order. -/
def repeated : FormulaAST Int :=
  (Expr.add (.add (.cell A1) (.cell B1)) (.cell A1)).toAST true "A1+B1+A1"

/-- The calls `SetCell(A1, "=B1")`, `GetValue(A1)`, `ClearCell(B1)`. -/
def cleared : List Call := [.SetCell A1 "=B1", .GetValue A1, .ClearCell B1]

/-- The sheet the calls `cleared` leave: `A1` references `B1`, which holds no cell. -/
def sheetCleared : Sheet Int := (Sheet.run env 5 cleared []).getD []

/-- The calls `SetCell(A1, "=B1")`, `SetCell(C1, "=B1")`, `SetCell(D1, "=A1+C1")`. -/
def shared : List Call := [.SetCell A1 "=B1", .SetCell C1 "=B1", .SetCell D1 "=A1+C1"]

/-- The sheet the calls `shared` leave: `D1` reaches `B1` along two paths. -/
def sheetDiamond : Sheet Int := (Sheet.run env 5 shared []).getD []

end Demo

/-! ## Dangling references -/

/-- No held cell lists `pos` in its `GetReferencedCells()`. -/
def Sheet.Unreferenced {Num : Type} (s : Sheet Num) (pos : Position) : Prop :=
  ∀ p c refs, s.find p = some c → c.GetReferencedCells = .ok refs → pos ∉ refs

/-- A test for `Unreferenced` that can be evaluated. -/
def Sheet.unreferencedTest {Num : Type} (s : Sheet Num) (pos : Position) : Bool :=
  s.all (fun kv =>
    match kv.2.GetReferencedCells with
    | .ok refs => refs.all (fun r => !decide (r = pos))
    | .error _ => true)

/-- The sheets the interface can produce when `ClearCell` is called only on
positions that no held cell references. -/
inductive ReachableKeepingReferenced {Num : Type} (env : Env Num) : Sheet Num → Prop where
  | empty : ReachableKeepingReferenced env []
  | SetCell {s s1 : Sheet Num} {fuel : Nat} {pos : Position} {text : String}
      {o : Except Exn Unit} :
      ReachableKeepingReferenced env s → Sheet.SetCell env fuel pos text s = some (o, s1) →
      ReachableKeepingReferenced env s1
  | ClearCell {s : Sheet Num} (pos : Position) :
      ReachableKeepingReferenced env s → s.Unreferenced pos →
      ReachableKeepingReferenced env (Sheet.ClearCell env pos s).2
  | GetValue {s s1 : Sheet Num} {fuel : Nat} {pos : Position}
      {o : Except Exn (CellInterface.Value Num)} :
      ReachableKeepingReferenced env s → Cell.GetValue env fuel pos s = some (o, s1) →
      ReachableKeepingReferenced env s1

namespace Demo

/-- The calls `SetCell(A1, "=B1")`, `ClearCell(B1)`. -/
def dangling : List Call := [.SetCell A1 "=B1", .ClearCell B1]

/-- The sheet the calls `dangling` leave. -/
def sheetDangling : Sheet Int := (Sheet.run env 5 dangling []).getD []

/-- The sheet after `SetCell(A1, "=B1")` and `SetCell(C1, "5")`. -/
def sheetA5 : Sheet Int := (Sheet.run env 5 [.SetCell A1 "=B1", .SetCell C1 "5"] []).getD []

end Demo

/-! ## sheet.cpp: the printable area and the printing -/

/-- The struct `Size` of `common.h`: the two `int` fields `rows` and `cols`. -/
structure Size where
  rows : Int
  cols : Int
deriving DecidableEq

/-- The loop of `Sheet::GetLeftRightCorners` over the keys of `data_`; the
second argument is the local `right`. -/
def Sheet.CornerLoop : List Position → Position → Position
  | [], right => right
  | key :: rest, right =>
    Sheet.CornerLoop rest
      { col := if right.col < key.col then key.col else right.col,
        row := if right.row < key.row then key.row else right.row }

/-- The member `Sheet::GetLeftRightCorners`; `NONE` is the constant
`Position::NONE` of `common.h` (not among the sources), the start value of
`right`. -/
def Sheet.GetLeftRightCorners {Num : Type} (NONE : Position) (s : Sheet Num) :
    Position × Position :=
  match s with
  | [] => (⟨0, 0⟩, ⟨0, 0⟩)
  | [(pos, _)] => (⟨0, 0⟩, pos)
  | _ => (⟨0, 0⟩, Sheet.CornerLoop s.keys NONE)

/-- The member `Sheet::GetPrintableSize`.  The `int` arithmetic is exact:
the coordinates lie below the grid extent. -/
def Sheet.GetPrintableSize {Num : Type} (NONE : Position) (s : Sheet Num) : Size :=
  if s.isEmpty then ⟨0, 0⟩
  else
    let left_right := Sheet.GetLeftRightCorners NONE s
    ⟨left_right.2.row - left_right.1.row + 1, left_right.2.col - left_right.1.col + 1⟩

/-- The values `lo`, `lo + 1`, ... a counting `for` loop takes in `n` rounds. -/
def intsFrom (lo : Int) : Nat → List Int
  | 0 => []
  | n + 1 => lo :: intsFrom (lo + 1) n

/-- The values of `for (int i = lo; i <= hi; ++i)`. -/
def loopRange (lo hi : Int) : List Int := intsFrom lo (hi + 1 - lo).toNat

/-- The inner loop of `Sheet::PrintTexts` for row `i`; the last argument is
the text written so far. -/
def Sheet.PrintTextsRow {Num : Type} (env : Env Num) (s : Sheet Num) (i : Int)
    (right_col : Int) : List Int → String → Except Exn Unit × String
  | [], output => (.ok (), output)
  | j :: rest, output =>
    match Sheet.GetCell env s ⟨i, j⟩ with
    | .error e => (.error e, output)
    | .ok current_cell_ptr =>
      let output1 :=
        match current_cell_ptr with
        | some cell => output ++ cell.GetText
        | none => output
      let output2 := if j < right_col then output1 ++ "\t" else output1
      Sheet.PrintTextsRow env s i right_col rest output2

/-- The outer loop of `Sheet::PrintTexts`. -/
def Sheet.PrintTextsRows {Num : Type} (env : Env Num) (s : Sheet Num)
    (left_col right_col : Int) : List Int → String → Except Exn Unit × String
  | [], output => (.ok (), output)
  | i :: rest, output =>
    match Sheet.PrintTextsRow env s i right_col (loopRange left_col right_col) output with
    | (.error e, output1) => (.error e, output1)
    | (.ok _, output1) => Sheet.PrintTextsRows env s left_col right_col rest (output1 ++ "\n")

/-- The member `Sheet::PrintTexts`: the outcome and the text written to the
stream. -/
def Sheet.PrintTexts {Num : Type} (env : Env Num) (NONE : Position) (s : Sheet Num) :
    Except Exn Unit × String :=
  if s.isEmpty then (.ok (), "")
  else
    let corners := Sheet.GetLeftRightCorners NONE s
    Sheet.PrintTextsRows env s corners.1.col corners.2.col
      (loopRange corners.1.row corners.2.row) ""

/-- The spec's field `(i, j)`: `GetText()` of the cell held there, the empty
string when none is. -/
def Sheet.fieldText {Num : Type} (s : Sheet Num) (i j : Int) : String :=
  match s.find ⟨i, j⟩ with
  | some cell => cell.GetText
  | none => ""

/-- The spec's line: the fields joined by single tab characters, none trailing. -/
def tabSeparated : List String → String
  | [] => ""
  | [a] => a
  | a :: b :: rest => a ++ "\t" ++ tabSeparated (b :: rest)

/-- The spec's output: the lines in order, each terminated by one newline. -/
def newlineTerminated : List String → String
  | [] => ""
  | l :: rest => l ++ "\n" ++ newlineTerminated rest

/-- The spec's grid text for a printable size of `R` rows and `C` columns:
line `i` is made of the fields of the columns `0` to `C - 1`. -/
def Sheet.gridText {Num : Type} (s : Sheet Num) (R C : Int) : String :=
  newlineTerminated
    ((loopRange 0 (R - 1)).map (fun i =>
      tabSeparated ((loopRange 0 (C - 1)).map (fun j => s.fieldText i j))))

namespace Demo

/-- The value of `Position::NONE` used in the examples: row `-1`, column `-1`. -/
def noPosition : Position := ⟨-1, -1⟩

/-- The cell in row 4, column 2 (`C5`). -/
def C5 : Position := ⟨4, 2⟩

/-- The sheet after `SetCell(C5, "x")`. -/
def sheetC5 : Sheet Int := (Sheet.run env 5 [.SetCell C5 "x"] []).getD []

end Demo

/-- Every position at which the sheet holds a cell is a valid one. -/
def Sheet.KeysValid {Num : Type} (env : Env Num) (s : Sheet Num) : Prop :=
  ∀ k ∈ s.keys, k.IsValid env = true

/-! ## The current value of a cell -/

/-- Modelled from the spec: the walk of `FormulaAST::Execute` (not among the
sources) when the question about a position is answered by `answer` instead of
a call on the sheet: `none` when the answer is not available within the
budget, `some none` for a position that holds no cell. -/
def Exec.eval {Num : Type} (answer : Position → Option (Option (CellInterface.Value Num))) :
    Exec Num → Option (Except FormulaError Num)
  | .ret d => some (.ok d)
  | .raise fe => some (.error fe)
  | .ask pos k =>
    match answer pos with
    | none => none
    | some v => Exec.eval answer (k v)

/-- Modelled from the spec: the current value of the cell at `pos`, computed
from the contents of the cells alone, whatever their caches hold: "For `Empty`
kind, the value is the empty text; for `Text`, the (escape-stripped) stored
string; for `Formula`, the result of evaluating the expression tree against
the owning sheet, converting any evaluation-time error into a `FormulaError`
value", each referenced position contributing its own current value.
`some none` stands for a position that holds no cell, `none` for an exhausted
budget. -/
def Sheet.CurrentValue {Num : Type} :
    Nat → Sheet Num → Position → Option (Option (CellInterface.Value Num))
  | 0, _, _ => none
  | fuel + 1, s, pos =>
    match s.find pos with
    | none => some none
    | some cell =>
      match cell.impl_ with
      | none => some (some (.str ""))
      | some .EmptyImpl => some (some (.str ""))
      | some (.TextImpl t) => some (some (CellValueVisitor (.str t)))
      | some (.FormulaImpl f) =>
        match Exec.eval (Sheet.CurrentValue fuel s) f.ast_.Execute with
        | none => none
        | some (.ok d) => some (some (.num d))
        | some (.error fe) => some (some (.err fe))

namespace Demo

/-- The calls `SetCell(A1, "1")`, `SetCell(B1, "=A1")`, `GetValue(B1)`,
`SetCell(A1, "2")`: `B1` was read before `A1` was edited. -/
def staleRef : List Call :=
  [.SetCell A1 "1", .SetCell B1 "=A1", .GetValue B1, .SetCell A1 "2"]

/-- The sheet the calls `staleRef` leave. -/
def sheetStale : Sheet Int := (Sheet.run env 5 staleRef []).getD []

/-- The sheet after the calls `staleRef` and `SetCell(C1, "=B1")`. -/
def sheetStaleC : Sheet Int :=
  (Sheet.run env 5 (staleRef ++ [.SetCell C1 "=B1"]) []).getD []

/-- The sheet after the calls `cleared` and `SetCell(C1, "=A1")`. -/
def sheetClearedC : Sheet Int :=
  (Sheet.run env 5 (cleared ++ [.SetCell C1 "=A1"]) []).getD []

/-- A position right of the grid: row 0, column 16384 (`XFE1`). -/
def beyond : Position := ⟨0, 16384⟩

/-- Modelled from the spec: an external parser that also accepts a reference
to a position outside the grid ("A reference to an out-of-range position
yields `Ref`"): it reads `B1+XFE1` and otherwise behaves as `parse true`. -/
def parseBeyond (text : String) : Option (FormulaAST Int) :=
  if text = "B1+XFE1" then some ((Expr.add (.cell B1) (.cell beyond)).toAST true text)
  else parse true text

/-- The instance with the parser `parseBeyond`. -/
def envBeyond : Env Int :=
  { MAX_ROWS := maxExtent, MAX_COLS := maxExtent, ParseFormulaAST := parseBeyond }

/-- The formula parsed from `B1+XFE1`. -/
def formulaBeyond : Formula Int :=
  Formula.ofAST ((Expr.add (.cell B1) (.cell beyond)).toAST true "B1+XFE1")

end Demo

/-- Every value a cache holds as computed (`SetCache` leaves `exists_` at
`false`) is the current value of its cell. -/
def Sheet.Coherent {Num : Type} (s : Sheet Num) : Prop :=
  ∀ pos cell, s.find pos = some cell → cell.cache_.exists_ = false →
    ∃ n, s.CurrentValue n pos = some (some cell.cache_.value_)

/-! ## Basic facts about the map -/

theorem Sheet.find_assign {Num : Type} (s : Sheet Num) (pos q : Position) (c : Cell Num) :
    (s.assign pos c).find q = if pos = q then some c else s.find q := by
  induction s with
  | nil => simp [Sheet.assign, Sheet.find]
  | cons kv rest ih =>
    obtain ⟨k, c0⟩ := kv
    by_cases hk : k = pos
    · subst hk
      by_cases hq : k = q <;> simp [Sheet.assign, Sheet.find, hq]
    · by_cases hq : k = q
      · subst hq
        simp [Sheet.assign, Sheet.find, hk, Ne.symm hk]
      · simp [Sheet.assign, Sheet.find, hk, hq, ih]

theorem Sheet.find_assign_self {Num : Type} (s : Sheet Num) (pos : Position) (c : Cell Num) :
    (s.assign pos c).find pos = some c := by
  simp [Sheet.find_assign]

theorem Sheet.find_assign_ne {Num : Type} (s : Sheet Num) {pos q : Position} (c : Cell Num)
    (h : pos ≠ q) : (s.assign pos c).find q = s.find q := by
  simp [Sheet.find_assign, h]

theorem Sheet.find_erase {Num : Type} (s : Sheet Num) (pos q : Position) :
    (s.erase pos).find q = if pos = q then none else s.find q := by
  induction s with
  | nil => simp [Sheet.erase, Sheet.find]
  | cons kv rest ih =>
    obtain ⟨k, c0⟩ := kv
    unfold Sheet.erase at ih ⊢
    by_cases hk : k = pos
    · subst hk
      by_cases hq : k = q
      · subst hq
        simpa [List.filter, Sheet.find] using ih
      · simpa [List.filter, Sheet.find, hq] using ih
    · by_cases hq : k = q
      · subst hq
        simp [List.filter, Sheet.find, hk, Ne.symm hk]
      · simpa [List.filter, Sheet.find, hk, hq] using ih

theorem Sheet.find_fill {Num : Type} (refs : List Position) (s : Sheet Num) (q : Position) :
    (s.fill refs).find q =
      match s.find q with
      | some c => some c
      | none => if q ∈ refs then some Cell.new else none := by
  induction refs generalizing s with
  | nil =>
    cases h : s.find q <;> simp [Sheet.fill, h]
  | cons r rest ih =>
    cases hr : s.find r with
    | some c =>
      simp only [Sheet.fill, hr, ih]
      cases hq : s.find q with
      | some c1 => rfl
      | none =>
        have hne : q ≠ r := by
          intro h
          subst h
          simp [hr] at hq
        simp [hne]
    | none =>
      simp only [Sheet.fill, hr, ih, Sheet.find_assign]
      by_cases hrq : r = q
      · subst hrq
        simp [hr]
      · have hqr : ¬ q = r := fun h => hrq h.symm
        simp only [hrq, if_false]
        cases hq : s.find q <;> simp [hqr]

/-! ## A larger recursion budget never changes a result -/

theorem Sheet.CheckLoop_mono {Num : Type} (env : Env Num)
    (rec1 rec2 : Option (Cell Num) → Option (Except Exn Bool))
    (hrec : ∀ c x, rec1 c = some x → rec2 c = some x)
    (s : Sheet Num) (head : Position) (refs : List Position) (res : Bool) (x : Except Exn Bool)
    (h : Sheet.CheckLoop env rec1 s head refs res = some x) :
    Sheet.CheckLoop env rec2 s head refs res = some x := by
  induction refs generalizing res with
  | nil => simpa [Sheet.CheckLoop] using h
  | cons r rest ih =>
    unfold Sheet.CheckLoop at h ⊢
    by_cases hr : r = head
    · simpa [hr] using h
    · simp only [hr, if_false] at h ⊢
      cases res with
      | true => simpa using ih true (by simpa using h)
      | false =>
        simp only [Bool.false_eq_true, if_false] at h ⊢
        cases hg : Sheet.GetCell env s r with
        | error e => simpa [hg] using h
        | ok cell =>
          simp only [hg] at h ⊢
          cases h1 : rec1 cell with
          | none => simp [h1] at h
          | some y =>
            rw [hrec cell y h1]
            simp only [h1] at h
            cases y with
            | error e => simpa using h
            | ok b => exact ih b h

theorem Sheet.CheckForCircularDependencies_succ {Num : Type} (env : Env Num) (n : Nat)
    (s : Sheet Num) (c : Option (Cell Num)) (head : Position) (x : Except Exn Bool)
    (h : Sheet.CheckForCircularDependencies env n s c head = some x) :
    Sheet.CheckForCircularDependencies env (n + 1) s c head = some x := by
  induction n generalizing c x with
  | zero => simp [Sheet.CheckForCircularDependencies] at h
  | succ n ih =>
    cases c with
    | none => simpa [Sheet.CheckForCircularDependencies] using h
    | some cell =>
      unfold Sheet.CheckForCircularDependencies at h ⊢
      cases hrefs : cell.GetReferencedCells with
      | error e => simpa [hrefs] using h
      | ok refs =>
        simp only [hrefs] at h ⊢
        exact Sheet.CheckLoop_mono env _ _ (fun c x hx => ih c x hx) s head refs false x h

theorem Sheet.CheckForCircularDependencies_mono {Num : Type} (env : Env Num) {n m : Nat}
    (hnm : n ≤ m) (s : Sheet Num) (c : Option (Cell Num)) (head : Position)
    (x : Except Exn Bool) (h : Sheet.CheckForCircularDependencies env n s c head = some x) :
    Sheet.CheckForCircularDependencies env m s c head = some x := by
  induction hnm with
  | refl => exact h
  | step _ ih => exact Sheet.CheckForCircularDependencies_succ env _ s c head x ih

theorem Cell.Materialize_mono {Num : Type} (env : Env Num)
    (set1 set2 : Position → String → Sheet Num → Option (Except Exn Unit × Sheet Num))
    (hset : ∀ p t s x, set1 p t s = some x → set2 p t s = some x)
    (refs : List Position) (s : Sheet Num) (x : Except Exn Unit × Sheet Num)
    (h : Cell.Materialize env set1 refs s = some x) :
    Cell.Materialize env set2 refs s = some x := by
  induction refs generalizing s with
  | nil => simpa [Cell.Materialize] using h
  | cons r rest ih =>
    unfold Cell.Materialize at h ⊢
    cases hg : Sheet.GetCell env s r with
    | error e => simpa [hg] using h
    | ok cell =>
      cases cell with
      | some c =>
        simp only [hg] at h ⊢
        exact ih s h
      | none =>
        simp only [hg] at h ⊢
        cases h1 : set1 r "" s with
        | none => simp [h1] at h
        | some y =>
          rw [hset r "" s y h1]
          simp only [h1] at h
          obtain ⟨o, s1⟩ := y
          cases o with
          | error e => simpa using h
          | ok u => exact ih s1 h

theorem Cell.Set_mono {Num : Type} (env : Env Num)
    (set1 set2 : Position → String → Sheet Num → Option (Except Exn Unit × Sheet Num))
    (hset : ∀ p t s x, set1 p t s = some x → set2 p t s = some x)
    (cell : Cell Num) (text : String) (s : Sheet Num) (x : Except Exn Unit × Cell Num × Sheet Num)
    (h : Cell.Set env set1 cell text s = some x) :
    Cell.Set env set2 cell text s = some x := by
  unfold Cell.Set at h ⊢
  cases hd : text.data with
  | nil => simpa [hd] using h
  | cons c rest =>
    simp only [hd] at h ⊢
    by_cases hc : c = '=' ∧ rest ≠ []
    · rw [if_pos hc] at h ⊢
      cases hp : ParseFormula env (String.mk rest) with
      | none => simpa [hp] using h
      | some f =>
        simp only [hp] at h ⊢
        cases hm : Cell.Materialize env set1 f.GetReferencedCells s with
        | none => simp [hm] at h
        | some y =>
          rw [Cell.Materialize_mono env set1 set2 hset _ s y hm]
          simpa [hm] using h
    · rw [if_neg hc] at h ⊢
      exact h

theorem Sheet.SetCell_succ {Num : Type} (env : Env Num) (n : Nat) (pos : Position)
    (text : String) (s : Sheet Num) (x : Except Exn Unit × Sheet Num)
    (h : Sheet.SetCell env n pos text s = some x) :
    Sheet.SetCell env (n + 1) pos text s = some x := by
  induction n generalizing pos text s x with
  | zero => simp [Sheet.SetCell] at h
  | succ n ih =>
    unfold Sheet.SetCell at h ⊢
    by_cases hv : pos.IsValid env = true
    · simp only [hv, if_true] at h ⊢
      cases hs : Cell.Set env (Sheet.SetCell env n) Cell.new text s with
      | none => simp [hs] at h
      | some y =>
        rw [Cell.Set_mono env _ _ (fun p t s x hx => ih p t s x hx) Cell.new text s y hs]
        simp only [hs] at h
        obtain ⟨o, temp, s1⟩ := y
        cases o with
        | error e => simpa using h
        | ok u =>
          simp only at h ⊢
          cases hc : Sheet.CheckForCircularDependencies env n s1 (some temp) pos with
          | none => simp [hc] at h
          | some b =>
            rw [Sheet.CheckForCircularDependencies_succ env n s1 (some temp) pos b hc]
            simpa [hc] using h
    · simpa [hv] using h

theorem Sheet.SetCell_mono {Num : Type} (env : Env Num) {n m : Nat} (hnm : n ≤ m)
    (pos : Position) (text : String) (s : Sheet Num) (x : Except Exn Unit × Sheet Num)
    (h : Sheet.SetCell env n pos text s = some x) :
    Sheet.SetCell env m pos text s = some x := by
  induction hnm with
  | refl => exact h
  | step _ ih => exact Sheet.SetCell_succ env _ pos text s x ih

/-! ## What `SetCell` does, case by case -/

theorem Sheet.SetCell_empty {Num : Type} (env : Env Num) (n : Nat) (pos : Position)
    (text : String) (s : Sheet Num) (hv : pos.IsValid env = true) (hd : text.data = []) :
    Sheet.SetCell env (n + 2) pos text s = some (.ok (), s.assign pos Cell.new) := by
  simp [Sheet.SetCell, hv, Cell.Set, hd, Sheet.CheckForCircularDependencies,
    Cell.GetReferencedCells, Impl.GetReferencedCells, Sheet.CheckLoop, Cell.new, CellCache.init]

/-- The outcome of the materialising loop: it stops at the first reference
that is not a valid position. -/
theorem Cell.Materialize_eq {Num : Type} (env : Env Num) (n : Nat) (refs : List Position)
    (s : Sheet Num) :
    Cell.Materialize env (Sheet.SetCell env (n + 2)) refs s =
      some (if refs.all (fun r => r.IsValid env) then .ok () else .error .InvalidPositionException,
        s.fill (refs.takeWhile (fun r => r.IsValid env))) := by
  induction refs generalizing s with
  | nil => simp [Cell.Materialize, Sheet.fill]
  | cons r rest ih =>
    unfold Cell.Materialize
    by_cases hv : r.IsValid env = true
    · cases hr : s.find r with
      | some c =>
        simp [Sheet.GetCell, hv, hr, ih, List.takeWhile, Sheet.fill]
      | none =>
        simp [Sheet.GetCell, hv, hr, ih, List.takeWhile, Sheet.fill,
          Sheet.SetCell_empty env n r "" s hv rfl]
    · simp [Sheet.GetCell, hv, List.takeWhile, Sheet.fill]

theorem Sheet.CheckForCircularDependencies_nil {Num : Type} (env : Env Num) (n : Nat)
    (s : Sheet Num) (cell : Cell Num) (head : Position)
    (h : cell.GetReferencedCells = .ok []) :
    Sheet.CheckForCircularDependencies env (n + 1) s (some cell) head = some (.ok false) := by
  simp [Sheet.CheckForCircularDependencies, h, Sheet.CheckLoop]

theorem Sheet.SetCell_text {Num : Type} (env : Env Num) (n : Nat) (pos : Position)
    (text : String) (s : Sheet Num) (hv : pos.IsValid env = true)
    (c : Char) (rest : List Char) (hd : text.data = c :: rest)
    (hnf : ¬ (c = '=' ∧ rest ≠ [])) :
    Sheet.SetCell env (n + 2) pos text s = some (.ok (), s.assign pos (Cell.ofText text)) := by
  unfold Sheet.SetCell
  simp only [hv, if_true]
  unfold Cell.Set
  simp only [hd]
  rw [if_neg hnf]
  simp [Sheet.CheckForCircularDependencies, Cell.GetReferencedCells, Impl.GetReferencedCells,
    Sheet.CheckLoop, Cell.ofText, Cell.new, CellCache.init]

theorem Sheet.SetCell_syntax_error {Num : Type} (env : Env Num) (n : Nat) (pos : Position)
    (text : String) (s : Sheet Num) (hv : pos.IsValid env = true)
    (rest : List Char) (hd : text.data = '=' :: rest) (hne : rest ≠ [])
    (hp : env.ParseFormulaAST (String.mk rest) = none) :
    Sheet.SetCell env (n + 1) pos text s = some (.error .FormulaException, s) := by
  unfold Sheet.SetCell
  simp only [hv, if_true]
  unfold Cell.Set
  simp only [hd]
  rw [if_pos ⟨trivial, hne⟩]
  simp [ParseFormula, hp]

theorem Sheet.SetCell_formula {Num : Type} (env : Env Num) (n : Nat) (pos : Position)
    (text : String) (s : Sheet Num) (hv : pos.IsValid env = true)
    (rest : List Char) (hd : text.data = '=' :: rest) (hne : rest ≠ [])
    (f : Formula Num) (hp : ParseFormula env (String.mk rest) = some f) :
    Sheet.SetCell env (n + 3) pos text s =
      if f.cells_.all (fun r => r.IsValid env) then
        match Sheet.CheckForCircularDependencies env (n + 2) (s.fill f.cells_)
            (some (Cell.ofFormula f)) pos with
        | none => none
        | some (.error e) => some (.error e, s.fill f.cells_)
        | some (.ok true) => some (.error .CircularDependencyException, s.fill f.cells_)
        | some (.ok false) => some (.ok (), (s.fill f.cells_).assign pos (Cell.ofFormula f))
      else
        some (.error .FormulaException,
          s.fill (f.cells_.takeWhile (fun r => r.IsValid env))) := by
  unfold Sheet.SetCell
  simp only [hv, if_true]
  unfold Cell.Set
  simp only [hd]
  rw [if_pos ⟨trivial, hne⟩]
  simp only [hp, Cell.Materialize_eq, Formula.GetReferencedCells]
  by_cases hall : f.cells_.all (fun r => r.IsValid env) = true
  · have htw : f.cells_.takeWhile (fun r => r.IsValid env) = f.cells_ := by
      rw [List.takeWhile_eq_self_iff]
      simpa using hall
    simp only [hall, if_true, htw]
    rfl
  · simp only [hall, if_false]
    rfl

/-! ## The cycle check and the reference graph -/

theorem Sheet.Acyclic_of_subgraph {Num : Type} {s s1 : Sheet Num}
    (hsub : ∀ p q, s1.Edge p q → s.Edge p q) (h : s.Acyclic) : s1.Acyclic :=
  fun p hp => h p (Relation.TransGen.mono hsub hp)

theorem Sheet.Edge_fill {Num : Type} (s : Sheet Num) (refs : List Position) (p q : Position) :
    (s.fill refs).Edge p q ↔ s.Edge p q := by
  unfold Sheet.Edge
  rw [Sheet.find_fill]
  cases hp : s.find p with
  | some c => simp
  | none =>
    by_cases hm : p ∈ refs
    · simp [hm, Cell.new, Cell.GetReferencedCells, Impl.GetReferencedCells]
    · simp [hm]

theorem Sheet.Edge_assign {Num : Type} (s : Sheet Num) (pos : Position) (c : Cell Num)
    (p q : Position) :
    (s.assign pos c).Edge p q ↔
      (p = pos ∧ ∃ refs, c.GetReferencedCells = .ok refs ∧ q ∈ refs) ∨ (p ≠ pos ∧ s.Edge p q) := by
  unfold Sheet.Edge
  rw [Sheet.find_assign]
  by_cases hp : pos = p
  · subst hp
    simp
  · have hp1 : ¬ p = pos := fun h => hp h.symm
    simp [hp, hp1]

theorem Sheet.Edge_erase {Num : Type} (s : Sheet Num) (pos p q : Position)
    (h : (s.erase pos).Edge p q) : s.Edge p q := by
  unfold Sheet.Edge at h ⊢
  rw [Sheet.find_erase] at h
  by_cases hp : pos = p
  · simp [hp] at h
  · simpa [hp] using h

/-- A result `false` of the loop means that every reference differs from
`head`, `GetCell` returned without throwing, and the recursive call gave `false`. -/
theorem Sheet.CheckLoop_false {Num : Type} (env : Env Num)
    (recurse : Option (Cell Num) → Option (Except Exn Bool))
    (s : Sheet Num) (head : Position) (refs : List Position) (res : Bool)
    (h : Sheet.CheckLoop env recurse s head refs res = some (.ok false)) :
    res = false ∧ ∀ r ∈ refs, r ≠ head ∧
      ∃ cell, Sheet.GetCell env s r = .ok cell ∧ recurse cell = some (.ok false) := by
  induction refs generalizing res with
  | nil =>
    simp only [Sheet.CheckLoop, Option.some.injEq, Except.ok.injEq] at h
    simp [h]
  | cons r rest ih =>
    unfold Sheet.CheckLoop at h
    by_cases hr : r = head
    · simp [hr] at h
    · simp only [hr, if_false] at h
      cases res with
      | true =>
        simp only [if_true] at h
        exact absurd (ih true h).1 (by simp)
      | false =>
        simp only [Bool.false_eq_true, if_false] at h
        refine ⟨rfl, ?_⟩
        cases hg : Sheet.GetCell env s r with
        | error e => simp [hg] at h
        | ok cell =>
          simp only [hg] at h
          cases h1 : recurse cell with
          | none => simp [h1] at h
          | some y =>
            simp only [h1] at h
            cases y with
            | error e => simp at h
            | ok b =>
              simp only at h
              have hb := ih b h
              intro r1 hr1
              rcases List.mem_cons.mp hr1 with rfl | hmem
              · refine ⟨hr, cell, hg, ?_⟩
                rw [h1, hb.1]
              · exact hb.2 r1 hmem

/-- A result `true` of the loop comes from `res`, from a reference equal to
`head`, or from a recursive call that gave `true`. -/
theorem Sheet.CheckLoop_true {Num : Type} (env : Env Num)
    (recurse : Option (Cell Num) → Option (Except Exn Bool))
    (s : Sheet Num) (head : Position) (refs : List Position) (res : Bool)
    (h : Sheet.CheckLoop env recurse s head refs res = some (.ok true)) :
    res = true ∨ head ∈ refs ∨
      ∃ r ∈ refs, ∃ cell, Sheet.GetCell env s r = .ok cell ∧ recurse cell = some (.ok true) := by
  induction refs generalizing res with
  | nil =>
    simp only [Sheet.CheckLoop, Option.some.injEq, Except.ok.injEq] at h
    exact Or.inl h
  | cons r rest ih =>
    unfold Sheet.CheckLoop at h
    by_cases hr : r = head
    · exact Or.inr (Or.inl (by simp [hr]))
    · simp only [hr, if_false] at h
      cases res with
      | true => exact Or.inl rfl
      | false =>
        simp only [Bool.false_eq_true, if_false] at h
        right
        cases hg : Sheet.GetCell env s r with
        | error e => simp [hg] at h
        | ok cell =>
          simp only [hg] at h
          cases h1 : recurse cell with
          | none => simp [h1] at h
          | some y =>
            simp only [h1] at h
            cases y with
            | error e => simp at h
            | ok b =>
              simp only at h
              rcases ih b h with hb | hmem | ⟨r1, hr1, c1, hg1, hc1⟩
              · right
                exact ⟨r, by simp, cell, hg, by rw [h1, hb]⟩
              · left
                exact List.mem_cons_of_mem _ hmem
              · right
                exact ⟨r1, List.mem_cons_of_mem _ hr1, c1, hg1, hc1⟩

theorem Sheet.GetCell_ok {Num : Type} (env : Env Num) (s : Sheet Num) (pos : Position)
    (cell : Option (Cell Num)) (h : Sheet.GetCell env s pos = .ok cell) :
    pos.IsValid env = true ∧ cell = s.find pos := by
  unfold Sheet.GetCell at h
  by_cases hv : pos.IsValid env = true
  · simp only [hv, if_true, Except.ok.injEq] at h
    exact ⟨hv, h.symm⟩
  · simp [hv] at h

theorem Sheet.GetCell_valid {Num : Type} (env : Env Num) (s : Sheet Num) (pos : Position)
    (hv : pos.IsValid env = true) : Sheet.GetCell env s pos = .ok (s.find pos) := by
  simp [Sheet.GetCell, hv]

/-- Soundness of the answer `false`: no reference of the cell reaches `head`. -/
theorem Sheet.Check_false_sound {Num : Type} (env : Env Num) (s : Sheet Num) (head : Position)
    (n : Nat) (cell : Cell Num)
    (h : Sheet.CheckForCircularDependencies env n s (some cell) head = some (.ok false))
    (refs : List Position) (hrefs : cell.GetReferencedCells = .ok refs)
    (r : Position) (hr : r ∈ refs) : ¬ Relation.ReflTransGen s.Edge r head := by
  induction n generalizing cell refs r with
  | zero => simp [Sheet.CheckForCircularDependencies] at h
  | succ n ih =>
    unfold Sheet.CheckForCircularDependencies at h
    simp only [hrefs] at h
    obtain ⟨hne, cell1, hg, hc⟩ := (Sheet.CheckLoop_false env _ s head refs false h).2 r hr
    intro hpath
    rcases Relation.ReflTransGen.cases_head hpath with heq | ⟨r1, hedge, hrest⟩
    · exact hne heq
    · obtain ⟨c1, refs1, hfind, hrefs1, hmem⟩ := hedge
      have hcell : cell1 = s.find r := (Sheet.GetCell_ok env s r cell1 hg).2
      rw [hcell, hfind] at hc
      exact ih c1 hc refs1 hrefs1 r1 hmem hrest

/-- Soundness of the answer `true`: some reference of the cell reaches `head`. -/
theorem Sheet.Check_true_sound {Num : Type} (env : Env Num) (s : Sheet Num) (head : Position)
    (n : Nat) (c : Option (Cell Num))
    (h : Sheet.CheckForCircularDependencies env n s c head = some (.ok true)) :
    ∃ cell refs, c = some cell ∧ cell.GetReferencedCells = .ok refs ∧
      ∃ r ∈ refs, Relation.ReflTransGen s.Edge r head := by
  induction n generalizing c with
  | zero => simp [Sheet.CheckForCircularDependencies] at h
  | succ n ih =>
    cases c with
    | none => simp [Sheet.CheckForCircularDependencies] at h
    | some cell =>
      unfold Sheet.CheckForCircularDependencies at h
      cases hrefs : cell.GetReferencedCells with
      | error e => simp [hrefs] at h
      | ok refs =>
        simp only [hrefs] at h
        refine ⟨cell, refs, rfl, hrefs, ?_⟩
        rcases Sheet.CheckLoop_true env _ s head refs false h with hres | hmem | ⟨r, hr, c1, hg, hc⟩
        · simp at hres
        · exact ⟨head, hmem, Relation.ReflTransGen.refl⟩
        · obtain ⟨cell1, refs1, hc1, hrefs1, r1, hr1, hpath⟩ := ih c1 hc
          have hfind : s.find r = some cell1 := by
            rw [← (Sheet.GetCell_ok env s r c1 hg).2, hc1]
          exact ⟨r, hr, Relation.ReflTransGen.head ⟨cell1, refs1, hfind, hrefs1, hr1⟩ hpath⟩

theorem Sheet.mem_keys_of_find {Num : Type} (s : Sheet Num) (p : Position) (c : Cell Num)
    (h : s.find p = some c) : p ∈ s.keys := by
  induction s with
  | nil => simp [Sheet.find] at h
  | cons kv rest ih =>
    obtain ⟨k, c0⟩ := kv
    by_cases hk : k = p
    · simp [Sheet.keys, hk]
    · simp only [Sheet.find, hk, if_false] at h
      have := ih h
      simp only [Sheet.keys, List.map_cons, List.mem_cons] at this ⊢
      exact Or.inr this

/-- In a sheet without cycles the reference relation is well founded: the
sheet holds finitely many cells and only they have outgoing edges. -/
theorem Sheet.wellFounded_of_acyclic {Num : Type} (s : Sheet Num) (hac : s.Acyclic) :
    WellFounded (fun q p => s.Edge p q) := by
  let K := { p : Position // p ∈ s.keys }
  haveI : Finite K := Set.Finite.to_subtype (List.finite_toSet s.keys)
  let rel : K → K → Prop := fun a b => Relation.TransGen s.Edge b.1 a.1
  haveI : IsTrans K rel := ⟨fun a b c hab hbc => Relation.TransGen.trans hbc hab⟩
  haveI : IsIrrefl K rel := ⟨fun a ha => hac a.1 ha⟩
  have hwf : WellFounded rel := Finite.wellFounded_of_trans_of_irrefl rel
  have hout : ∀ p, p ∉ s.keys → Acc (fun q p => s.Edge p q) p := by
    intro p hp
    refine Acc.intro p (fun q hq => ?_)
    obtain ⟨c, refs, hfind, _, _⟩ := hq
    exact absurd (Sheet.mem_keys_of_find s p c hfind) hp
  have hin : ∀ a : K, Acc (fun q p => s.Edge p q) a.1 := by
    intro a
    induction a using hwf.induction with
    | _ a ih =>
      refine Acc.intro a.1 (fun q hq => ?_)
      by_cases hmem : q ∈ s.keys
      · exact ih ⟨q, hmem⟩ (Relation.TransGen.single hq)
      · exact hout q hmem
  refine ⟨fun p => ?_⟩
  by_cases hmem : p ∈ s.keys
  · exact hin ⟨p, hmem⟩
  · exact hout p hmem

/-- A bound that works for each element of a list gives one bound for all. -/
theorem exists_uniform_bound {α : Type} (P : α → Nat → Prop) (l : List α)
    (h : ∀ a ∈ l, ∃ n0, ∀ n, n0 ≤ n → P a n) :
    ∃ N, ∀ a ∈ l, ∀ n, N ≤ n → P a n := by
  induction l with
  | nil => exact ⟨0, fun a ha => by simp at ha⟩
  | cons x xs ih =>
    obtain ⟨N, hN⟩ := ih (fun a ha => h a (List.mem_cons_of_mem _ ha))
    obtain ⟨n0, hn0⟩ := h x (by simp)
    refine ⟨max N n0, fun a ha n hn => ?_⟩
    rcases List.mem_cons.mp ha with rfl | hmem
    · exact hn0 n (le_trans (le_max_right _ _) hn)
    · exact hN a hmem n (le_trans (le_max_left _ _) hn)

/-- The loop returns when every reference is valid and every recursive call
returns. -/
theorem Sheet.CheckLoop_total {Num : Type} (env : Env Num)
    (recurse : Option (Cell Num) → Option (Except Exn Bool))
    (s : Sheet Num) (head : Position) (refs : List Position) (res : Bool)
    (hv : ∀ r ∈ refs, r.IsValid env = true)
    (hrec : ∀ r ∈ refs, ∃ b, recurse (s.find r) = some (.ok b)) :
    ∃ b, Sheet.CheckLoop env recurse s head refs res = some (.ok b) := by
  induction refs generalizing res with
  | nil => exact ⟨res, rfl⟩
  | cons r rest ih =>
    have ihr := fun res => ih res (fun a ha => hv a (List.mem_cons_of_mem _ ha))
      (fun a ha => hrec a (List.mem_cons_of_mem _ ha))
    unfold Sheet.CheckLoop
    by_cases hr : r = head
    · exact ⟨true, by simp [hr]⟩
    · simp only [hr, if_false]
      cases res with
      | true => simpa using ihr true
      | false =>
        obtain ⟨b, hb⟩ := hrec r (by simp)
        simp only [Bool.false_eq_true, if_false,
          Sheet.GetCell_valid env s r (hv r (by simp)), hb]
        exact ihr b

theorem Sheet.Check_total_of_refs {Num : Type} (env : Env Num) (s : Sheet Num)
    (head : Position) (cell : Cell Num) (refs : List Position)
    (hrefs : cell.GetReferencedCells = .ok refs)
    (hv : ∀ r ∈ refs, r.IsValid env = true)
    (hrec : ∀ r ∈ refs, ∃ n0, ∀ n, n0 ≤ n →
      ∃ b, Sheet.CheckForCircularDependencies env n s (s.find r) head = some (.ok b)) :
    ∃ n0, ∀ n, n0 ≤ n →
      ∃ b, Sheet.CheckForCircularDependencies env n s (some cell) head = some (.ok b) := by
  obtain ⟨N, hN⟩ := exists_uniform_bound
    (fun r n => ∃ b, Sheet.CheckForCircularDependencies env n s (s.find r) head = some (.ok b))
    refs hrec
  refine ⟨N + 1, fun n hn => ?_⟩
  obtain ⟨m, rfl⟩ : ∃ m, n = m + 1 := ⟨n - 1, by omega⟩
  unfold Sheet.CheckForCircularDependencies
  simp only [hrefs]
  exact Sheet.CheckLoop_total env _ s head refs false hv (fun r hr => hN r hr m (by omega))

/-- Termination of the cycle check from any cell of a well-formed sheet
without cycles. -/
theorem Sheet.Check_total_at {Num : Type} (env : Env Num) (s : Sheet Num)
    (hwf : s.WellFormed env) (hac : s.Acyclic) (head : Position) (p : Position) :
    ∃ n0, ∀ n, n0 ≤ n →
      ∃ b, Sheet.CheckForCircularDependencies env n s (s.find p) head = some (.ok b) := by
  induction p using (Sheet.wellFounded_of_acyclic s hac).induction with
  | _ p ih =>
    cases hfind : s.find p with
    | none =>
      refine ⟨1, fun n hn => ⟨false, ?_⟩⟩
      obtain ⟨m, rfl⟩ : ∃ m, n = m + 1 := ⟨n - 1, by omega⟩
      rfl
    | some cell =>
      cases himpl : cell.impl_ with
      | none => exact absurd himpl (hwf.impl_ne_null p cell hfind)
      | some impl =>
        have hrefs : cell.GetReferencedCells = .ok impl.GetReferencedCells := by
          simp [Cell.GetReferencedCells, himpl]
        exact Sheet.Check_total_of_refs env s head cell _ hrefs
          (hwf.refs_valid p cell _ hfind hrefs)
          (fun r hr => ih r ⟨cell, _, hfind, hrefs, hr⟩)

/-- For a well-formed sheet without cycles and a candidate whose references are
valid positions, the check returns, and it returns `true` exactly when `head`
is reachable from one of the references. -/
theorem Sheet.Check_spec {Num : Type} (env : Env Num) (s : Sheet Num)
    (hwf : s.WellFormed env) (hac : s.Acyclic) (head : Position) (cell : Cell Num)
    (refs : List Position) (hrefs : cell.GetReferencedCells = .ok refs)
    (hv : ∀ r ∈ refs, r.IsValid env = true) :
    ∃ n0, ∀ n, n0 ≤ n → ∃ b,
      Sheet.CheckForCircularDependencies env n s (some cell) head = some (.ok b) ∧
      (b = true ↔ ∃ r ∈ refs, Relation.ReflTransGen s.Edge r head) := by
  obtain ⟨n0, hn0⟩ := Sheet.Check_total_of_refs env s head cell refs hrefs hv
    (fun r _ => Sheet.Check_total_at env s hwf hac head r)
  refine ⟨n0, fun n hn => ?_⟩
  obtain ⟨b, hb⟩ := hn0 n hn
  refine ⟨b, hb, ?_⟩
  constructor
  · intro hbt
    subst hbt
    obtain ⟨cell1, refs1, hc, hr1, hex⟩ := Sheet.Check_true_sound env s head n _ hb
    cases hc
    rw [hrefs] at hr1
    cases hr1
    exact hex
  · rintro ⟨r, hr, hpath⟩
    cases b with
    | true => rfl
    | false => exact absurd hpath (Sheet.Check_false_sound env s head n cell hb refs hrefs r hr)

/-! ## Reading a value changes caches only -/

theorem Sheet.SameImpl.refl {Num : Type} (s : Sheet Num) : s.SameImpl s := fun _ => rfl

theorem Sheet.SameImpl.trans {Num : Type} {s s1 s2 : Sheet Num} (h1 : s.SameImpl s1)
    (h2 : s1.SameImpl s2) : s.SameImpl s2 := fun p => (h2 p).trans (h1 p)

theorem Sheet.SameImpl.symm {Num : Type} {s s1 : Sheet Num} (h : s.SameImpl s1) :
    s1.SameImpl s := fun p => (h p).symm

theorem Sheet.SameImpl_SetCacheAt {Num : Type} (s : Sheet Num) (pos : Position)
    (v : CellInterface.Value Num) : s.SameImpl (s.SetCacheAt pos v) := by
  intro p
  unfold Sheet.SetCacheAt
  cases hf : s.find pos with
  | none => rfl
  | some c =>
    simp only [Sheet.find_assign]
    by_cases hp : pos = p
    · subst hp
      simp [hf, Cell.SetCache]
    · simp [hp]

theorem Sheet.SameImpl.find_some {Num : Type} {s s1 : Sheet Num} (h : s.SameImpl s1)
    {p : Position} {c : Cell Num} (hc : s.find p = some c) :
    ∃ c1, s1.find p = some c1 ∧ c1.impl_ = c.impl_ := by
  have := h p
  rw [hc] at this
  cases h1 : s1.find p with
  | none => simp [h1] at this
  | some c1 =>
    refine ⟨c1, rfl, ?_⟩
    simpa [h1] using this

theorem Cell.GetReferencedCells_congr {Num : Type} {c c1 : Cell Num} (h : c1.impl_ = c.impl_) :
    c1.GetReferencedCells = c.GetReferencedCells := by
  simp [Cell.GetReferencedCells, h]

theorem Sheet.SameImpl.edge {Num : Type} {s s1 : Sheet Num} (h : s.SameImpl s1)
    (p q : Position) (he : s.Edge p q) : s1.Edge p q := by
  obtain ⟨c, refs, hc, hrefs, hq⟩ := he
  obtain ⟨c1, hc1, himpl⟩ := h.find_some hc
  exact ⟨c1, refs, hc1, by rw [Cell.GetReferencedCells_congr himpl, hrefs], hq⟩

theorem Sheet.SameImpl.acyclic {Num : Type} {s s1 : Sheet Num} (h : s.SameImpl s1)
    (hac : s.Acyclic) : s1.Acyclic :=
  Sheet.Acyclic_of_subgraph (fun p q he => h.symm.edge p q he) hac

theorem Sheet.SameImpl.wellFormed {Num : Type} (env : Env Num) {s s1 : Sheet Num}
    (h : s.SameImpl s1) (hwf : s.WellFormed env) : s1.WellFormed env := by
  constructor
  · intro p c1 hc1
    obtain ⟨c, hc, himpl⟩ := h.symm.find_some hc1
    rw [← himpl]
    exact hwf.impl_ne_null p c hc
  · intro p c1 refs hc1 hrefs
    obtain ⟨c, hc, himpl⟩ := h.symm.find_some hc1
    exact hwf.refs_valid p c refs hc (by rw [Cell.GetReferencedCells_congr himpl, hrefs])

theorem Exec.run_sameImpl {Num : Type} (env : Env Num)
    (gv : Position → Sheet Num → Option (Except Exn (CellInterface.Value Num) × Sheet Num))
    (hgv : ∀ p s x s1, gv p s = some (x, s1) → s.SameImpl s1)
    (e : Exec Num) (s : Sheet Num) (x : Except Exn (Except FormulaError Num)) (s1 : Sheet Num)
    (h : Exec.run env gv e s = some (x, s1)) : s.SameImpl s1 := by
  induction e generalizing s with
  | ret d =>
    simp only [Exec.run, Option.some.injEq, Prod.mk.injEq] at h
    rw [← h.2]
    exact Sheet.SameImpl.refl s
  | raise fe =>
    simp only [Exec.run, Option.some.injEq, Prod.mk.injEq] at h
    rw [← h.2]
    exact Sheet.SameImpl.refl s
  | ask pos k ih =>
    unfold Exec.run at h
    cases hg : Sheet.GetCell env s pos with
    | error e =>
      simp only [hg, Option.some.injEq, Prod.mk.injEq] at h
      rw [← h.2]
      exact Sheet.SameImpl.refl s
    | ok cell =>
      cases cell with
      | none =>
        simp only [hg] at h
        exact ih none s h
      | some c =>
        simp only [hg] at h
        cases hv : gv pos s with
        | none => simp [hv] at h
        | some y =>
          obtain ⟨o, s2⟩ := y
          simp only [hv] at h
          have h12 := hgv pos s o s2 hv
          cases o with
          | error e =>
            simp only [Option.some.injEq, Prod.mk.injEq] at h
            rw [← h.2]
            exact h12
          | ok v => exact h12.trans (ih (some v) s2 h)

theorem Impl.GetValue_keeps_impl {Num : Type} (env : Env Num)
    (gv : Position → Sheet Num → Option (Except Exn (CellInterface.Value Num) × Sheet Num))
    (hgv : ∀ p s x s1, gv p s = some (x, s1) → s.SameImpl s1)
    (impl : Impl Num) (s : Sheet Num) (x : Except Exn (CellInterface.Value Num)) (s1 : Sheet Num)
    (h : impl.GetValue env gv s = some (x, s1)) : s.SameImpl s1 := by
  cases impl with
  | EmptyImpl =>
    simp only [Impl.GetValue, Option.some.injEq, Prod.mk.injEq] at h
    rw [← h.2]
    exact Sheet.SameImpl.refl s
  | TextImpl t =>
    simp only [Impl.GetValue, Option.some.injEq, Prod.mk.injEq] at h
    rw [← h.2]
    exact Sheet.SameImpl.refl s
  | FormulaImpl f =>
    unfold Impl.GetValue Formula.Evaluate at h
    cases hr : Exec.run env gv f.ast_.Execute s with
    | none => simp [hr] at h
    | some y =>
      obtain ⟨o, s2⟩ := y
      have h12 := Exec.run_sameImpl env gv hgv _ s o s2 hr
      simp only [hr] at h
      cases o with
      | error e =>
        simp only [Option.some.injEq, Prod.mk.injEq] at h
        rw [← h.2]
        exact h12
      | ok r =>
        cases r with
        | error fe =>
          simp only [Option.some.injEq, Prod.mk.injEq] at h
          rw [← h.2]
          exact h12
        | ok d =>
          simp only [Option.some.injEq, Prod.mk.injEq] at h
          rw [← h.2]
          exact h12

theorem Cell.GetValue_sameImpl {Num : Type} (env : Env Num) (n : Nat) (pos : Position)
    (s : Sheet Num) (x : Except Exn (CellInterface.Value Num)) (s1 : Sheet Num)
    (h : Cell.GetValue env n pos s = some (x, s1)) : s.SameImpl s1 := by
  induction n generalizing pos s x s1 with
  | zero => simp [Cell.GetValue] at h
  | succ n ih =>
    unfold Cell.GetValue at h
    cases hf : s.find pos with
    | none =>
      simp only [hf, Option.some.injEq, Prod.mk.injEq] at h
      rw [← h.2]
      exact Sheet.SameImpl.refl s
    | some cell =>
      simp only [hf] at h
      cases hrc : Cell.Recomputes env s cell with
      | error e =>
        simp only [hrc, Option.some.injEq, Prod.mk.injEq] at h
        rw [← h.2]
        exact Sheet.SameImpl.refl s
      | ok b =>
        cases b with
        | false =>
          simp only [hrc, Option.some.injEq, Prod.mk.injEq] at h
          rw [← h.2]
          exact Sheet.SameImpl.refl s
        | true =>
          simp only [hrc] at h
          cases himpl : cell.impl_ with
          | none =>
            simp only [himpl, Option.some.injEq, Prod.mk.injEq] at h
            rw [← h.2]
            exact Sheet.SameImpl_SetCacheAt s pos _
          | some impl =>
            simp only [himpl] at h
            cases hi : impl.GetValue env (Cell.GetValue env n) s with
            | none => simp [hi] at h
            | some y =>
              obtain ⟨o, s2⟩ := y
              have h12 := Impl.GetValue_keeps_impl env _ (fun p s x s1 hx => ih p s x s1 hx)
                impl s o s2 hi
              simp only [hi] at h
              cases o with
              | error e =>
                simp only [Option.some.injEq, Prod.mk.injEq] at h
                rw [← h.2]
                exact h12
              | ok v =>
                simp only [Option.some.injEq, Prod.mk.injEq] at h
                rw [← h.2]
                exact h12.trans (Sheet.SameImpl_SetCacheAt s2 pos _)

/-! ## The invariants of the sheet -/

theorem Sheet.WellFormed_nil {Num : Type} (env : Env Num) : Sheet.WellFormed env ([] : Sheet Num) :=
  ⟨fun p c h => by simp [Sheet.find] at h, fun p c refs h => by simp [Sheet.find] at h⟩

theorem Sheet.Acyclic_nil {Num : Type} : Sheet.Acyclic ([] : Sheet Num) := by
  intro p hp
  obtain ⟨q, hq⟩ := Relation.TransGen.head'_iff.mp hp
  obtain ⟨c, refs, hfind, _⟩ := hq.1
  simp [Sheet.find] at hfind

theorem Sheet.WellFormed_assign {Num : Type} (env : Env Num) (s : Sheet Num) (pos : Position)
    (c : Cell Num) (hwf : s.WellFormed env) (hc : c.impl_ ≠ none)
    (hrefs : ∀ refs, c.GetReferencedCells = .ok refs → ∀ r ∈ refs, r.IsValid env = true) :
    (s.assign pos c).WellFormed env := by
  constructor
  · intro p c1 h
    rw [Sheet.find_assign] at h
    by_cases hp : pos = p
    · simp only [hp, if_true, Option.some.injEq] at h
      rw [← h]
      exact hc
    · simp only [hp, if_false] at h
      exact hwf.impl_ne_null p c1 h
  · intro p c1 refs h
    rw [Sheet.find_assign] at h
    by_cases hp : pos = p
    · simp only [hp, if_true, Option.some.injEq] at h
      rw [← h]
      exact hrefs refs
    · simp only [hp, if_false] at h
      exact hwf.refs_valid p c1 refs h

theorem Sheet.WellFormed_fill {Num : Type} (env : Env Num) (s : Sheet Num)
    (refs : List Position) (hwf : s.WellFormed env) : (s.fill refs).WellFormed env := by
  induction refs generalizing s with
  | nil => exact hwf
  | cons r rest ih =>
    unfold Sheet.fill
    cases hr : s.find r with
    | some c => exact ih s hwf
    | none =>
      refine ih _ (Sheet.WellFormed_assign env s r Cell.new hwf (by simp [Cell.new]) ?_)
      intro refs hrefs
      simp only [Cell.new, Cell.GetReferencedCells, Impl.GetReferencedCells,
        Except.ok.injEq] at hrefs
      simp [← hrefs]

theorem Sheet.WellFormed_erase {Num : Type} (env : Env Num) (s : Sheet Num) (pos : Position)
    (hwf : s.WellFormed env) : (s.erase pos).WellFormed env := by
  constructor
  · intro p c h
    rw [Sheet.find_erase] at h
    by_cases hp : pos = p
    · simp [hp] at h
    · simp only [hp, if_false] at h
      exact hwf.impl_ne_null p c h
  · intro p c refs h
    rw [Sheet.find_erase] at h
    by_cases hp : pos = p
    · simp [hp] at h
    · simp only [hp, if_false] at h
      exact hwf.refs_valid p c refs h

theorem Sheet.Acyclic_fill {Num : Type} (s : Sheet Num) (refs : List Position)
    (hac : s.Acyclic) : (s.fill refs).Acyclic :=
  Sheet.Acyclic_of_subgraph (fun p q h => (Sheet.Edge_fill s refs p q).mp h) hac

theorem Sheet.Acyclic_erase {Num : Type} (s : Sheet Num) (pos : Position)
    (hac : s.Acyclic) : (s.erase pos).Acyclic :=
  Sheet.Acyclic_of_subgraph (fun p q h => Sheet.Edge_erase s pos p q h) hac

/-- Storing at `pos` a cell none of whose references reaches `pos` keeps the
graph free of cycles. -/
theorem Sheet.Acyclic_assign {Num : Type} (s : Sheet Num) (pos : Position) (c : Cell Num)
    (hac : s.Acyclic)
    (hno : ∀ refs, c.GetReferencedCells = .ok refs →
      ∀ r ∈ refs, ¬ Relation.ReflTransGen s.Edge r pos) :
    (s.assign pos c).Acyclic := by
  have key : ∀ a b, Relation.TransGen (s.assign pos c).Edge a b →
      Relation.TransGen s.Edge a b ∨
        (Relation.ReflTransGen s.Edge a pos ∧
          ∃ refs, c.GetReferencedCells = .ok refs ∧
            ∃ r ∈ refs, Relation.ReflTransGen s.Edge r b) := by
    intro a b hab
    induction hab with
    | single h =>
      rcases (Sheet.Edge_assign s pos c a _).mp h with ⟨rfl, refs, hrefs, hb⟩ | ⟨_, he⟩
      · exact Or.inr ⟨Relation.ReflTransGen.refl, refs, hrefs, _, hb, Relation.ReflTransGen.refl⟩
      · exact Or.inl (Relation.TransGen.single he)
    | tail hac1 hcb ih =>
      rcases (Sheet.Edge_assign s pos c _ _).mp hcb with ⟨rfl, refs, hrefs, hb⟩ | ⟨_, he⟩
      · rcases ih with hl | ⟨_, refs1, hrefs1, r, hr, hrc⟩
        · exact Or.inr ⟨hl.to_reflTransGen, refs, hrefs, _, hb, Relation.ReflTransGen.refl⟩
        · exact absurd hrc (hno refs1 hrefs1 r hr)
      · rcases ih with hl | ⟨ha, refs1, hrefs1, r, hr, hrc⟩
        · exact Or.inl (Relation.TransGen.tail hl he)
        · exact Or.inr ⟨ha, refs1, hrefs1, r, hr, Relation.ReflTransGen.tail hrc he⟩
  intro p hp
  rcases key p p hp with hl | ⟨ha, refs, hrefs, r, hr, hrp⟩
  · exact hac p hl
  · exact hno refs hrefs r hr (hrp.trans ha)

theorem Cell.GetReferencedCells_ofFormula {Num : Type} (f : Formula Num) :
    (Cell.ofFormula f).GetReferencedCells = .ok f.cells_ := rfl

/-- The call `SetCell`, returning or throwing, keeps the sheet well formed and
free of cycles. -/
theorem Sheet.SetCell_invariant {Num : Type} (env : Env Num) (n : Nat) (pos : Position)
    (text : String) (s s1 : Sheet Num) (o : Except Exn Unit)
    (hwf : s.WellFormed env) (hac : s.Acyclic)
    (h : Sheet.SetCell env n pos text s = some (o, s1)) :
    s1.WellFormed env ∧ s1.Acyclic := by
  have h3 : Sheet.SetCell env (n + 3) pos text s = some (o, s1) :=
    Sheet.SetCell_mono env (by omega) pos text s _ h
  by_cases hv : pos.IsValid env = true
  · cases hd : text.data with
    | nil =>
      rw [Sheet.SetCell_empty env (n + 1) pos text s hv hd] at h3
      simp only [Option.some.injEq, Prod.mk.injEq] at h3
      rw [← h3.2]
      refine ⟨Sheet.WellFormed_assign env s pos _ hwf (by simp [Cell.new]) ?_,
        Sheet.Acyclic_assign s pos _ hac ?_⟩
      · intro refs hrefs
        simp only [Cell.new, Cell.GetReferencedCells, Impl.GetReferencedCells,
          Except.ok.injEq] at hrefs
        simp [← hrefs]
      · intro refs hrefs
        simp only [Cell.new, Cell.GetReferencedCells, Impl.GetReferencedCells,
          Except.ok.injEq] at hrefs
        simp [← hrefs]
    | cons c rest =>
      by_cases hf : c = '=' ∧ rest ≠ []
      · obtain ⟨rfl, hne⟩ := hf
        cases hp : ParseFormula env (String.mk rest) with
        | none =>
          have hp1 : env.ParseFormulaAST (String.mk rest) = none := by
            simpa [ParseFormula] using hp
          rw [Sheet.SetCell_syntax_error env (n + 2) pos text s hv rest hd hne hp1] at h3
          simp only [Option.some.injEq, Prod.mk.injEq] at h3
          rw [← h3.2]
          exact ⟨hwf, hac⟩
        | some f =>
          rw [Sheet.SetCell_formula env n pos text s hv rest hd hne f hp] at h3
          have hwf1 := Sheet.WellFormed_fill env s f.cells_ hwf
          have hac1 := Sheet.Acyclic_fill s f.cells_ hac
          by_cases hall : f.cells_.all (fun r => r.IsValid env) = true
          · simp only [hall, if_true] at h3
            cases hc : Sheet.CheckForCircularDependencies env (n + 2) (s.fill f.cells_)
                (some (Cell.ofFormula f)) pos with
            | none => simp [hc] at h3
            | some b =>
              simp only [hc] at h3
              cases b with
              | error e =>
                simp only [Option.some.injEq, Prod.mk.injEq] at h3
                rw [← h3.2]
                exact ⟨hwf1, hac1⟩
              | ok b =>
                cases b with
                | true =>
                  simp only [Option.some.injEq, Prod.mk.injEq] at h3
                  rw [← h3.2]
                  exact ⟨hwf1, hac1⟩
                | false =>
                  simp only [Option.some.injEq, Prod.mk.injEq] at h3
                  rw [← h3.2]
                  refine ⟨Sheet.WellFormed_assign env _ pos _ hwf1 (by simp [Cell.ofFormula]) ?_,
                    Sheet.Acyclic_assign _ pos _ hac1 ?_⟩
                  · intro refs hrefs r hr
                    rw [Cell.GetReferencedCells_ofFormula] at hrefs
                    cases hrefs
                    exact (List.all_eq_true.mp hall) r hr
                  · intro refs hrefs r hr
                    exact Sheet.Check_false_sound env _ pos _ _ hc refs hrefs r hr
          · rw [if_neg hall] at h3
            simp only [Option.some.injEq, Prod.mk.injEq] at h3
            rw [← h3.2]
            exact ⟨Sheet.WellFormed_fill env s _ hwf, Sheet.Acyclic_fill s _ hac⟩
      · rw [Sheet.SetCell_text env (n + 1) pos text s hv c rest hd hf] at h3
        simp only [Option.some.injEq, Prod.mk.injEq] at h3
        rw [← h3.2]
        refine ⟨Sheet.WellFormed_assign env s pos _ hwf (by simp [Cell.ofText]) ?_,
          Sheet.Acyclic_assign s pos _ hac ?_⟩
        · intro refs hrefs
          simp only [Cell.ofText, Cell.GetReferencedCells, Impl.GetReferencedCells,
            Except.ok.injEq] at hrefs
          simp [← hrefs]
        · intro refs hrefs
          simp only [Cell.ofText, Cell.GetReferencedCells, Impl.GetReferencedCells,
            Except.ok.injEq] at hrefs
          simp [← hrefs]
  · have : Sheet.SetCell env (n + 3) pos text s = some (.error .InvalidPositionException, s) := by
      simp [Sheet.SetCell, hv]
    rw [this] at h3
    simp only [Option.some.injEq, Prod.mk.injEq] at h3
    rw [← h3.2]
    exact ⟨hwf, hac⟩

theorem Reachable.invariant {Num : Type} (env : Env Num) (s : Sheet Num)
    (h : Reachable env s) : s.WellFormed env ∧ s.Acyclic := by
  induction h with
  | empty => exact ⟨Sheet.WellFormed_nil env, Sheet.Acyclic_nil⟩
  | SetCell _ hset ih => exact Sheet.SetCell_invariant env _ _ _ _ _ _ ih.1 ih.2 hset
  | ClearCell pos _ ih =>
    unfold Sheet.ClearCell
    by_cases hv : pos.IsValid env = true
    · simp only [hv, if_true]
      exact ⟨Sheet.WellFormed_erase env _ pos ih.1, Sheet.Acyclic_erase _ pos ih.2⟩
    · simp only [hv, if_false]
      exact ih
  | GetValue _ hget ih =>
    have hsame := Cell.GetValue_sameImpl env _ _ _ _ _ hget
    exact ⟨hsame.wellFormed env ih.1, hsame.acyclic ih.2⟩

/-! ## Evaluation: a larger budget never changes a result -/

theorem Exec.run_mono {Num : Type} (env : Env Num)
    (gv1 gv2 : Position → Sheet Num → Option (Except Exn (CellInterface.Value Num) × Sheet Num))
    (hgv : ∀ p s x, gv1 p s = some x → gv2 p s = some x)
    (e : Exec Num) (s : Sheet Num) (x : Except Exn (Except FormulaError Num) × Sheet Num)
    (h : Exec.run env gv1 e s = some x) : Exec.run env gv2 e s = some x := by
  induction e generalizing s with
  | ret d => simpa [Exec.run] using h
  | raise fe => simpa [Exec.run] using h
  | ask pos k ih =>
    unfold Exec.run at h ⊢
    cases hg : Sheet.GetCell env s pos with
    | error e => simpa [hg] using h
    | ok cell =>
      cases cell with
      | none =>
        simp only [hg] at h ⊢
        exact ih none s h
      | some c =>
        simp only [hg] at h ⊢
        cases hv : gv1 pos s with
        | none => simp [hv] at h
        | some y =>
          rw [hgv pos s y hv]
          simp only [hv] at h
          obtain ⟨o, s2⟩ := y
          cases o with
          | error e => simpa using h
          | ok v => exact ih (some v) s2 h

theorem Impl.GetValue_budget_mono {Num : Type} (env : Env Num)
    (gv1 gv2 : Position → Sheet Num → Option (Except Exn (CellInterface.Value Num) × Sheet Num))
    (hgv : ∀ p s x, gv1 p s = some x → gv2 p s = some x)
    (impl : Impl Num) (s : Sheet Num) (x : Except Exn (CellInterface.Value Num) × Sheet Num)
    (h : impl.GetValue env gv1 s = some x) : impl.GetValue env gv2 s = some x := by
  cases impl with
  | EmptyImpl => simpa [Impl.GetValue] using h
  | TextImpl t => simpa [Impl.GetValue] using h
  | FormulaImpl f =>
    simp only [Impl.GetValue, Formula.Evaluate] at h ⊢
    cases hr : Exec.run env gv1 f.ast_.Execute s with
    | none => simp [hr] at h
    | some y =>
      rw [Exec.run_mono env gv1 gv2 hgv _ s y hr]
      simpa [hr] using h

theorem Cell.GetValue_succ {Num : Type} (env : Env Num) (n : Nat) (pos : Position)
    (s : Sheet Num) (x : Except Exn (CellInterface.Value Num) × Sheet Num)
    (h : Cell.GetValue env n pos s = some x) : Cell.GetValue env (n + 1) pos s = some x := by
  induction n generalizing pos s x with
  | zero => simp [Cell.GetValue] at h
  | succ n ih =>
    unfold Cell.GetValue at h ⊢
    cases hf : s.find pos with
    | none => simpa [hf] using h
    | some cell =>
      simp only [hf] at h ⊢
      cases hrc : Cell.Recomputes env s cell with
      | error e => simpa [hrc] using h
      | ok b =>
        cases b with
        | false => simpa [hrc] using h
        | true =>
          simp only [hrc] at h ⊢
          cases himpl : cell.impl_ with
          | none => simpa [himpl] using h
          | some impl =>
            simp only [himpl] at h ⊢
            cases hi : impl.GetValue env (Cell.GetValue env n) s with
            | none => simp [hi] at h
            | some y =>
              rw [Impl.GetValue_budget_mono env _ _ (fun p s x hx => ih p s x hx) impl s y hi]
              simpa [hi] using h

theorem Cell.GetValue_mono {Num : Type} (env : Env Num) {n m : Nat} (hnm : n ≤ m)
    (pos : Position) (s : Sheet Num) (x : Except Exn (CellInterface.Value Num) × Sheet Num)
    (h : Cell.GetValue env n pos s = some x) : Cell.GetValue env m pos s = some x := by
  induction hnm with
  | refl => exact h
  | step _ ih => exact Cell.GetValue_succ env _ pos s x ih

/-! ## Evaluation returns on a closed sheet without cycles -/

theorem Sheet.SameImpl.closed {Num : Type} {s s1 : Sheet Num} (h : s.SameImpl s1)
    (hcl : s.Closed) : s1.Closed := by
  intro p c1 refs hc1 hrefs r hr hnone
  obtain ⟨c, hc, himpl⟩ := h.symm.find_some hc1
  have := hcl p c refs hc (by rw [Cell.GetReferencedCells_congr himpl, hrefs]) r hr
  cases hfr : s.find r with
  | none => exact this hfr
  | some cr =>
    obtain ⟨c2, hc2, _⟩ := h.find_some hfr
    rw [hnone] at hc2
    cases hc2

theorem Cell.AnyModified_total {Num : Type} (env : Env Num) (s : Sheet Num)
    (refs : List Position) (hv : ∀ r ∈ refs, r.IsValid env = true)
    (hp : ∀ r ∈ refs, s.find r ≠ none) : ∃ b, Cell.AnyModified env s refs = .ok b := by
  induction refs with
  | nil => exact ⟨false, rfl⟩
  | cons r rest ih =>
    unfold Cell.AnyModified
    rw [Sheet.GetCell_valid env s r (hv r (by simp))]
    cases hf : s.find r with
    | none => exact absurd hf (hp r (by simp))
    | some c =>
      simp only
      by_cases hm : c.IsModified = true
      · exact ⟨true, by simp [hm]⟩
      · simp only [hm]
        exact ih (fun a ha => hv a (List.mem_cons_of_mem _ ha))
          (fun a ha => hp a (List.mem_cons_of_mem _ ha))

theorem Exec.run_total {Num : Type} (env : Env Num) (s : Sheet Num) (R : Position → Prop)
    (hv : ∀ q, R q → q.IsValid env = true)
    (hchild : ∀ q, R q → s.find q ≠ none → ∀ s1, s.SameImpl s1 →
      ∃ n0, ∀ n, n0 ≤ n → ∃ v s2, Cell.GetValue env n q s1 = some (.ok v, s2))
    (e : Exec Num) (he : e.AsksWithin R) (s1 : Sheet Num) (hs1 : s.SameImpl s1) :
    ∃ n0, ∀ n, n0 ≤ n → ∃ r s2, Exec.run env (Cell.GetValue env n) e s1 = some (.ok r, s2) := by
  induction he generalizing s1 with
  | ret d => exact ⟨0, fun n _ => ⟨.ok d, s1, rfl⟩⟩
  | raise fe => exact ⟨0, fun n _ => ⟨.error fe, s1, rfl⟩⟩
  | ask q k hq _ ih =>
    have hg := Sheet.GetCell_valid env s1 q (hv q hq)
    cases hf : s1.find q with
    | none =>
      obtain ⟨n0, hn0⟩ := ih none s1 hs1
      refine ⟨n0, fun n hn => ?_⟩
      obtain ⟨r, s2, hr⟩ := hn0 n hn
      exact ⟨r, s2, by simp only [Exec.run, hg, hf, hr]⟩
    | some cq =>
      have hsq : s.find q ≠ none := by
        intro hnone
        obtain ⟨c, hc, _⟩ := hs1.symm.find_some hf
        rw [hnone] at hc
        cases hc
      obtain ⟨nq, hnq⟩ := hchild q hq hsq s1 hs1
      obtain ⟨v, s2, hget⟩ := hnq nq (le_refl _)
      have hs2 : s.SameImpl s2 := hs1.trans (Cell.GetValue_sameImpl env nq q s1 _ s2 hget)
      obtain ⟨n1, hn1⟩ := ih (some v) s2 hs2
      refine ⟨max nq n1, fun n hn => ?_⟩
      have hget1 := Cell.GetValue_mono env (le_trans (le_max_left _ _) hn) q s1 _ hget
      obtain ⟨r, s3, hr⟩ := hn1 n (le_trans (le_max_right _ _) hn)
      exact ⟨r, s3, by simp only [Exec.run, hg, hf, hget1, hr]⟩

/-- On a well-formed, closed sheet without cycles whose formulas ask only about
their own references, `GetValue` of a held cell returns a value, whatever the
caches hold. -/
theorem Cell.GetValue_total {Num : Type} (env : Env Num) (s : Sheet Num)
    (hwf : s.WellFormed env) (hac : s.Acyclic) (hcl : s.Closed) (hasks : s.AsksOwn)
    (p : Position) :
    s.find p ≠ none → ∀ s1, s.SameImpl s1 →
      ∃ n0, ∀ n, n0 ≤ n → ∃ v s2, Cell.GetValue env n p s1 = some (.ok v, s2) := by
  induction p using (Sheet.wellFounded_of_acyclic s hac).induction with
  | _ p ih =>
    intro hp s1 hs1
    cases hfind : s.find p with
    | none => exact absurd hfind hp
    | some c =>
      obtain ⟨c1, hc1, himpl1⟩ := hs1.find_some hfind
      cases himpl : c.impl_ with
      | none => exact absurd himpl (hwf.impl_ne_null p c hfind)
      | some impl =>
        rw [himpl] at himpl1
        have hrefs : c.GetReferencedCells = .ok impl.GetReferencedCells := by
          simp [Cell.GetReferencedCells, himpl]
        have hrefs1 : c1.GetReferencedCells = .ok impl.GetReferencedCells := by
          simp [Cell.GetReferencedCells, himpl1]
        have hvalid := hwf.refs_valid p c _ hfind hrefs
        have hpresent : ∀ r ∈ impl.GetReferencedCells, s1.find r ≠ none :=
          (hs1.closed hcl) p c1 _ hc1 hrefs1
        obtain ⟨b, hb⟩ : ∃ b, Cell.Recomputes env s1 c1 = .ok b := by
          unfold Cell.Recomputes
          rw [hrefs1]
          by_cases hex : c1.cache_.exists_ = true
          · exact ⟨true, by simp [hex]⟩
          · simp only [hex]
            exact Cell.AnyModified_total env s1 _ hvalid hpresent
        cases b with
        | false =>
          refine ⟨1, fun n hn => ?_⟩
          obtain ⟨m, rfl⟩ : ∃ m, n = m + 1 := ⟨n - 1, by omega⟩
          exact ⟨_, _, by simp only [Cell.GetValue, hc1, hb]; rfl⟩
        | true =>
          cases impl with
          | EmptyImpl =>
            refine ⟨1, fun n hn => ?_⟩
            obtain ⟨m, rfl⟩ : ∃ m, n = m + 1 := ⟨n - 1, by omega⟩
            exact ⟨_, _, by simp only [Cell.GetValue, hc1, hb, himpl1, Impl.GetValue]; rfl⟩
          | TextImpl t =>
            refine ⟨1, fun n hn => ?_⟩
            obtain ⟨m, rfl⟩ : ∃ m, n = m + 1 := ⟨n - 1, by omega⟩
            exact ⟨_, _, by simp only [Cell.GetValue, hc1, hb, himpl1, Impl.GetValue]; rfl⟩
          | FormulaImpl f =>
            obtain ⟨n0, hn0⟩ := Exec.run_total env s (fun q => q ∈ f.cells_)
              (fun q hq => hvalid q hq)
              (fun q hq => ih q ⟨c, _, hfind, hrefs, hq⟩)
              f.ast_.Execute (hasks p c f hfind himpl) s1 hs1
            refine ⟨n0 + 1, fun n hn => ?_⟩
            obtain ⟨m, rfl⟩ : ∃ m, n = m + 1 := ⟨n - 1, by omega⟩
            obtain ⟨r, s2, hr⟩ := hn0 m (by omega)
            cases r with
            | ok d =>
              exact ⟨_, _, by
                simp only [Cell.GetValue, hc1, hb, himpl1, Impl.GetValue, Formula.Evaluate, hr]; rfl⟩
            | error fe =>
              exact ⟨_, _, by
                simp only [Cell.GetValue, hc1, hb, himpl1, Impl.GetValue, Formula.Evaluate, hr]; rfl⟩

/-! ## The shape of the sheet after `SetCell` -/

/-- Whatever `SetCell` ends with, the sheet it leaves is the old one with
`Empty` cells added at some positions and, when it returned, the candidate
stored at `pos`. -/
theorem Sheet.SetCell_shape {Num : Type} (env : Env Num) (n : Nat) (pos : Position)
    (text : String) (s s1 : Sheet Num) (o : Except Exn Unit)
    (h : Sheet.SetCell env n pos text s = some (o, s1)) :
    (o ≠ .ok () ∧ ∃ L, s1 = s.fill L) ∨
    (o = .ok () ∧ pos.IsValid env = true ∧ ∃ L c, s1 = (s.fill L).assign pos c ∧
      c.GetReferencedCells = .ok L ∧ pos ∉ L ∧
      (c = Cell.new ∨ c = Cell.ofText text ∨
        ∃ rest f, text.data = '=' :: rest ∧ ParseFormula env (String.mk rest) = some f ∧
          c = Cell.ofFormula f ∧ ∀ r ∈ f.cells_, r.IsValid env = true)) := by
  have h3 : Sheet.SetCell env (n + 3) pos text s = some (o, s1) :=
    Sheet.SetCell_mono env (by omega) pos text s _ h
  by_cases hv : pos.IsValid env = true
  · cases hd : text.data with
    | nil =>
      rw [Sheet.SetCell_empty env (n + 1) pos text s hv hd] at h3
      simp only [Option.some.injEq, Prod.mk.injEq] at h3
      exact Or.inr ⟨h3.1.symm, hv, [], Cell.new, h3.2.symm, rfl, by simp, Or.inl rfl⟩
    | cons c rest =>
      by_cases hf : c = '=' ∧ rest ≠ []
      · obtain ⟨rfl, hne⟩ := hf
        cases hp : ParseFormula env (String.mk rest) with
        | none =>
          have hp1 : env.ParseFormulaAST (String.mk rest) = none := by
            simpa [ParseFormula] using hp
          rw [Sheet.SetCell_syntax_error env (n + 2) pos text s hv rest hd hne hp1] at h3
          simp only [Option.some.injEq, Prod.mk.injEq] at h3
          exact Or.inl ⟨by rw [← h3.1]; simp, [], h3.2.symm⟩
        | some f =>
          rw [Sheet.SetCell_formula env n pos text s hv rest hd hne f hp] at h3
          by_cases hall : f.cells_.all (fun r => r.IsValid env) = true
          · rw [if_pos hall] at h3
            cases hc : Sheet.CheckForCircularDependencies env (n + 2) (s.fill f.cells_)
                (some (Cell.ofFormula f)) pos with
            | none => simp [hc] at h3
            | some b =>
              simp only [hc] at h3
              cases b with
              | error e =>
                simp only [Option.some.injEq, Prod.mk.injEq] at h3
                exact Or.inl ⟨by rw [← h3.1]; simp, _, h3.2.symm⟩
              | ok b =>
                cases b with
                | true =>
                  simp only [Option.some.injEq, Prod.mk.injEq] at h3
                  exact Or.inl ⟨by rw [← h3.1]; simp, _, h3.2.symm⟩
                | false =>
                  simp only [Option.some.injEq, Prod.mk.injEq] at h3
                  have hnot : pos ∉ f.cells_ := fun hmem =>
                    Sheet.Check_false_sound env _ pos _ _ hc f.cells_ rfl pos hmem
                      Relation.ReflTransGen.refl
                  exact Or.inr ⟨h3.1.symm, hv, f.cells_, Cell.ofFormula f, h3.2.symm, rfl, hnot,
                    Or.inr (Or.inr ⟨rest, f, rfl, hp, rfl,
                      fun r hr => by simpa using List.all_eq_true.mp hall r hr⟩)⟩
          · rw [if_neg hall] at h3
            simp only [Option.some.injEq, Prod.mk.injEq] at h3
            exact Or.inl ⟨by rw [← h3.1]; simp, _, h3.2.symm⟩
      · rw [Sheet.SetCell_text env (n + 1) pos text s hv c rest hd hf] at h3
        simp only [Option.some.injEq, Prod.mk.injEq] at h3
        exact Or.inr ⟨h3.1.symm, hv, [], Cell.ofText text, h3.2.symm, rfl, by simp,
          Or.inr (Or.inl rfl)⟩
  · have : Sheet.SetCell env (n + 3) pos text s = some (.error .InvalidPositionException, s) := by
      simp [Sheet.SetCell, hv]
    rw [this] at h3
    simp only [Option.some.injEq, Prod.mk.injEq] at h3
    exact Or.inl ⟨by rw [← h3.1]; simp, [], h3.2.symm⟩

theorem mem_uniqueFrom (prev r : Position) (l : List Position) :
    r ∈ uniqueFrom prev l ∨ r = prev ↔ r ∈ l ∨ r = prev := by
  induction l generalizing prev with
  | nil => simp [uniqueFrom]
  | cons x xs ih =>
    unfold uniqueFrom
    by_cases hx : x = prev
    · subst hx
      simp only [if_true, List.mem_cons]
      rw [ih x]
      tauto
    · simp only [hx, if_false, List.mem_cons]
      have := ih x
      tauto

theorem mem_unique (r : Position) (l : List Position) : r ∈ unique l ↔ r ∈ l := by
  cases l with
  | nil => simp [unique]
  | cons x xs =>
    simp only [unique, List.mem_cons]
    have := mem_uniqueFrom x r xs
    tauto

theorem Formula.mem_cells_ofAST {Num : Type} (ast : FormulaAST Num) (r : Position) :
    r ∈ (Formula.ofAST ast).cells_ ↔ r ∈ ast.GetCells := by
  unfold Formula.ofAST
  simp only
  rw [(List.perm_insertionSort Position.le (unique ast.GetCells)).mem_iff, mem_unique]

theorem Exec.AsksWithin.mono {Num : Type} {R Q : Position → Prop} (hRQ : ∀ p, R p → Q p)
    {e : Exec Num} (h : e.AsksWithin R) : e.AsksWithin Q := by
  induction h with
  | ret d => exact .ret d
  | raise fe => exact .raise fe
  | ask pos k hp _ ih => exact .ask pos k (hRQ pos hp) ih

theorem Sheet.AsksOwn_fill {Num : Type} (s : Sheet Num) (L : List Position)
    (h : s.AsksOwn) : (s.fill L).AsksOwn := by
  intro p c f hfind himpl
  rw [Sheet.find_fill] at hfind
  cases hp : s.find p with
  | some c0 =>
    simp only [hp, Option.some.injEq] at hfind
    subst hfind
    exact h p c0 f hp himpl
  | none =>
    simp only [hp] at hfind
    by_cases hm : p ∈ L
    · simp only [hm, if_true, Option.some.injEq] at hfind
      subst hfind
      simp [Cell.new] at himpl
    · simp [hm] at hfind

theorem Sheet.SetCell_asksOwn {Num : Type} (env : Env Num) (henv : env.AsksReported)
    (n : Nat) (pos : Position) (text : String) (s s1 : Sheet Num) (o : Except Exn Unit)
    (hs : s.AsksOwn) (h : Sheet.SetCell env n pos text s = some (o, s1)) : s1.AsksOwn := by
  rcases Sheet.SetCell_shape env n pos text s s1 o h with ⟨_, L, rfl⟩ | ⟨_, _, L, c, rfl, _, _, hc⟩
  · exact Sheet.AsksOwn_fill s L hs
  · intro p c1 f hfind himpl
    rw [Sheet.find_assign] at hfind
    by_cases hp : pos = p
    · simp only [hp, if_true, Option.some.injEq] at hfind
      subst hfind
      rcases hc with rfl | rfl | ⟨rest, f1, _, hparse, rfl, _⟩
      · simp [Cell.new] at himpl
      · simp [Cell.ofText] at himpl
      · simp only [Cell.ofFormula, Option.some.injEq, Impl.FormulaImpl.injEq] at himpl
        subst himpl
        unfold ParseFormula at hparse
        cases hast : env.ParseFormulaAST (String.mk rest) with
        | none => simp [hast] at hparse
        | some ast =>
          simp only [hast, Option.map_some', Option.some.injEq] at hparse
          subst hparse
          exact (henv _ ast hast).mono (fun q hq => (Formula.mem_cells_ofAST ast q).mpr hq)
    · simp only [hp, if_false] at hfind
      exact Sheet.AsksOwn_fill s L hs p c1 f hfind himpl

theorem Sheet.SameImpl.asksOwn {Num : Type} {s s1 : Sheet Num} (h : s.SameImpl s1)
    (hs : s.AsksOwn) : s1.AsksOwn := by
  intro p c1 f hfind himpl
  obtain ⟨c, hc, hci⟩ := h.symm.find_some hfind
  exact hs p c f hc (by rw [hci, himpl])

theorem Reachable.asksOwn_of_reported {Num : Type} (env : Env Num) (henv : env.AsksReported)
    (s : Sheet Num) (h : Reachable env s) : s.AsksOwn := by
  induction h with
  | empty =>
    intro p c f hfind
    simp [Sheet.find] at hfind
  | SetCell _ hset ih => exact Sheet.SetCell_asksOwn env henv _ _ _ _ _ _ ih hset
  | ClearCell pos _ ih =>
    unfold Sheet.ClearCell
    by_cases hv : pos.IsValid env = true
    · simp only [hv, if_true]
      intro p c f hfind himpl
      rw [Sheet.find_erase] at hfind
      by_cases hp : pos = p
      · simp [hp] at hfind
      · simp only [hp, if_false] at hfind
        exact ih p c f hfind himpl
    · simp only [hv, if_false]
      exact ih
  | GetValue _ hget ih => exact (Cell.GetValue_sameImpl env _ _ _ _ _ hget).asksOwn ih

/-! ## Facts about the concrete instance -/

namespace Demo

theorem Expr.exec_asks (leftFirst : Bool) (R : Position → Prop) (e : Expr)
    (k : Int → Exec Int) (hcells : ∀ p ∈ e.cells, R p) (hk : ∀ d, (k d).AsksWithin R) :
    (e.exec leftFirst k).AsksWithin R := by
  induction e generalizing k with
  | lit d => exact hk d
  | cell p =>
    unfold Expr.exec
    by_cases hv : valid p = true
    · simp only [hv, if_true]
      refine .ask p _ (hcells p (by simp [Expr.cells])) (fun v => ?_)
      cases v with
      | none => exact .raise _
      | some v =>
        cases v with
        | num d => exact hk d
        | err fe => exact .raise fe
        | str t =>
          simp only
          cases toNumber t with
          | none => exact .raise _
          | some d => exact hk d
    · simp only [hv]
      exact .raise _
  | add l r ihl ihr =>
    have hl : ∀ p ∈ l.cells, R p := fun p hp => hcells p (by simp [Expr.cells, hp])
    have hr : ∀ p ∈ r.cells, R p := fun p hp => hcells p (by simp [Expr.cells, hp])
    unfold Expr.exec
    cases leftFirst with
    | true => exact ihl _ hl (fun a => ihr _ hr (fun b => hk _))
    | false => exact ihr _ hr (fun b => ihl _ hl (fun a => hk _))
  | mul l r ihl ihr =>
    have hl : ∀ p ∈ l.cells, R p := fun p hp => hcells p (by simp [Expr.cells, hp])
    have hr : ∀ p ∈ r.cells, R p := fun p hp => hcells p (by simp [Expr.cells, hp])
    unfold Expr.exec
    cases leftFirst with
    | true => exact ihl _ hl (fun a => ihr _ hr (fun b => hk _))
    | false => exact ihr _ hr (fun b => ihl _ hl (fun a => hk _))
  | div l r ihl ihr =>
    have hl : ∀ p ∈ l.cells, R p := fun p hp => hcells p (by simp [Expr.cells, hp])
    have hr : ∀ p ∈ r.cells, R p := fun p hp => hcells p (by simp [Expr.cells, hp])
    have hdiv : ∀ a b : Int,
        (if b = 0 then (Exec.raise ⟨.Div0⟩ : Exec Int) else k (a / b)).AsksWithin R := by
      intro a b
      by_cases hb : b = 0
      · simp only [hb, if_true]
        exact .raise _
      · simp only [hb, if_false]
        exact hk _
    unfold Expr.exec
    cases leftFirst with
    | true => exact ihl _ hl (fun a => ihr _ hr (fun b => hdiv a b))
    | false => exact ihr _ hr (fun b => ihl _ hl (fun a => hdiv a b))

theorem envOrder_asksReported (leftFirst : Bool) : (envOrder leftFirst).AsksReported := by
  intro text ast h
  have key : ∃ e : Expr, ast = e.toAST leftFirst text := by
    simp only [envOrder, parse] at h
    split_ifs at h <;> exact ⟨_, (Option.some.inj h).symm⟩
  obtain ⟨e, rfl⟩ := key
  exact Expr.exec_asks leftFirst _ e Exec.ret (fun p hp => hp) (fun d => .ret d)

theorem env_asksReported : env.AsksReported := envOrder_asksReported true

end Demo

theorem Reachable.run {Num : Type} (env : Env Num) (fuel : Nat) (calls : List Call)
    (s s1 : Sheet Num) (hs : Reachable env s) (h : Sheet.run env fuel calls s = some s1) :
    Reachable env s1 := by
  induction calls generalizing s with
  | nil =>
    simp only [Sheet.run, Option.some.injEq] at h
    exact h ▸ hs
  | cons c cs ih =>
    unfold Sheet.run at h
    cases hc : c.apply env fuel s with
    | none => simp [hc] at h
    | some s2 =>
      simp only [hc] at h
      refine ih s2 ?_ h
      cases c with
      | SetCell pos text =>
        simp only [Call.apply, Option.map_eq_some'] at hc
        obtain ⟨⟨o, s3⟩, hset, rfl⟩ := hc
        exact Reachable.SetCell hs hset
      | ClearCell pos =>
        simp only [Call.apply, Option.some.injEq] at hc
        exact hc ▸ Reachable.ClearCell pos hs
      | GetValue pos =>
        simp only [Call.apply, Option.map_eq_some'] at hc
        obtain ⟨⟨o, s3⟩, hget, rfl⟩ := hc
        exact Reachable.GetValue hs hget

theorem Sheet.mem_of_find {Num : Type} (s : Sheet Num) (p : Position) (c : Cell Num)
    (h : s.find p = some c) : (p, c) ∈ s := by
  induction s with
  | nil => simp [Sheet.find] at h
  | cons kv rest ih =>
    obtain ⟨k, c0⟩ := kv
    by_cases hk : k = p
    · simp only [Sheet.find, hk, if_true, Option.some.injEq] at h
      simp [hk, h]
    · simp only [Sheet.find, hk, if_false] at h
      exact List.mem_cons_of_mem _ (ih h)

theorem Sheet.Closed_of_test {Num : Type} (s : Sheet Num) (h : s.closedTest = true) :
    s.Closed := by
  intro p c refs hfind hrefs r hr
  have hmem := Sheet.mem_of_find s p c hfind
  have := List.all_eq_true.mp h (p, c) hmem
  simp only [hrefs, List.all_eq_true] at this
  have hr1 := this r hr
  intro hnone
  simp [hnone] at hr1

/-- The outcome of a formula edit that returned: every reference is valid,
none reaches `pos`, and the sheet is the old one with the references
materialised and the candidate stored at `pos`. -/
theorem Sheet.SetCell_formula_ok {Num : Type} (env : Env Num) (n : Nat) (pos : Position)
    (text : String) (s s1 : Sheet Num) (hv : pos.IsValid env = true)
    (rest : List Char) (hd : text.data = '=' :: rest) (hne : rest ≠ [])
    (f : Formula Num) (hp : ParseFormula env (String.mk rest) = some f)
    (h : Sheet.SetCell env n pos text s = some (.ok (), s1)) :
    s1 = (s.fill f.cells_).assign pos (Cell.ofFormula f) ∧
      (∀ r ∈ f.cells_, r.IsValid env = true) ∧
      (∀ r ∈ f.cells_, ¬ Relation.ReflTransGen s.Edge r pos) := by
  have h3 : Sheet.SetCell env (n + 3) pos text s = some (.ok (), s1) :=
    Sheet.SetCell_mono env (by omega) pos text s _ h
  rw [Sheet.SetCell_formula env n pos text s hv rest hd hne f hp] at h3
  by_cases hall : f.cells_.all (fun r => r.IsValid env) = true
  · rw [if_pos hall] at h3
    cases hc : Sheet.CheckForCircularDependencies env (n + 2) (s.fill f.cells_)
        (some (Cell.ofFormula f)) pos with
    | none => simp [hc] at h3
    | some b =>
      simp only [hc] at h3
      cases b with
      | error e => simp at h3
      | ok b =>
        cases b with
        | true => simp at h3
        | false =>
          simp only [Option.some.injEq, Prod.mk.injEq, true_and] at h3
          refine ⟨h3.symm, fun r hr => by simpa using List.all_eq_true.mp hall r hr, ?_⟩
          intro r hr hpath
          refine Sheet.Check_false_sound env _ pos _ _ hc f.cells_ rfl r hr ?_
          exact Relation.ReflTransGen.mono (fun a b hab => (Sheet.Edge_fill s _ a b).mpr hab) hpath
  · rw [if_neg hall] at h3
    simp at h3

/-! ## Facts for `ClearCell` and for a formula that throws -/

theorem Sheet.erase_of_find_none {Num : Type} (s : Sheet Num) (pos : Position)
    (h : s.find pos = none) : s.erase pos = s := by
  induction s with
  | nil => rfl
  | cons kv rest ih =>
    obtain ⟨k, c⟩ := kv
    by_cases hk : k = pos
    · simp [Sheet.find, hk] at h
    · simp only [Sheet.find, hk, if_false] at h
      have := ih h
      unfold Sheet.erase at this ⊢
      simp [List.filter, hk, this]

theorem Sheet.find_erase_self {Num : Type} (s : Sheet Num) (pos : Position) :
    (s.erase pos).find pos = none := by
  simp [Sheet.find_erase]

/-- The value `GetValue` gives when it recomputes a formula cell: what
`Cell.ofRun` makes of the run of the tree. -/
theorem Cell.GetValue_formula_recompute {Num : Type} (env : Env Num) (s : Sheet Num)
    (pos : Position) (cell : Cell Num) (f : Formula Num) (m : Nat)
    (hfind : s.find pos = some cell) (himpl : cell.impl_ = some (.FormulaImpl f))
    (hrc : Cell.Recomputes env s cell = .ok true) :
    Cell.GetValue env (m + 1) pos s =
      Cell.ofRun pos (Exec.run env (Cell.GetValue env m) f.ast_.Execute s) := by
  simp only [Cell.GetValue, hfind, hrc, himpl]
  simp only [Impl.GetValue, Formula.Evaluate]
  cases hr : Exec.run env (Cell.GetValue env m) f.ast_.Execute s with
  | none => rfl
  | some y =>
    obtain ⟨o, s2⟩ := y
    cases o with
    | error e => rfl
    | ok r =>
      cases r with
      | ok d => rfl
      | error fe => rfl

/-! ## The cycle check ends on a sheet without cycles -/

/-- The loop ends, with a result or an exception, when every recursive call ends. -/
theorem Sheet.CheckLoop_returns {Num : Type} (env : Env Num)
    (recurse : Option (Cell Num) → Option (Except Exn Bool))
    (s : Sheet Num) (head : Position) (refs : List Position) (res : Bool)
    (hrec : ∀ r ∈ refs, ∃ x, recurse (s.find r) = some x) :
    ∃ x, Sheet.CheckLoop env recurse s head refs res = some x := by
  induction refs generalizing res with
  | nil => exact ⟨.ok res, rfl⟩
  | cons r rest ih =>
    have ihr := fun res => ih res (fun a ha => hrec a (List.mem_cons_of_mem _ ha))
    unfold Sheet.CheckLoop
    by_cases hr : r = head
    · exact ⟨.ok true, by simp [hr]⟩
    · simp only [hr, if_false]
      cases res with
      | true => simpa using ihr true
      | false =>
        simp only [Bool.false_eq_true, if_false]
        cases hg : Sheet.GetCell env s r with
        | error e => exact ⟨.error e, rfl⟩
        | ok cell =>
          have hcell : cell = s.find r := (Sheet.GetCell_ok env s r cell hg).2
          obtain ⟨x, hx⟩ := hrec r (by simp)
          simp only [hcell, hx]
          cases x with
          | error e => exact ⟨.error e, rfl⟩
          | ok b => exact ihr b

theorem Sheet.Check_returns_of_refs {Num : Type} (env : Env Num) (s : Sheet Num)
    (head : Position) (cell : Cell Num)
    (hrec : ∀ refs, cell.GetReferencedCells = .ok refs → ∀ r ∈ refs, ∃ n0, ∀ n, n0 ≤ n →
      ∃ x, Sheet.CheckForCircularDependencies env n s (s.find r) head = some x) :
    ∃ n0, ∀ n, n0 ≤ n →
      ∃ x, Sheet.CheckForCircularDependencies env n s (some cell) head = some x := by
  cases hrefs : cell.GetReferencedCells with
  | error e =>
    refine ⟨1, fun n hn => ?_⟩
    obtain ⟨m, rfl⟩ : ∃ m, n = m + 1 := ⟨n - 1, by omega⟩
    exact ⟨.error e, by simp [Sheet.CheckForCircularDependencies, hrefs]⟩
  | ok refs =>
    obtain ⟨N, hN⟩ := exists_uniform_bound
      (fun r n => ∃ x, Sheet.CheckForCircularDependencies env n s (s.find r) head = some x)
      refs (hrec refs hrefs)
    refine ⟨N + 1, fun n hn => ?_⟩
    obtain ⟨m, rfl⟩ : ∃ m, n = m + 1 := ⟨n - 1, by omega⟩
    unfold Sheet.CheckForCircularDependencies
    simp only [hrefs]
    exact Sheet.CheckLoop_returns env _ s head refs false (fun r hr => hN r hr m (by omega))

theorem Sheet.Check_returns_at {Num : Type} (env : Env Num) (s : Sheet Num)
    (hac : s.Acyclic) (head : Position) (p : Position) :
    ∃ n0, ∀ n, n0 ≤ n →
      ∃ x, Sheet.CheckForCircularDependencies env n s (s.find p) head = some x := by
  induction p using (Sheet.wellFounded_of_acyclic s hac).induction with
  | _ p ih =>
    cases hfind : s.find p with
    | none =>
      refine ⟨1, fun n hn => ⟨.ok false, ?_⟩⟩
      obtain ⟨m, rfl⟩ : ∃ m, n = m + 1 := ⟨n - 1, by omega⟩
      rfl
    | some cell =>
      exact Sheet.Check_returns_of_refs env s head cell
        (fun refs hrefs r hr => ih r ⟨cell, refs, hfind, hrefs, hr⟩)

namespace Demo

theorem sheetDiamond_reachable : Reachable env sheetDiamond :=
  Reachable.run env 5 shared [] sheetDiamond Reachable.empty rfl

theorem sheetCleared_reachable : Reachable env sheetCleared :=
  Reachable.run env 5 cleared [] sheetCleared Reachable.empty rfl

end Demo

/-! ## Dangling references -/

theorem Sheet.Closed_fill {Num : Type} (s : Sheet Num) (L : List Position) (h : s.Closed) :
    (s.fill L).Closed := by
  intro p c refs hfind hrefs r hr
  rw [Sheet.find_fill] at hfind
  have hkeep : ∀ q, s.find q ≠ none → (s.fill L).find q ≠ none := by
    intro q hq
    rw [Sheet.find_fill]
    cases hfq : s.find q with
    | none => exact absurd hfq hq
    | some cq => simp
  cases hp : s.find p with
  | some c0 =>
    simp only [hp, Option.some.injEq] at hfind
    subst hfind
    exact hkeep r (h p c0 refs hp hrefs r hr)
  | none =>
    simp only [hp] at hfind
    by_cases hm : p ∈ L
    · simp only [hm, if_true, Option.some.injEq] at hfind
      subst hfind
      simp only [Cell.new, Cell.GetReferencedCells, Impl.GetReferencedCells,
        Except.ok.injEq] at hrefs
      subst hrefs
      simp at hr
    · simp [hm] at hfind

theorem Sheet.Closed_assign {Num : Type} (s : Sheet Num) (pos : Position) (c : Cell Num)
    (h : s.Closed)
    (hc : ∀ refs, c.GetReferencedCells = .ok refs → ∀ r ∈ refs, s.find r ≠ none) :
    (s.assign pos c).Closed := by
  intro p c1 refs hfind hrefs r hr
  have hkeep : ∀ q, s.find q ≠ none → (s.assign pos c).find q ≠ none := by
    intro q hq
    rw [Sheet.find_assign]
    by_cases hpq : pos = q
    · simp [hpq]
    · simpa [hpq] using hq
  rw [Sheet.find_assign] at hfind
  by_cases hp : pos = p
  · simp only [hp, if_true, Option.some.injEq] at hfind
    subst hfind
    exact hkeep r (hc refs hrefs r hr)
  · simp only [hp, if_false] at hfind
    exact hkeep r (h p c1 refs hfind hrefs r hr)

theorem Sheet.Closed_erase {Num : Type} (s : Sheet Num) (pos : Position) (h : s.Closed)
    (hun : s.Unreferenced pos) : (s.erase pos).Closed := by
  intro p c refs hfind hrefs r hr
  rw [Sheet.find_erase] at hfind ⊢
  by_cases hp : pos = p
  · simp [hp] at hfind
  · simp only [hp, if_false] at hfind
    have hne : ¬ pos = r := fun heq => hun p c refs hfind hrefs (heq ▸ hr)
    simp only [hne, if_false]
    exact h p c refs hfind hrefs r hr

theorem Sheet.SetCell_closed {Num : Type} (env : Env Num) (n : Nat) (pos : Position)
    (text : String) (s s1 : Sheet Num) (o : Except Exn Unit) (hs : s.Closed)
    (h : Sheet.SetCell env n pos text s = some (o, s1)) : s1.Closed := by
  rcases Sheet.SetCell_shape env n pos text s s1 o h with
    ⟨_, L, rfl⟩ | ⟨_, _, L, c, rfl, hrefs, _, _⟩
  · exact Sheet.Closed_fill s L hs
  · refine Sheet.Closed_assign _ pos c (Sheet.Closed_fill s L hs) ?_
    intro refs hrefs1 r hr
    rw [hrefs] at hrefs1
    cases hrefs1
    rw [Sheet.find_fill]
    cases hfr : s.find r with
    | none => simp [hr]
    | some cr => simp

theorem ReachableKeepingReferenced.closed_sheet {Num : Type} (env : Env Num) (s : Sheet Num)
    (h : ReachableKeepingReferenced env s) : s.Closed := by
  induction h with
  | empty =>
    intro p c refs hfind
    simp [Sheet.find] at hfind
  | SetCell _ hset ih => exact Sheet.SetCell_closed env _ _ _ _ _ _ ih hset
  | ClearCell pos _ hun ih =>
    unfold Sheet.ClearCell
    by_cases hv : pos.IsValid env = true
    · simp only [hv, if_true]
      exact Sheet.Closed_erase _ pos ih hun
    · simp only [hv, if_false]
      exact ih
  | GetValue _ hget ih => exact (Cell.GetValue_sameImpl env _ _ _ _ _ hget).closed ih

theorem Sheet.Unreferenced_of_test {Num : Type} (s : Sheet Num) (pos : Position)
    (h : s.unreferencedTest pos = true) : s.Unreferenced pos := by
  intro p c refs hfind hrefs hmem
  have hkv := List.all_eq_true.mp h (p, c) (Sheet.mem_of_find s p c hfind)
  simp only [hrefs, List.all_eq_true] at hkv
  simpa using hkv pos hmem

/-! ## The printable area -/

theorem Position.IsValid_bounds {Num : Type} (env : Env Num) (p : Position)
    (h : p.IsValid env = true) :
    0 ≤ p.row ∧ 0 ≤ p.col ∧ p.row < env.MAX_ROWS ∧ p.col < env.MAX_COLS := by
  simpa [Position.IsValid, and_assoc] using h

theorem Position.IsValid_of_bounds {Num : Type} (env : Env Num) (p : Position)
    (h : 0 ≤ p.row ∧ 0 ≤ p.col ∧ p.row < env.MAX_ROWS ∧ p.col < env.MAX_COLS) :
    p.IsValid env = true := by
  simpa [Position.IsValid, and_assoc] using h

/-- The loop computes the largest row and the largest column among the start
value and the keys. -/
theorem Sheet.CornerLoop_spec (keys : List Position) (right : Position) :
    (right.row ≤ (Sheet.CornerLoop keys right).row ∧
      right.col ≤ (Sheet.CornerLoop keys right).col) ∧
    (∀ k ∈ keys, k.row ≤ (Sheet.CornerLoop keys right).row ∧
      k.col ≤ (Sheet.CornerLoop keys right).col) ∧
    ((Sheet.CornerLoop keys right).row = right.row ∨
      ∃ k ∈ keys, k.row = (Sheet.CornerLoop keys right).row) ∧
    ((Sheet.CornerLoop keys right).col = right.col ∨
      ∃ k ∈ keys, k.col = (Sheet.CornerLoop keys right).col) := by
  induction keys generalizing right with
  | nil => simp [Sheet.CornerLoop]
  | cons key rest ih =>
    obtain ⟨⟨h1r, h1c⟩, h2, h3, h4⟩ := ih
      { col := if right.col < key.col then key.col else right.col,
        row := if right.row < key.row then key.row else right.row }
    have hrow : right.row ≤ (if right.row < key.row then key.row else right.row) ∧
        key.row ≤ (if right.row < key.row then key.row else right.row) := by
      split_ifs <;> omega
    have hcol : right.col ≤ (if right.col < key.col then key.col else right.col) ∧
        key.col ≤ (if right.col < key.col then key.col else right.col) := by
      split_ifs <;> omega
    simp only [Sheet.CornerLoop]
    simp only at h1r h1c h3 h4
    refine ⟨⟨le_trans hrow.1 h1r, le_trans hcol.1 h1c⟩, ?_, ?_, ?_⟩
    · intro k hk
      rcases List.mem_cons.mp hk with rfl | hmem
      · exact ⟨le_trans hrow.2 h1r, le_trans hcol.2 h1c⟩
      · exact h2 k hmem
    · rcases h3 with h | ⟨k, hk, hkr⟩
      · by_cases hlt : right.row < key.row
        · exact Or.inr ⟨key, by simp, by rw [h, if_pos hlt]⟩
        · exact Or.inl (by rw [h, if_neg hlt])
      · exact Or.inr ⟨k, List.mem_cons_of_mem _ hk, hkr⟩
    · rcases h4 with h | ⟨k, hk, hkc⟩
      · by_cases hlt : right.col < key.col
        · exact Or.inr ⟨key, by simp, by rw [h, if_pos hlt]⟩
        · exact Or.inl (by rw [h, if_neg hlt])
      · exact Or.inr ⟨k, List.mem_cons_of_mem _ hk, hkc⟩

/-- On a sheet that holds a cell and whose keys have no negative coordinate,
the right corner carries the largest row and the largest column of the keys,
provided `NONE` has negative coordinates. -/
theorem Sheet.GetLeftRightCorners_spec {Num : Type} (NONE : Position) (s : Sheet Num)
    (hN : NONE.row < 0 ∧ NONE.col < 0) (hne : s ≠ [])
    (hkeys : ∀ k ∈ s.keys, 0 ≤ k.row ∧ 0 ≤ k.col) :
    (Sheet.GetLeftRightCorners NONE s).1 = ⟨0, 0⟩ ∧
    (∀ k ∈ s.keys, k.row ≤ (Sheet.GetLeftRightCorners NONE s).2.row ∧
      k.col ≤ (Sheet.GetLeftRightCorners NONE s).2.col) ∧
    (∃ k ∈ s.keys, k.row = (Sheet.GetLeftRightCorners NONE s).2.row) ∧
    (∃ k ∈ s.keys, k.col = (Sheet.GetLeftRightCorners NONE s).2.col) := by
  match s, hne, hkeys with
  | [(pos, c)], _, _ =>
    simp [Sheet.GetLeftRightCorners, Sheet.keys]
  | (p1, c1) :: (p2, c2) :: rest, _, hkeys =>
    obtain ⟨_, h2, h3, h4⟩ := Sheet.CornerLoop_spec (Sheet.keys ((p1, c1) :: (p2, c2) :: rest)) NONE
    have hfirst : p1 ∈ Sheet.keys ((p1, c1) :: (p2, c2) :: rest) := by simp [Sheet.keys]
    have hp1 := hkeys p1 hfirst
    have hle := h2 p1 hfirst
    refine ⟨rfl, h2, ?_, ?_⟩
    · rcases h3 with h | h
      · simp only [Sheet.GetLeftRightCorners] at *
        omega
      · exact h
    · rcases h4 with h | h
      · simp only [Sheet.GetLeftRightCorners] at *
        omega
      · exact h

/-! ## What reading a value preserves, in general -/

theorem Exec.run_preserves {Num : Type} (env : Env Num) (Rel : Sheet Num → Sheet Num → Prop)
    (hrefl : ∀ s, Rel s s) (htrans : ∀ s s1 s2, Rel s s1 → Rel s1 s2 → Rel s s2)
    (gv : Position → Sheet Num → Option (Except Exn (CellInterface.Value Num) × Sheet Num))
    (hgv : ∀ p s x s1, gv p s = some (x, s1) → Rel s s1)
    (e : Exec Num) (s : Sheet Num) (x : Except Exn (Except FormulaError Num)) (s1 : Sheet Num)
    (h : Exec.run env gv e s = some (x, s1)) : Rel s s1 := by
  induction e generalizing s with
  | ret d =>
    simp only [Exec.run, Option.some.injEq, Prod.mk.injEq] at h
    rw [← h.2]
    exact hrefl s
  | raise fe =>
    simp only [Exec.run, Option.some.injEq, Prod.mk.injEq] at h
    rw [← h.2]
    exact hrefl s
  | ask pos k ih =>
    unfold Exec.run at h
    cases hg : Sheet.GetCell env s pos with
    | error e =>
      simp only [hg, Option.some.injEq, Prod.mk.injEq] at h
      rw [← h.2]
      exact hrefl s
    | ok cell =>
      cases cell with
      | none =>
        simp only [hg] at h
        exact ih none s h
      | some c =>
        simp only [hg] at h
        cases hv : gv pos s with
        | none => simp [hv] at h
        | some y =>
          obtain ⟨o, s2⟩ := y
          simp only [hv] at h
          have h12 := hgv pos s o s2 hv
          cases o with
          | error e =>
            simp only [Option.some.injEq, Prod.mk.injEq] at h
            rw [← h.2]
            exact h12
          | ok v => exact htrans _ _ _ h12 (ih (some v) s2 h)

theorem Impl.GetValue_preserves_rel {Num : Type} (env : Env Num) (Rel : Sheet Num → Sheet Num → Prop)
    (hrefl : ∀ s, Rel s s) (htrans : ∀ s s1 s2, Rel s s1 → Rel s1 s2 → Rel s s2)
    (gv : Position → Sheet Num → Option (Except Exn (CellInterface.Value Num) × Sheet Num))
    (hgv : ∀ p s x s1, gv p s = some (x, s1) → Rel s s1)
    (impl : Impl Num) (s : Sheet Num) (x : Except Exn (CellInterface.Value Num)) (s1 : Sheet Num)
    (h : impl.GetValue env gv s = some (x, s1)) : Rel s s1 := by
  cases impl with
  | EmptyImpl =>
    simp only [Impl.GetValue, Option.some.injEq, Prod.mk.injEq] at h
    rw [← h.2]
    exact hrefl s
  | TextImpl t =>
    simp only [Impl.GetValue, Option.some.injEq, Prod.mk.injEq] at h
    rw [← h.2]
    exact hrefl s
  | FormulaImpl f =>
    unfold Impl.GetValue Formula.Evaluate at h
    cases hr : Exec.run env gv f.ast_.Execute s with
    | none => simp [hr] at h
    | some y =>
      obtain ⟨o, s2⟩ := y
      have h12 := Exec.run_preserves env Rel hrefl htrans gv hgv _ s o s2 hr
      simp only [hr] at h
      cases o with
      | error e =>
        simp only [Option.some.injEq, Prod.mk.injEq] at h
        rw [← h.2]
        exact h12
      | ok r =>
        cases r with
        | error fe =>
          simp only [Option.some.injEq, Prod.mk.injEq] at h
          rw [← h.2]
          exact h12
        | ok d =>
          simp only [Option.some.injEq, Prod.mk.injEq] at h
          rw [← h.2]
          exact h12

theorem Cell.GetValue_preserves {Num : Type} (env : Env Num) (Rel : Sheet Num → Sheet Num → Prop)
    (hrefl : ∀ s, Rel s s) (htrans : ∀ s s1 s2, Rel s s1 → Rel s1 s2 → Rel s s2)
    (hset : ∀ s pos v, Rel s (Sheet.SetCacheAt s pos v)) (n : Nat) (pos : Position)
    (s : Sheet Num) (x : Except Exn (CellInterface.Value Num)) (s1 : Sheet Num)
    (h : Cell.GetValue env n pos s = some (x, s1)) : Rel s s1 := by
  induction n generalizing pos s x s1 with
  | zero => simp [Cell.GetValue] at h
  | succ n ih =>
    unfold Cell.GetValue at h
    cases hf : s.find pos with
    | none =>
      simp only [hf, Option.some.injEq, Prod.mk.injEq] at h
      rw [← h.2]
      exact hrefl s
    | some cell =>
      simp only [hf] at h
      cases hrc : Cell.Recomputes env s cell with
      | error e =>
        simp only [hrc, Option.some.injEq, Prod.mk.injEq] at h
        rw [← h.2]
        exact hrefl s
      | ok b =>
        cases b with
        | false =>
          simp only [hrc, Option.some.injEq, Prod.mk.injEq] at h
          rw [← h.2]
          exact hrefl s
        | true =>
          simp only [hrc] at h
          cases himpl : cell.impl_ with
          | none =>
            simp only [himpl, Option.some.injEq, Prod.mk.injEq] at h
            rw [← h.2]
            exact hset s pos _
          | some impl =>
            simp only [himpl] at h
            cases hi : impl.GetValue env (Cell.GetValue env n) s with
            | none => simp [hi] at h
            | some y =>
              obtain ⟨o, s2⟩ := y
              have h12 := Impl.GetValue_preserves_rel env Rel hrefl htrans _ (fun p s x s1 hx => ih p s x s1 hx)
                impl s o s2 hi
              simp only [hi] at h
              cases o with
              | error e =>
                simp only [Option.some.injEq, Prod.mk.injEq] at h
                rw [← h.2]
                exact h12
              | ok v =>
                simp only [Option.some.injEq, Prod.mk.injEq] at h
                rw [← h.2]
                exact htrans _ _ _ h12 (hset s2 pos _)

/-! ## The keys of a reachable sheet are valid positions -/

theorem Sheet.keys_assign_of_find {Num : Type} (s : Sheet Num) (pos : Position)
    (c0 c : Cell Num) (h : s.find pos = some c0) : (s.assign pos c).keys = s.keys := by
  induction s with
  | nil => simp [Sheet.find] at h
  | cons kv rest ih =>
    obtain ⟨k, c1⟩ := kv
    by_cases hk : k = pos
    · simp [Sheet.assign, Sheet.keys, hk]
    · simp only [Sheet.find, hk, if_false] at h
      have := ih h
      simp only [Sheet.keys] at this
      simp [Sheet.assign, Sheet.keys, hk, this]

theorem Sheet.keys_SetCacheAt {Num : Type} (s : Sheet Num) (pos : Position)
    (v : CellInterface.Value Num) : (s.SetCacheAt pos v).keys = s.keys := by
  unfold Sheet.SetCacheAt
  cases hf : s.find pos with
  | none => rfl
  | some c => exact Sheet.keys_assign_of_find s pos c _ hf

theorem Cell.GetValue_keys {Num : Type} (env : Env Num) (n : Nat) (pos : Position)
    (s : Sheet Num) (x : Except Exn (CellInterface.Value Num)) (s1 : Sheet Num)
    (h : Cell.GetValue env n pos s = some (x, s1)) : s1.keys = s.keys :=
  Cell.GetValue_preserves env (fun a b => b.keys = a.keys) (fun _ => rfl)
    (fun _ _ _ h1 h2 => h2.trans h1) (fun a p v => Sheet.keys_SetCacheAt a p v) n pos s x s1 h

theorem Sheet.mem_keys_assign {Num : Type} (s : Sheet Num) (pos : Position) (c : Cell Num)
    (k : Position) (h : k ∈ (s.assign pos c).keys) : k ∈ s.keys ∨ k = pos := by
  induction s with
  | nil =>
    simp only [Sheet.assign, Sheet.keys, List.map_cons, List.map_nil, List.mem_singleton] at h
    exact Or.inr h
  | cons kv rest ih =>
    obtain ⟨k0, c0⟩ := kv
    by_cases hk : k0 = pos
    · simp only [Sheet.assign, hk, if_true, Sheet.keys, List.map_cons, List.mem_cons] at h ⊢
      rcases h with h | h
      · exact Or.inr h
      · exact Or.inl (Or.inr h)
    · simp only [Sheet.assign, hk, if_false, Sheet.keys, List.map_cons, List.mem_cons] at h ⊢
      rcases h with h | h
      · exact Or.inl (Or.inl h)
      · rcases ih h with h1 | h1
        · exact Or.inl (Or.inr h1)
        · exact Or.inr h1

theorem Sheet.KeysValid_assign {Num : Type} (env : Env Num) (s : Sheet Num) (pos : Position)
    (c : Cell Num) (hs : s.KeysValid env) (hv : pos.IsValid env = true) :
    (s.assign pos c).KeysValid env := by
  intro k hk
  rcases Sheet.mem_keys_assign s pos c k hk with h | rfl
  · exact hs k h
  · exact hv

theorem Sheet.KeysValid_fill {Num : Type} (env : Env Num) (s : Sheet Num) (L : List Position)
    (hs : s.KeysValid env) (hL : ∀ r ∈ L, r.IsValid env = true) : (s.fill L).KeysValid env := by
  induction L generalizing s with
  | nil => exact hs
  | cons r rest ih =>
    have hrest : ∀ a ∈ rest, a.IsValid env = true := fun a ha => hL a (List.mem_cons_of_mem _ ha)
    unfold Sheet.fill
    cases hr : s.find r with
    | some c => exact ih s hs hrest
    | none => exact ih _ (Sheet.KeysValid_assign env s r Cell.new hs (hL r (by simp))) hrest

theorem Sheet.KeysValid_erase {Num : Type} (env : Env Num) (s : Sheet Num) (pos : Position)
    (hs : s.KeysValid env) : (s.erase pos).KeysValid env := by
  intro k hk
  refine hs k ?_
  simp only [Sheet.keys, Sheet.erase, List.mem_map] at hk ⊢
  obtain ⟨kv, hkv, rfl⟩ := hk
  exact ⟨kv, (List.mem_filter.mp hkv).1, rfl⟩

theorem Sheet.SetCell_keysValid {Num : Type} (env : Env Num) (n : Nat) (pos : Position)
    (text : String) (s s1 : Sheet Num) (o : Except Exn Unit) (hs : s.KeysValid env)
    (h : Sheet.SetCell env n pos text s = some (o, s1)) : s1.KeysValid env := by
  have h3 : Sheet.SetCell env (n + 3) pos text s = some (o, s1) :=
    Sheet.SetCell_mono env (by omega) pos text s _ h
  by_cases hv : pos.IsValid env = true
  · cases hd : text.data with
    | nil =>
      rw [Sheet.SetCell_empty env (n + 1) pos text s hv hd] at h3
      simp only [Option.some.injEq, Prod.mk.injEq] at h3
      rw [← h3.2]
      exact Sheet.KeysValid_assign env s pos _ hs hv
    | cons c rest =>
      by_cases hf : c = '=' ∧ rest ≠ []
      · obtain ⟨rfl, hne⟩ := hf
        cases hp : ParseFormula env (String.mk rest) with
        | none =>
          have hp1 : env.ParseFormulaAST (String.mk rest) = none := by
            simpa [ParseFormula] using hp
          rw [Sheet.SetCell_syntax_error env (n + 2) pos text s hv rest hd hne hp1] at h3
          simp only [Option.some.injEq, Prod.mk.injEq] at h3
          rw [← h3.2]
          exact hs
        | some f =>
          rw [Sheet.SetCell_formula env n pos text s hv rest hd hne f hp] at h3
          by_cases hall : f.cells_.all (fun r => r.IsValid env) = true
          · have hfill : (s.fill f.cells_).KeysValid env :=
              Sheet.KeysValid_fill env s _ hs
                (fun r hr => by simpa using List.all_eq_true.mp hall r hr)
            rw [if_pos hall] at h3
            cases hc : Sheet.CheckForCircularDependencies env (n + 2) (s.fill f.cells_)
                (some (Cell.ofFormula f)) pos with
            | none => simp [hc] at h3
            | some b =>
              simp only [hc] at h3
              cases b with
              | error e =>
                simp only [Option.some.injEq, Prod.mk.injEq] at h3
                rw [← h3.2]
                exact hfill
              | ok b =>
                cases b with
                | true =>
                  simp only [Option.some.injEq, Prod.mk.injEq] at h3
                  rw [← h3.2]
                  exact hfill
                | false =>
                  simp only [Option.some.injEq, Prod.mk.injEq] at h3
                  rw [← h3.2]
                  exact Sheet.KeysValid_assign env _ pos _ hfill hv
          · rw [if_neg hall] at h3
            simp only [Option.some.injEq, Prod.mk.injEq] at h3
            rw [← h3.2]
            refine Sheet.KeysValid_fill env s _ hs (fun r hr => ?_)
            simpa using (List.mem_takeWhile_imp hr)
      · rw [Sheet.SetCell_text env (n + 1) pos text s hv c rest hd hf] at h3
        simp only [Option.some.injEq, Prod.mk.injEq] at h3
        rw [← h3.2]
        exact Sheet.KeysValid_assign env s pos _ hs hv
  · have : Sheet.SetCell env (n + 3) pos text s = some (.error .InvalidPositionException, s) := by
      simp [Sheet.SetCell, hv]
    rw [this] at h3
    simp only [Option.some.injEq, Prod.mk.injEq] at h3
    rw [← h3.2]
    exact hs

theorem Reachable.keysValid {Num : Type} (env : Env Num) (s : Sheet Num)
    (h : Reachable env s) : s.KeysValid env := by
  induction h with
  | empty =>
    intro k hk
    simp [Sheet.keys] at hk
  | SetCell _ hset ih => exact Sheet.SetCell_keysValid env _ _ _ _ _ _ ih hset
  | ClearCell pos _ ih =>
    unfold Sheet.ClearCell
    by_cases hv : pos.IsValid env = true
    · simp only [hv, if_true]
      exact Sheet.KeysValid_erase env _ pos ih
    · simp only [hv, if_false]
      exact ih
  | GetValue _ hget ih =>
    intro k hk
    rw [Cell.GetValue_keys env _ _ _ _ _ hget] at hk
    exact ih k hk

/-! ## Printing the texts -/

theorem Sheet.PrintTextsRow_eq {Num : Type} (env : Env Num) (s : Sheet Num) (i : Int)
    (right_col : Int) (n : Nat) (j : Int) (output : String) (hj : j + n = right_col + 1)
    (hvalid : ∀ y, j ≤ y → y ≤ right_col → (⟨i, y⟩ : Position).IsValid env = true) :
    Sheet.PrintTextsRow env s i right_col (intsFrom j n) output =
      (.ok (), output ++ tabSeparated ((intsFrom j n).map (fun y => s.fieldText i y))) := by
  induction n generalizing j output with
  | zero => simp [intsFrom, Sheet.PrintTextsRow, tabSeparated]
  | succ m ih =>
    have hvj : (⟨i, j⟩ : Position).IsValid env = true := hvalid j (le_refl _) (by omega)
    have hout : (match s.find ⟨i, j⟩ with
        | some cell => output ++ cell.GetText
        | none => output) = output ++ s.fieldText i j := by
      unfold Sheet.fieldText
      cases s.find ⟨i, j⟩ <;> simp
    simp only [intsFrom, Sheet.PrintTextsRow, Sheet.GetCell_valid env s _ hvj, hout]
    cases m with
    | zero =>
      have hlt : ¬ j < right_col := by omega
      simp [hlt, intsFrom, Sheet.PrintTextsRow, tabSeparated]
    | succ k =>
      have hlt : j < right_col := by omega
      simp only [hlt, if_true]
      rw [ih (j + 1) _ (by omega) (fun y hy1 hy2 => hvalid y (by omega) hy2)]
      simp only [intsFrom, List.map_cons, tabSeparated, String.append_assoc]

theorem Sheet.PrintTextsRows_eq {Num : Type} (env : Env Num) (s : Sheet Num)
    (right_row right_col : Int) (hrc : 0 ≤ right_col) (n : Nat) (i : Int) (output : String)
    (hi : i + n = right_row + 1)
    (hvalid : ∀ x y, i ≤ x → x ≤ right_row → 0 ≤ y → y ≤ right_col →
      (⟨x, y⟩ : Position).IsValid env = true) :
    Sheet.PrintTextsRows env s 0 right_col (intsFrom i n) output =
      (.ok (), output ++ newlineTerminated ((intsFrom i n).map (fun x =>
        tabSeparated ((loopRange 0 right_col).map (fun y => s.fieldText x y))))) := by
  induction n generalizing i output with
  | zero => simp [intsFrom, Sheet.PrintTextsRows, newlineTerminated]
  | succ m ih =>
    have hrow := Sheet.PrintTextsRow_eq env s i right_col (right_col + 1 - 0).toNat 0 output
      (by omega) (fun y hy1 hy2 => hvalid i y (le_refl _) (by omega) hy1 hy2)
    simp only [intsFrom, Sheet.PrintTextsRows, loopRange, hrow]
    rw [ih (i + 1) _ (by omega) (fun x y hx1 hx2 => hvalid x y (by omega) hx2)]
    simp only [List.map_cons, newlineTerminated, String.append_assoc, loopRange]

theorem Sheet.isEmpty_false_of_ne_nil {Num : Type} (s : Sheet Num) (h : s ≠ []) :
    s.isEmpty = false := by
  cases s with
  | nil => exact absurd rfl h
  | cons kv rest => rfl

theorem Sheet.KeysValid.nonneg {Num : Type} (env : Env Num) (s : Sheet Num)
    (h : s.KeysValid env) : ∀ k ∈ s.keys, 0 ≤ k.row ∧ 0 ≤ k.col := by
  intro k hk
  have := Position.IsValid_bounds env k (h k hk)
  exact ⟨this.1, this.2.1⟩

namespace Demo

theorem sheetC5_reachable : Reachable env sheetC5 :=
  Reachable.run env 5 [.SetCell C5 "x"] [] sheetC5 Reachable.empty rfl

theorem sheetDiamond_ne_nil : sheetDiamond ≠ [] :=
  fun h => absurd (congrArg List.length h) (by decide)

end Demo

/-! ## The current value and the value `GetValue` returns -/

theorem Exec.eval_mono {Num : Type}
    (a a1 : Position → Option (Option (CellInterface.Value Num)))
    (h : ∀ p v, a p = some v → a1 p = some v) (e : Exec Num) (r : Except FormulaError Num)
    (hr : Exec.eval a e = some r) : Exec.eval a1 e = some r := by
  induction e with
  | ret d => simpa [Exec.eval] using hr
  | raise fe => simpa [Exec.eval] using hr
  | ask pos k ih =>
    simp only [Exec.eval] at hr ⊢
    cases ha : a pos with
    | none => simp [ha] at hr
    | some v =>
      simp only [ha] at hr
      simp only [h pos v ha]
      exact ih v hr

/-- A larger budget never changes a current value. -/
theorem Sheet.CurrentValue_mono {Num : Type} (s : Sheet Num) {n m : Nat} (hnm : n ≤ m)
    (pos : Position) (v : Option (CellInterface.Value Num))
    (h : s.CurrentValue n pos = some v) : s.CurrentValue m pos = some v := by
  induction n generalizing m pos v with
  | zero => simp [Sheet.CurrentValue] at h
  | succ n ih =>
    obtain ⟨m, rfl⟩ : ∃ m1, m = m1 + 1 := ⟨m - 1, by omega⟩
    unfold Sheet.CurrentValue at h ⊢
    cases hf : s.find pos with
    | none => simpa [hf] using h
    | some cell =>
      simp only [hf] at h ⊢
      cases hi : cell.impl_ with
      | none => simpa [hi] using h
      | some impl =>
        cases impl with
        | EmptyImpl => simpa [hi] using h
        | TextImpl t => simpa [hi] using h
        | FormulaImpl f =>
          simp only [hi] at h ⊢
          cases he : Exec.eval (Sheet.CurrentValue n s) f.ast_.Execute with
          | none => simp [he] at h
          | some r =>
            rw [Exec.eval_mono _ _ (fun p v hv => ih (by omega) p v hv) _ r he]
            simpa [he] using h

/-- The current value does not depend on the caches. -/
theorem Sheet.CurrentValue_congr {Num : Type} {s s1 : Sheet Num} (h : s.SameImpl s1) (n : Nat)
    (pos : Position) : s1.CurrentValue n pos = s.CurrentValue n pos := by
  induction n generalizing pos with
  | zero => rfl
  | succ n ih =>
    have hfun : Sheet.CurrentValue n s1 = Sheet.CurrentValue n s := funext ih
    unfold Sheet.CurrentValue
    rw [hfun]
    have hp := h pos
    cases hf : s.find pos with
    | none =>
      cases hf1 : s1.find pos with
      | none => rfl
      | some c1 => simp [hf, hf1] at hp
    | some c =>
      cases hf1 : s1.find pos with
      | none => simp [hf, hf1] at hp
      | some c1 =>
        have hi : c1.impl_ = c.impl_ := by simpa [hf, hf1] using hp
        simp only [hi]

/-- A sheet none of whose cells has been read has coherent caches. -/
theorem Sheet.Coherent_of_unread {Num : Type} (s : Sheet Num)
    (h : ∀ pos cell, s.find pos = some cell → cell.cache_.exists_ = true) : s.Coherent := by
  intro pos cell hfind hex
  rw [h pos cell hfind] at hex
  cases hex

theorem Sheet.Coherent_SetCacheAt {Num : Type} (s : Sheet Num) (hco : s.Coherent)
    (pos : Position) (v : CellInterface.Value Num) (m : Nat)
    (hv : s.CurrentValue m pos = some (some v)) : (s.SetCacheAt pos v).Coherent := by
  intro p cell hfind hex
  have hsame := Sheet.SameImpl_SetCacheAt s pos v
  unfold Sheet.SetCacheAt at hfind
  cases hf : s.find pos with
  | none =>
    simp only [hf] at hfind
    obtain ⟨n, hn⟩ := hco p cell hfind hex
    exact ⟨n, by rw [Sheet.CurrentValue_congr hsame]; exact hn⟩
  | some c =>
    simp only [hf] at hfind
    rw [Sheet.find_assign] at hfind
    by_cases hp : pos = p
    · subst hp
      simp only [if_true, Option.some.injEq] at hfind
      subst hfind
      exact ⟨m, by rw [Sheet.CurrentValue_congr hsame]; simpa [Cell.SetCache] using hv⟩
    · rw [if_neg hp] at hfind
      obtain ⟨n, hn⟩ := hco p cell hfind hex
      exact ⟨n, by rw [Sheet.CurrentValue_congr hsame]; exact hn⟩

/-- A run of a tree against a sheet with coherent caches, every question being
answered by a current value, returns what the walk over current values gives. -/
theorem Exec.run_current {Num : Type} (env : Env Num)
    (gv : Position → Sheet Num → Option (Except Exn (CellInterface.Value Num) × Sheet Num))
    (hgv : ∀ p s v s1, s.Coherent → gv p s = some (.ok v, s1) →
      (∃ m, s.CurrentValue m p = some (some v)) ∧ s1.Coherent ∧ s.SameImpl s1)
    (e : Exec Num) (s : Sheet Num) (r : Except FormulaError Num) (s1 : Sheet Num)
    (hco : s.Coherent) (h : Exec.run env gv e s = some (.ok r, s1)) :
    (∃ m, Exec.eval (s.CurrentValue m) e = some r) ∧ s1.Coherent ∧ s.SameImpl s1 := by
  induction e generalizing s with
  | ret d =>
    simp only [Exec.run, Option.some.injEq, Prod.mk.injEq, Except.ok.injEq] at h
    obtain ⟨h1, h2⟩ := h
    subst h1 h2
    exact ⟨⟨0, rfl⟩, hco, Sheet.SameImpl.refl s⟩
  | raise fe =>
    simp only [Exec.run, Option.some.injEq, Prod.mk.injEq, Except.ok.injEq] at h
    obtain ⟨h1, h2⟩ := h
    subst h1 h2
    exact ⟨⟨0, rfl⟩, hco, Sheet.SameImpl.refl s⟩
  | ask pos k ih =>
    unfold Exec.run at h
    by_cases hvalid : pos.IsValid env = true
    · rw [Sheet.GetCell_valid env s pos hvalid] at h
      cases hf : s.find pos with
      | none =>
        simp only [hf] at h
        obtain ⟨⟨m, hm⟩, hco1, hsame⟩ := ih none s hco h
        refine ⟨⟨m + 1, ?_⟩, hco1, hsame⟩
        have hpos : s.CurrentValue (m + 1) pos = some none := by
          unfold Sheet.CurrentValue
          simp only [hf]
        simp only [Exec.eval, hpos]
        exact Exec.eval_mono _ _
          (fun p v hv => Sheet.CurrentValue_mono s (Nat.le_succ m) p v hv) _ r hm
      | some c =>
        simp only [hf] at h
        cases hg : gv pos s with
        | none => simp [hg] at h
        | some y =>
          obtain ⟨o, s2⟩ := y
          cases o with
          | error e1 => simp [hg] at h
          | ok v =>
            simp only [hg] at h
            obtain ⟨⟨m1, hm1⟩, hco2, hsame2⟩ := hgv pos s v s2 hco hg
            obtain ⟨⟨m2, hm2⟩, hco1, hsame1⟩ := ih (some v) s2 hco2 h
            refine ⟨⟨max m1 m2, ?_⟩, hco1, hsame2.trans hsame1⟩
            have hpos : s.CurrentValue (max m1 m2) pos = some (some v) :=
              Sheet.CurrentValue_mono s (le_max_left m1 m2) pos _ hm1
            simp only [Exec.eval, hpos]
            have hfun : Sheet.CurrentValue m2 s2 = Sheet.CurrentValue m2 s :=
              funext (Sheet.CurrentValue_congr hsame2 m2)
            rw [hfun] at hm2
            exact Exec.eval_mono _ _
              (fun p w hw => Sheet.CurrentValue_mono s (le_max_right m1 m2) p w hw) _ r hm2
    · have hg : Sheet.GetCell env s pos = .error .InvalidPositionException := by
        simp [Sheet.GetCell, hvalid]
      simp [hg] at h

/-- On a sheet with coherent caches, a `GetValue` that returns a value returns
the current value of the cell, and leaves the caches coherent. -/
theorem Cell.GetValue_current {Num : Type} (env : Env Num) (n : Nat) (pos : Position)
    (s : Sheet Num) (v : CellInterface.Value Num) (s1 : Sheet Num) (hco : s.Coherent)
    (h : Cell.GetValue env n pos s = some (.ok v, s1)) :
    (∃ m, s.CurrentValue m pos = some (some v)) ∧ s1.Coherent ∧ s.SameImpl s1 := by
  induction n generalizing pos s v s1 with
  | zero => simp [Cell.GetValue] at h
  | succ n ih =>
    have hsame : s.SameImpl s1 := Cell.GetValue_sameImpl env (n + 1) pos s _ s1 h
    unfold Cell.GetValue at h
    cases hf : s.find pos with
    | none => simp [hf] at h
    | some cell =>
      simp only [hf] at h
      cases hrc : Cell.Recomputes env s cell with
      | error e => simp [hrc] at h
      | ok b =>
        cases b with
        | false =>
          simp only [hrc, Option.some.injEq, Prod.mk.injEq, Except.ok.injEq] at h
          obtain ⟨h1, h2⟩ := h
          subst h1 h2
          have hex : cell.cache_.exists_ = false := by
            cases hx : cell.cache_.exists_ with
            | false => rfl
            | true =>
              unfold Cell.Recomputes at hrc
              cases hr : cell.GetReferencedCells with
              | error e => simp [hr] at hrc
              | ok refs => simp [hr, hx] at hrc
          exact ⟨hco pos cell hf hex, hco, hsame⟩
        | true =>
          simp only [hrc] at h
          cases hi : cell.impl_ with
          | none =>
            simp only [hi, Option.some.injEq, Prod.mk.injEq, Except.ok.injEq] at h
            obtain ⟨h1, h2⟩ := h
            subst h1 h2
            have hcur : s.CurrentValue 1 pos = some (some (.str "")) := by
              unfold Sheet.CurrentValue
              simp only [hf, hi]
            exact ⟨⟨1, hcur⟩, Sheet.Coherent_SetCacheAt s hco pos _ 1 hcur, hsame⟩
          | some impl =>
            simp only [hi] at h
            cases impl with
            | EmptyImpl =>
              simp only [Impl.GetValue, Option.some.injEq, Prod.mk.injEq, Except.ok.injEq] at h
              obtain ⟨h1, h2⟩ := h
              subst h1 h2
              have hcur : s.CurrentValue 1 pos =
                  some (some (CellValueVisitor (.str ""))) := by
                unfold Sheet.CurrentValue
                simp only [hf, hi]
                rfl
              exact ⟨⟨1, hcur⟩, Sheet.Coherent_SetCacheAt s hco pos _ 1 hcur, hsame⟩
            | TextImpl t =>
              simp only [Impl.GetValue, Option.some.injEq, Prod.mk.injEq, Except.ok.injEq] at h
              obtain ⟨h1, h2⟩ := h
              subst h1 h2
              have hcur : s.CurrentValue 1 pos =
                  some (some (CellValueVisitor (.str t))) := by
                unfold Sheet.CurrentValue
                simp only [hf, hi]
              exact ⟨⟨1, hcur⟩, Sheet.Coherent_SetCacheAt s hco pos _ 1 hcur, hsame⟩
            | FormulaImpl f =>
              simp only [Impl.GetValue, Formula.Evaluate] at h
              cases hrun : Exec.run env (Cell.GetValue env n) f.ast_.Execute s with
              | none => simp [hrun] at h
              | some y =>
                obtain ⟨o, s2⟩ := y
                cases o with
                | error e => simp [hrun] at h
                | ok r =>
                  obtain ⟨⟨m, hm⟩, hco2, hsame2⟩ := Exec.run_current env (Cell.GetValue env n)
                    (fun p a w a1 ha hg => ih p a w a1 ha hg) f.ast_.Execute s r s2 hco hrun
                  cases r with
                  | ok d =>
                    simp only [hrun, Option.some.injEq, Prod.mk.injEq, Except.ok.injEq] at h
                    obtain ⟨h1, h2⟩ := h
                    subst h1 h2
                    have hcur : s.CurrentValue (m + 1) pos = some (some (.num d)) := by
                      unfold Sheet.CurrentValue
                      simp only [hf, hi, hm]
                    refine ⟨⟨m + 1, hcur⟩, ?_, hsame⟩
                    exact Sheet.Coherent_SetCacheAt s2 hco2 pos _ (m + 1)
                      (by rw [Sheet.CurrentValue_congr hsame2]; exact hcur)
                  | error fe =>
                    simp only [hrun, Option.some.injEq, Prod.mk.injEq, Except.ok.injEq] at h
                    obtain ⟨h1, h2⟩ := h
                    subst h1 h2
                    have hcur : s.CurrentValue (m + 1) pos = some (some (.err fe)) := by
                      unfold Sheet.CurrentValue
                      simp only [hf, hi, hm]
                    refine ⟨⟨m + 1, hcur⟩, ?_, hsame⟩
                    exact Sheet.Coherent_SetCacheAt s2 hco2 pos _ (m + 1)
                      (by rw [Sheet.CurrentValue_congr hsame2]; exact hcur)

/-! ## The claims -/

namespace Demo

theorem sheetA_reachable : Reachable env sheetA :=
  Reachable.run env 5 [.SetCell A1 "=B1"] [] sheetA Reachable.empty rfl

theorem sheet5_reachable : Reachable env sheet5 :=
  Reachable.run env 5 [.SetCell A1 "5"] [] sheet5 Reachable.empty rfl

theorem sheetR_reachable : Reachable env sheetR :=
  Reachable.run env 5 rejected [] sheetR Reachable.empty rfl

end Demo

/-- On a well-formed sheet without cycles every `SetCell` call returns or
throws once the recursion budget is large enough. -/
theorem Sheet.SetCell_total {Num : Type} (env : Env Num) (s : Sheet Num)
    (hwf : s.WellFormed env) (hac : s.Acyclic) (pos : Position) (text : String) :
    ∃ n0, ∀ n, n0 ≤ n → ∃ o s1, Sheet.SetCell env n pos text s = some (o, s1) := by
  by_cases hv : pos.IsValid env = true
  · cases hd : text.data with
    | nil =>
      refine ⟨2, fun n hn => ?_⟩
      obtain ⟨m, rfl⟩ : ∃ m, n = m + 2 := ⟨n - 2, by omega⟩
      exact ⟨_, _, Sheet.SetCell_empty env m pos text s hv hd⟩
    | cons c rest =>
      by_cases hf : c = '=' ∧ rest ≠ []
      · obtain ⟨rfl, hne⟩ := hf
        cases hp : ParseFormula env (String.mk rest) with
        | none =>
          have hp1 : env.ParseFormulaAST (String.mk rest) = none := by
            simpa [ParseFormula] using hp
          refine ⟨1, fun n hn => ?_⟩
          obtain ⟨m, rfl⟩ : ∃ m, n = m + 1 := ⟨n - 1, by omega⟩
          exact ⟨_, _, Sheet.SetCell_syntax_error env m pos text s hv rest hd hne hp1⟩
        | some f =>
          by_cases hall : f.cells_.all (fun r => r.IsValid env) = true
          · obtain ⟨n0, hn0⟩ := Sheet.Check_spec env (s.fill f.cells_)
              (Sheet.WellFormed_fill env s _ hwf) (Sheet.Acyclic_fill s _ hac) pos
              (Cell.ofFormula f) f.cells_ rfl
              (fun r hr => by simpa using List.all_eq_true.mp hall r hr)
            refine ⟨n0 + 3, fun n hn => ?_⟩
            obtain ⟨m, rfl⟩ : ∃ m, n = m + 3 := ⟨n - 3, by omega⟩
            obtain ⟨b, hb, _⟩ := hn0 (m + 2) (by omega)
            rw [Sheet.SetCell_formula env m pos text s hv rest hd hne f hp, if_pos hall, hb]
            cases b with
            | true => exact ⟨_, _, rfl⟩
            | false => exact ⟨_, _, rfl⟩
          · refine ⟨3, fun n hn => ?_⟩
            obtain ⟨m, rfl⟩ : ∃ m, n = m + 3 := ⟨n - 3, by omega⟩
            rw [Sheet.SetCell_formula env m pos text s hv rest hd hne f hp, if_neg hall]
            exact ⟨_, _, rfl⟩
      · refine ⟨2, fun n hn => ?_⟩
        obtain ⟨m, rfl⟩ : ∃ m, n = m + 2 := ⟨n - 2, by omega⟩
        exact ⟨_, _, Sheet.SetCell_text env m pos text s hv c rest hd hf⟩
  · refine ⟨1, fun n hn => ?_⟩
    obtain ⟨m, rfl⟩ : ∃ m, n = m + 1 := ⟨n - 1, by omega⟩
    exact ⟨.error .InvalidPositionException, s, by simp [Sheet.SetCell, hv]⟩

/-- C1 (the code departs from the claim): with `A1 = "1"`, `B1 = "=A1"`,
`C1 = "=B1"`, after `C1` has been read and `A1` set to `"2"`, the text of `A1`
is `"2"` but `GetValue` of `C1` and of `B1` still return the number 1 cached
before the edit. -/
theorem C1_stale_value_after_edit :
    (Sheet.run Demo.env 10 Demo.editAfterRead []).map
        (fun s => (s.find Demo.A1).map Cell.GetText) = some (some "2") ∧
      (Sheet.run Demo.env 10 Demo.editAfterRead []).bind (Sheet.read Demo.env 10 Demo.C1) =
        some (.ok (.num 1)) ∧
      (Sheet.run Demo.env 10 Demo.editAfterRead []).bind (Sheet.read Demo.env 10 Demo.B1) =
        some (.ok (.num 1)) := by
  decide

/-- C2: in every sheet reachable from the empty sheet by calls of `SetCell`
(returned or rejected) and `ClearCell`, with reads of values interleaved at
will, the reference graph (an edge from each held cell to every position in
its `GetReferencedCells()`) has no cycle; and every further `SetCell` call
returns or throws once the recursion budget is large enough, leaving again a
sheet without cycles. -/
theorem C2_reachable_acyclic {Num : Type} (env : Env Num) (s : Sheet Num)
    (h : Reachable env s) :
    s.Acyclic ∧
      ∀ pos text, ∃ n0, ∀ n, n0 ≤ n → ∃ o s1,
        Sheet.SetCell env n pos text s = some (o, s1) ∧ s1.Acyclic := by
  have hinv := Reachable.invariant env s h
  refine ⟨hinv.2, fun pos text => ?_⟩
  obtain ⟨n0, hn0⟩ := Sheet.SetCell_total env s hinv.1 hinv.2 pos text
  refine ⟨n0, fun n hn => ?_⟩
  obtain ⟨o, s1, hset⟩ := hn0 n hn
  exact ⟨o, s1, hset, (Sheet.SetCell_invariant env n pos text s s1 o hinv.1 hinv.2 hset).2⟩

/-- Instance of C2: the sheet left by two rejected edits, a `ClearCell` and a read. -/
theorem C2_witness :
    Reachable Demo.env Demo.sheetR ∧ Demo.sheetR.Acyclic ∧
      ∀ pos text, ∃ n0, ∀ n, n0 ≤ n → ∃ o s1,
        Sheet.SetCell Demo.env n pos text Demo.sheetR = some (o, s1) ∧ s1.Acyclic :=
  ⟨Demo.sheetR_reachable,
    (C2_reachable_acyclic Demo.env Demo.sheetR Demo.sheetR_reachable).1,
    (C2_reachable_acyclic Demo.env Demo.sheetR Demo.sheetR_reachable).2⟩

/-- C3 (as stated, refuted): with a parser that accepts `B1+XFE1`, whose
reference list holds `B1` and the position `XFE1` outside the grid, the call
`SetCell(B1, "=B1+XFE1")` on the empty sheet lists its own position among its
references, yet it throws `FormulaException` and not
`CircularDependencyException`: `Cell::Set` asks `GetCell` about the invalid
position, and turns the exception into a `FormulaException`, before the cycle
check runs. -/
theorem C3_invalid_reference_masks_cycle :
    Demo.B1.IsValid Demo.envBeyond = true ∧
      ParseFormula Demo.envBeyond "B1+XFE1" = some Demo.formulaBeyond ∧
      Demo.formulaBeyond.GetReferencedCells = [Demo.B1, Demo.beyond] ∧
      Demo.beyond.IsValid Demo.envBeyond = false ∧
      Sheet.Acyclic ([] : Sheet Int) ∧
      (∃ r ∈ Demo.formulaBeyond.GetReferencedCells,
        Relation.ReflTransGen (Sheet.Edge ([] : Sheet Int)) r Demo.B1) ∧
      (Sheet.SetCell Demo.envBeyond 5 Demo.B1 "=B1+XFE1" []).map Prod.fst =
        some (.error .FormulaException) :=
  ⟨by decide, rfl, by decide, by decide, Sheet.Acyclic_nil,
    ⟨Demo.B1, by decide, Relation.ReflTransGen.refl⟩, by decide⟩

/-- C3 (amended): on a sheet without cycles whose cells hold an
implementation and list valid positions only, for a valid position `pos` and
a formula text that parses with a reference list of valid positions, `SetCell`
returns or throws once the recursion budget is large enough, and it throws
`CircularDependencyException` exactly when `pos` is reachable from some
reference along zero or more edges of the sheet; otherwise it returns.  A
formula that lists `pos` itself is rejected. -/
theorem C3_circular_iff_reachable {Num : Type} (env : Env Num) (s : Sheet Num)
    (hwf : s.WellFormed env) (hac : s.Acyclic) (pos : Position) (hv : pos.IsValid env = true)
    (text : String) (rest : List Char) (hd : text.data = '=' :: rest) (hne : rest ≠ [])
    (f : Formula Num) (hp : ParseFormula env (String.mk rest) = some f)
    (hR : ∀ r ∈ f.GetReferencedCells, r.IsValid env = true) :
    ∃ n0, ∀ n, n0 ≤ n → ∃ o s1, Sheet.SetCell env n pos text s = some (o, s1) ∧
      (o = .error .CircularDependencyException ↔
        ∃ r ∈ f.GetReferencedCells, Relation.ReflTransGen s.Edge r pos) ∧
      (o = .ok () ↔ ¬ ∃ r ∈ f.GetReferencedCells, Relation.ReflTransGen s.Edge r pos) ∧
      (pos ∈ f.GetReferencedCells → o = .error .CircularDependencyException) := by
  have hall : f.cells_.all (fun r => r.IsValid env) = true := by
    rw [List.all_eq_true]
    intro r hr
    simpa using hR r hr
  obtain ⟨n0, hn0⟩ := Sheet.Check_spec env (s.fill f.cells_) (Sheet.WellFormed_fill env s _ hwf)
    (Sheet.Acyclic_fill s _ hac) pos (Cell.ofFormula f) f.cells_ rfl hR
  have hreach : (∃ r ∈ f.cells_, Relation.ReflTransGen (s.fill f.cells_).Edge r pos) ↔
      ∃ r ∈ f.GetReferencedCells, Relation.ReflTransGen s.Edge r pos := by
    constructor
    · rintro ⟨r, hr, hpath⟩
      exact ⟨r, hr, Relation.ReflTransGen.mono
        (fun a b hab => (Sheet.Edge_fill s _ a b).mp hab) hpath⟩
    · rintro ⟨r, hr, hpath⟩
      exact ⟨r, hr, Relation.ReflTransGen.mono
        (fun a b hab => (Sheet.Edge_fill s _ a b).mpr hab) hpath⟩
  refine ⟨n0 + 3, fun n hn => ?_⟩
  obtain ⟨m, rfl⟩ : ∃ m, n = m + 3 := ⟨n - 3, by omega⟩
  obtain ⟨b, hb, hiff⟩ := hn0 (m + 2) (by omega)
  rw [Sheet.SetCell_formula env m pos text s hv rest hd hne f hp, if_pos hall, hb]
  rw [hreach] at hiff
  cases b with
  | true =>
    have hex := hiff.mp rfl
    exact ⟨_, _, rfl, by simp [hex], by simp [hex], fun _ => rfl⟩
  | false =>
    have hnex : ¬ ∃ r ∈ f.GetReferencedCells, Relation.ReflTransGen s.Edge r pos := by
      intro hex
      simpa using hiff.mpr hex
    refine ⟨_, _, rfl, by simp [hnex], by simp [hnex], fun hmem => ?_⟩
    exact absurd ⟨pos, hmem, Relation.ReflTransGen.refl⟩ hnex

/-- Instance of C3 (amended): `SetCell(B1, "=A1")` on the sheet holding `A1 = "=B1"`. -/
theorem C3_witness :
    Demo.sheetA.WellFormed Demo.env ∧ Demo.sheetA.Acyclic ∧
      Demo.B1.IsValid Demo.env = true ∧
      ParseFormula Demo.env "A1" = some Demo.formulaA1 ∧
      (∀ r ∈ Demo.formulaA1.GetReferencedCells, r.IsValid Demo.env = true) ∧
      (Sheet.SetCell Demo.env 5 Demo.B1 "=A1" Demo.sheetA).map Prod.fst =
        some (.error .CircularDependencyException) ∧
      ∃ n0, ∀ n, n0 ≤ n → ∃ o s1,
        Sheet.SetCell Demo.env n Demo.B1 "=A1" Demo.sheetA = some (o, s1) ∧
        (o = .error .CircularDependencyException ↔
          ∃ r ∈ Demo.formulaA1.GetReferencedCells,
            Relation.ReflTransGen Demo.sheetA.Edge r Demo.B1) ∧
        (o = .ok () ↔ ¬ ∃ r ∈ Demo.formulaA1.GetReferencedCells,
            Relation.ReflTransGen Demo.sheetA.Edge r Demo.B1) ∧
        (Demo.B1 ∈ Demo.formulaA1.GetReferencedCells →
          o = .error .CircularDependencyException) :=
  ⟨(Reachable.invariant Demo.env Demo.sheetA Demo.sheetA_reachable).1,
    (Reachable.invariant Demo.env Demo.sheetA Demo.sheetA_reachable).2,
    by decide, rfl, by decide, by decide,
    C3_circular_iff_reachable Demo.env Demo.sheetA
      (Reachable.invariant Demo.env Demo.sheetA Demo.sheetA_reachable).1
      (Reachable.invariant Demo.env Demo.sheetA Demo.sheetA_reachable).2
      Demo.B1 (by decide) "=A1" "A1".data rfl (by decide) Demo.formulaA1 rfl (by decide)⟩

/-- C4 (the code departs from the claim): on the sheet holding `A1 = "=B1"`,
`SetCell(B1, "=A1+C1")` throws `CircularDependencyException`, yet `C1`, which
held no cell before the call, holds an `Empty` cell after it. -/
theorem C4_rejected_edit_adds_cell :
    Demo.sheetA.keys = [Demo.B1, Demo.A1] ∧
      (Sheet.SetCell Demo.env 5 Demo.B1 "=A1+C1" Demo.sheetA).map Prod.fst =
        some (.error .CircularDependencyException) ∧
      (Sheet.SetCell Demo.env 5 Demo.B1 "=A1+C1" Demo.sheetA).map (fun r => r.2.keys) =
        some [Demo.B1, Demo.A1, Demo.C1] ∧
      (Sheet.SetCell Demo.env 5 Demo.B1 "=A1+C1" Demo.sheetA).map
        (fun r => (r.2.find Demo.C1).map Cell.GetText) = some (some "") := by
  decide

/-- C5: for a valid position and a text longer than one character that
begins with `=` and whose remainder the parser rejects, `SetCell` throws
`FormulaException` and the sheet is the one before the call. -/
theorem C5_syntax_error_keeps_sheet {Num : Type} (env : Env Num) (s : Sheet Num)
    (pos : Position) (text : String) (rest : List Char) (n : Nat)
    (hv : pos.IsValid env = true) (hd : text.data = '=' :: rest) (hne : rest ≠ [])
    (hp : env.ParseFormulaAST (String.mk rest) = none) :
    Sheet.SetCell env (n + 1) pos text s = some (.error .FormulaException, s) :=
  Sheet.SetCell_syntax_error env n pos text s hv rest hd hne hp

/-- Instance of C5: `SetCell(A1, "=+")` on the sheet holding `A1 = "5"`. -/
theorem C5_witness :
    Demo.A1.IsValid Demo.env = true ∧ Demo.env.ParseFormulaAST "+" = none ∧
      Sheet.SetCell Demo.env 1 Demo.A1 "=+" Demo.sheet5 =
        some (.error .FormulaException, Demo.sheet5) :=
  ⟨by decide, rfl,
    C5_syntax_error_keeps_sheet Demo.env Demo.sheet5 Demo.A1 "=+" "+".data 0
      (by decide) rfl (by decide) rfl⟩

/-- C6: for a position that is not valid, `SetCell` (whatever the text),
`GetCell` and `ClearCell` throw `InvalidPositionException` and leave the sheet
as it was; for a valid position `GetCell` and `ClearCell` return. -/
theorem C6_invalid_position_rejected {Num : Type} (env : Env Num) (s : Sheet Num)
    (pos : Position) (text : String) (n : Nat) :
    (pos.IsValid env = false →
      Sheet.SetCell env (n + 1) pos text s = some (.error .InvalidPositionException, s) ∧
      Sheet.GetCell env s pos = .error .InvalidPositionException ∧
      Sheet.ClearCell env pos s = (.error .InvalidPositionException, s)) ∧
    (pos.IsValid env = true →
      Sheet.GetCell env s pos = .ok (s.find pos) ∧
      Sheet.ClearCell env pos s = (.ok (), s.erase pos)) := by
  constructor
  · intro hv
    simp [Sheet.SetCell, Sheet.GetCell, Sheet.ClearCell, hv]
  · intro hv
    simp [Sheet.GetCell, Sheet.ClearCell, hv]

/-- Instance of C6: the position in row `-1`, and `A1`. -/
theorem C6_witness :
    (Demo.outside.IsValid Demo.env = false ∧
      Sheet.SetCell Demo.env 1 Demo.outside "=A1" Demo.sheet5 =
        some (.error .InvalidPositionException, Demo.sheet5) ∧
      Sheet.GetCell Demo.env Demo.sheet5 Demo.outside = .error .InvalidPositionException ∧
      Sheet.ClearCell Demo.env Demo.outside Demo.sheet5 =
        (.error .InvalidPositionException, Demo.sheet5)) ∧
    (Demo.A1.IsValid Demo.env = true ∧
      Sheet.GetCell Demo.env Demo.sheet5 Demo.A1 = .ok (Demo.sheet5.find Demo.A1) ∧
      Sheet.ClearCell Demo.env Demo.A1 Demo.sheet5 = (.ok (), Demo.sheet5.erase Demo.A1)) :=
  ⟨⟨by decide,
      (C6_invalid_position_rejected Demo.env Demo.sheet5 Demo.outside "=A1" 0).1 (by decide)⟩,
    ⟨by decide,
      (C6_invalid_position_rejected Demo.env Demo.sheet5 Demo.A1 "" 0).2 (by decide)⟩⟩

/-- C7 (the code departs from the claim): with `A1 = "1"`, `B1 = "=A1"`, the
condition that makes `GetValue` recompute holds for `B1` before the first
`GetValue` of `B1` and holds again after it, so both calls recompute.  And
after the calls of `Demo.diamond`, two consecutive `GetValue` calls on `D1`
return 3 and then 4: for `D1 = C1 + A1` when operands are taken left to right,
for `D1 = A1 + C1` when they are taken right to left. -/
theorem C7_second_read_recomputes :
    ((Sheet.run Demo.env 10 Demo.pair []).map
        (fun s => (s.find Demo.B1).map (Cell.Recomputes Demo.env s)) =
          some (some (.ok true)) ∧
      (Sheet.run Demo.env 10 (Demo.pair ++ [.GetValue Demo.B1]) []).map
        (fun s => (s.find Demo.B1).map (Cell.Recomputes Demo.env s)) =
          some (some (.ok true))) ∧
    ((Sheet.run (Demo.envOrder true) 10 (Demo.diamond "=C1+A1") []).bind
        (Sheet.read (Demo.envOrder true) 10 Demo.D1) = some (.ok (.num 3)) ∧
      (Sheet.run (Demo.envOrder true) 10 (Demo.diamond "=C1+A1" ++ [.GetValue Demo.D1]) []).bind
        (Sheet.read (Demo.envOrder true) 10 Demo.D1) = some (.ok (.num 4))) ∧
    ((Sheet.run (Demo.envOrder false) 10 (Demo.diamond "=A1+C1") []).bind
        (Sheet.read (Demo.envOrder false) 10 Demo.D1) = some (.ok (.num 3)) ∧
      (Sheet.run (Demo.envOrder false) 10 (Demo.diamond "=A1+C1" ++ [.GetValue Demo.D1]) []).bind
        (Sheet.read (Demo.envOrder false) 10 Demo.D1) = some (.ok (.num 4))) := by
  decide

/-- C8 (the code departs from the claim): with `A1 = "5"`, `B1 = "=A1*2"` the
first `GetValue` of `B1` is 10, the current value.  But after the calls
`SetCell(A1, "1")`, `SetCell(B1, "=A1")`, `GetValue(B1)`, `SetCell(A1, "2")`,
the call `SetCell(C1, "=B1")` returns and leaves no dangling reference, the
current value of `B1` and the result of evaluating the tree of `C1` against
current values are 2, and the first `GetValue` of `C1` returns 1: `B1` answers
from its cache.  And after `SetCell(A1, "=B1")`, `GetValue(A1)`,
`ClearCell(B1)`, the call `SetCell(C1, "=A1")` returns and the first
`GetValue` of `C1` dereferences a null pointer instead of returning a value. -/
theorem C8_fresh_formula_reads_stale :
    (Sheet.read Demo.env 5 Demo.B1 Demo.sheet5B = some (.ok (.num 10)) ∧
      Demo.sheet5B.CurrentValue 5 Demo.B1 = some (some (.num 10))) ∧
    (Sheet.run Demo.env 5 Demo.staleRef [] = some Demo.sheetStale ∧
      Sheet.SetCell Demo.env 5 Demo.C1 "=B1" Demo.sheetStale =
        some (.ok (), Demo.sheetStaleC) ∧
      Demo.sheetStaleC.Closed ∧
      (Demo.sheetStaleC.find Demo.C1).map (fun c => c.cache_.exists_) = some true ∧
      Demo.sheetStaleC.CurrentValue 5 Demo.A1 = some (some (.str "2")) ∧
      Demo.sheetStaleC.CurrentValue 5 Demo.B1 = some (some (.num 2)) ∧
      Demo.sheetStaleC.CurrentValue 5 Demo.C1 = some (some (.num 2)) ∧
      Sheet.read Demo.env 5 Demo.C1 Demo.sheetStaleC = some (.ok (.num 1))) ∧
    (Sheet.run Demo.env 5 Demo.cleared [] = some Demo.sheetCleared ∧
      Sheet.SetCell Demo.env 5 Demo.C1 "=A1" Demo.sheetCleared =
        some (.ok (), Demo.sheetClearedC) ∧
      Sheet.read Demo.env 5 Demo.C1 Demo.sheetClearedC = some (.error .NullDereference)) :=
  ⟨⟨by decide, by decide⟩,
    ⟨rfl, rfl, Sheet.Closed_of_test _ (by decide), by decide, by decide, by decide, by decide,
      by decide⟩,
    ⟨rfl, rfl, by decide⟩⟩

/-- C9: for a valid position and a non-empty text that is not a formula (its
first character is not `=`, or it is exactly `=`), `SetCell` returns, and the
cell then held at the position is a text cell whose `GetText()` is the text,
whose `GetReferencedCells()` is empty and whose `GetValue()` is the text
without its first character when that is an apostrophe and the text itself
otherwise. -/
theorem C9_text_cell {Num : Type} (env : Env Num) (s : Sheet Num) (pos : Position)
    (text : String) (c : Char) (rest : List Char) (n : Nat)
    (hv : pos.IsValid env = true) (hd : text.data = c :: rest)
    (hnf : c ≠ '=' ∨ rest = []) :
    ∃ s1 cell, Sheet.SetCell env (n + 2) pos text s = some (.ok (), s1) ∧
      Sheet.GetCell env s1 pos = .ok (some cell) ∧
      cell.impl_ = some (.TextImpl text) ∧
      cell.GetText = text ∧
      cell.GetReferencedCells = .ok [] ∧
      ∃ s2, Cell.GetValue env (n + 1) pos s1 =
        some (.ok (.str (if c = Char.ofNat 39 then String.mk rest else text)), s2) := by
  have hnf1 : ¬ (c = '=' ∧ rest ≠ []) := by
    rintro ⟨h1, h2⟩
    rcases hnf with h | h
    · exact h h1
    · exact h2 h
  refine ⟨s.assign pos (Cell.ofText text), Cell.ofText text,
    Sheet.SetCell_text env n pos text s hv c rest hd hnf1, ?_, rfl, rfl, rfl, ?_⟩
  · rw [Sheet.GetCell_valid env _ pos hv, Sheet.find_assign_self]
  · have hrc : Cell.Recomputes env (s.assign pos (Cell.ofText text)) (Cell.ofText text) =
        .ok true := rfl
    have hvis : CellValueVisitor (CellInterface.Value.str text : CellInterface.Value Num) =
        .str (if c = Char.ofNat 39 then String.mk rest else text) := by
      unfold CellValueVisitor
      simp only [hd]
      split_ifs <;> rfl
    refine ⟨(s.assign pos (Cell.ofText text)).SetCacheAt pos
      (.str (if c = Char.ofNat 39 then String.mk rest else text)), ?_⟩
    simp only [Cell.GetValue, Sheet.find_assign_self, hrc]
    simp only [Cell.ofText, Impl.GetValue, hvis]

/-- Instance of C9: the text made of an apostrophe and `123`. -/
theorem C9_witness :
    Demo.A1.IsValid Demo.env = true ∧
      ∃ s1 cell, Sheet.SetCell Demo.env 2 Demo.A1 "'123" [] = some (.ok (), s1) ∧
        Sheet.GetCell Demo.env s1 Demo.A1 = .ok (some cell) ∧
        cell.impl_ = some (.TextImpl "'123") ∧
        cell.GetText = "'123" ∧
        cell.GetReferencedCells = .ok [] ∧
        ∃ s2, Cell.GetValue Demo.env 1 Demo.A1 s1 = some (.ok (.str "123"), s2) :=
  ⟨by decide,
    C9_text_cell Demo.env [] Demo.A1 "'123" (Char.ofNat 39) "123".data 0
      (by decide) rfl (by decide)⟩

/-- C10: for a valid position and a formula text that parses to `f`, when
`SetCell` returns the cell at the position is the new formula cell and its
`GetReferencedCells()` is the formula's list; every listed position that held
no cell now holds an `Empty` cell; every position other than `pos` that held a
cell holds the same cell; and every position other than `pos` that is not
listed is as before, so nothing else was added. -/
theorem C10_formula_commit_frame {Num : Type} (env : Env Num) (s s1 : Sheet Num)
    (pos : Position) (text : String) (rest : List Char) (f : Formula Num) (n : Nat)
    (hv : pos.IsValid env = true) (hd : text.data = '=' :: rest) (hne : rest ≠ [])
    (hp : ParseFormula env (String.mk rest) = some f)
    (h : Sheet.SetCell env n pos text s = some (.ok (), s1)) :
    s1.find pos = some (Cell.ofFormula f) ∧
      (Cell.ofFormula f).GetReferencedCells = .ok f.GetReferencedCells ∧
      (∀ r ∈ f.GetReferencedCells, s.find r = none → s1.find r = some Cell.new) ∧
      (∀ q, q ≠ pos → s.find q ≠ none → s1.find q = s.find q) ∧
      (∀ q, q ≠ pos → q ∉ f.GetReferencedCells → s1.find q = s.find q) := by
  obtain ⟨rfl, _, hno⟩ := Sheet.SetCell_formula_ok env n pos text s s1 hv rest hd hne f hp h
  have hpos : pos ∉ f.cells_ := fun hmem => hno pos hmem Relation.ReflTransGen.refl
  refine ⟨Sheet.find_assign_self _ _ _, rfl, ?_, ?_, ?_⟩
  · intro r hr hnone
    have hne1 : pos ≠ r := fun heq => hpos (heq ▸ hr)
    rw [Sheet.find_assign_ne _ _ hne1, Sheet.find_fill, hnone]
    simp only [Formula.GetReferencedCells] at hr
    simp [hr]
  · intro q hq hsome
    rw [Sheet.find_assign_ne _ _ (Ne.symm hq), Sheet.find_fill]
    cases hfq : s.find q with
    | none => exact absurd hfq hsome
    | some c => rfl
  · intro q hq hnot
    rw [Sheet.find_assign_ne _ _ (Ne.symm hq), Sheet.find_fill]
    simp only [Formula.GetReferencedCells] at hnot
    cases hfq : s.find q with
    | none => simp [hnot]
    | some c => rfl

/-- Instance of C10: `SetCell(B1, "=A1+C1")` on the sheet holding `A1 = "5"`. -/
theorem C10_witness :
    Demo.B1.IsValid Demo.env = true ∧
      ParseFormula Demo.env "A1+C1" = some Demo.formulaA1C1 ∧
      Sheet.SetCell Demo.env 5 Demo.B1 "=A1+C1" Demo.sheet5 = some (.ok (), Demo.sheet5C) ∧
      Demo.sheet5C.find Demo.B1 = some (Cell.ofFormula Demo.formulaA1C1) ∧
      (Cell.ofFormula Demo.formulaA1C1).GetReferencedCells =
        .ok Demo.formulaA1C1.GetReferencedCells ∧
      (∀ r ∈ Demo.formulaA1C1.GetReferencedCells,
        Demo.sheet5.find r = none → Demo.sheet5C.find r = some Cell.new) ∧
      (∀ q, q ≠ Demo.B1 → Demo.sheet5.find q ≠ none →
        Demo.sheet5C.find q = Demo.sheet5.find q) ∧
      (∀ q, q ≠ Demo.B1 → q ∉ Demo.formulaA1C1.GetReferencedCells →
        Demo.sheet5C.find q = Demo.sheet5.find q) :=
  ⟨by decide, rfl, rfl,
    C10_formula_commit_frame Demo.env Demo.sheet5 Demo.sheet5C Demo.B1 "=A1+C1" "A1+C1".data
      Demo.formulaA1C1 5 (by decide) rfl (by decide) rfl rfl⟩

/-- C11 (the code departs from the claim): the calls `SetCell(A1, "=B1")`,
`ClearCell(B1)` leave a sheet in which `A1` lists `B1` although `B1` holds no
cell.  The cycle check meets the absent cell and passes over it; but when `A1`
was read before the `ClearCell`, the dependency check of the next `GetValue`
of `A1` dereferences the null pointer `GetCell(B1)` returns. -/
theorem C11_clearCell_leaves_dangling :
    Sheet.run Demo.env 5 Demo.dangling [] = some Demo.sheetDangling ∧
      ¬ Demo.sheetDangling.Closed ∧
      Sheet.CheckForCircularDependencies Demo.env 5 Demo.sheetDangling
        (Demo.sheetDangling.find Demo.A1) Demo.C1 = some (.ok false) ∧
      Sheet.run Demo.env 5 Demo.cleared [] = some Demo.sheetCleared ∧
      ¬ Demo.sheetCleared.Closed ∧
      Sheet.read Demo.env 5 Demo.A1 Demo.sheetCleared = some (.error .NullDereference) := by
  refine ⟨rfl, ?_, by decide, rfl, ?_, by decide⟩
  · intro hcl
    exact hcl Demo.A1 (Cell.ofFormula (Formula.ofAST ((Demo.Expr.cell Demo.B1).toAST true "B1")))
      [Demo.B1] rfl rfl Demo.B1 (by simp) rfl
  · intro hcl
    exact hcl Demo.A1
      ((Cell.ofFormula (Formula.ofAST ((Demo.Expr.cell Demo.B1).toAST true "B1"))).SetCache
        (.err ⟨.Value⟩))
      [Demo.B1] rfl rfl Demo.B1 (by simp) rfl

/-- C12: for a valid position `pos`, `ClearCell(pos)` returns; afterwards
`GetCell(pos)` gives no cell and `GetCell(q)` for every other position gives
what it gave before; when `pos` held no cell the sheet is unchanged; and a
second `ClearCell(pos)` leaves the sheet as the first left it. -/
theorem C12_clearCell_frame {Num : Type} (env : Env Num) (s : Sheet Num) (pos : Position)
    (hv : pos.IsValid env = true) :
    (Sheet.ClearCell env pos s).1 = .ok () ∧
      Sheet.GetCell env (Sheet.ClearCell env pos s).2 pos = .ok none ∧
      (∀ q, q ≠ pos →
        Sheet.GetCell env (Sheet.ClearCell env pos s).2 q = Sheet.GetCell env s q) ∧
      (s.find pos = none → (Sheet.ClearCell env pos s).2 = s) ∧
      Sheet.ClearCell env pos (Sheet.ClearCell env pos s).2 =
        (.ok (), (Sheet.ClearCell env pos s).2) := by
  have hcl : Sheet.ClearCell env pos s = (.ok (), s.erase pos) := by
    simp [Sheet.ClearCell, hv]
  rw [hcl]
  refine ⟨rfl, ?_, ?_, ?_, ?_⟩
  · simp [Sheet.GetCell, hv, Sheet.find_erase_self]
  · intro q hq
    have hne : ¬ pos = q := fun h => hq h.symm
    simp [Sheet.GetCell, Sheet.find_erase, hne]
  · intro hnone
    exact Sheet.erase_of_find_none s pos hnone
  · simp only [Sheet.ClearCell, hv, if_true]
    rw [Sheet.erase_of_find_none (s.erase pos) pos (Sheet.find_erase_self s pos)]

/-- Instance of C12: `ClearCell(A1)` on the sheet holding `A1 = "5"`. -/
theorem C12_witness :
    Demo.A1.IsValid Demo.env = true ∧
      (Sheet.ClearCell Demo.env Demo.A1 Demo.sheet5).1 = .ok () ∧
      Sheet.GetCell Demo.env (Sheet.ClearCell Demo.env Demo.A1 Demo.sheet5).2 Demo.A1 =
        .ok none ∧
      (∀ q, q ≠ Demo.A1 →
        Sheet.GetCell Demo.env (Sheet.ClearCell Demo.env Demo.A1 Demo.sheet5).2 q =
          Sheet.GetCell Demo.env Demo.sheet5 q) ∧
      (Demo.sheet5.find Demo.A1 = none →
        (Sheet.ClearCell Demo.env Demo.A1 Demo.sheet5).2 = Demo.sheet5) ∧
      Sheet.ClearCell Demo.env Demo.A1 (Sheet.ClearCell Demo.env Demo.A1 Demo.sheet5).2 =
        (.ok (), (Sheet.ClearCell Demo.env Demo.A1 Demo.sheet5).2) :=
  ⟨by decide, C12_clearCell_frame Demo.env Demo.sheet5 Demo.A1 (by decide)⟩

/-- C13: on a newly created sheet `GetCell` of a valid position gives no cell;
and on any sheet, after `SetCell(pos, "")` the cell `GetCell(pos)` gives is an
`Empty` cell: `GetText()` is the empty string, `GetReferencedCells()` is empty
and `GetValue()` is the empty text. -/
theorem C13_absent_then_empty {Num : Type} (env : Env Num) (s : Sheet Num) (pos : Position)
    (n : Nat) (hv : pos.IsValid env = true) :
    Sheet.GetCell env ([] : Sheet Num) pos = .ok none ∧
      ∃ s1 cell, Sheet.SetCell env (n + 2) pos "" s = some (.ok (), s1) ∧
        Sheet.GetCell env s1 pos = .ok (some cell) ∧
        cell.impl_ = some .EmptyImpl ∧
        cell.GetText = "" ∧
        cell.GetReferencedCells = .ok [] ∧
        ∃ s2, Cell.GetValue env (n + 1) pos s1 = some (.ok (.str ""), s2) := by
  refine ⟨by simp [Sheet.GetCell, hv, Sheet.find], s.assign pos Cell.new, Cell.new,
    Sheet.SetCell_empty env n pos "" s hv rfl, ?_, rfl, rfl, rfl, ?_⟩
  · rw [Sheet.GetCell_valid env _ pos hv, Sheet.find_assign_self]
  · have hrc : Cell.Recomputes env (s.assign pos Cell.new) Cell.new = .ok true := rfl
    refine ⟨(s.assign pos Cell.new).SetCacheAt pos (.str ""), ?_⟩
    simp only [Cell.GetValue, Sheet.find_assign_self, hrc]
    rfl

/-- Instance of C13: `SetCell(A1, "")` on the sheet holding `A1 = "5"`. -/
theorem C13_witness :
    Demo.A1.IsValid Demo.env = true ∧
      Sheet.GetCell Demo.env ([] : Sheet Int) Demo.A1 = .ok none ∧
      ∃ s1 cell, Sheet.SetCell Demo.env 2 Demo.A1 "" Demo.sheet5 = some (.ok (), s1) ∧
        Sheet.GetCell Demo.env s1 Demo.A1 = .ok (some cell) ∧
        cell.impl_ = some .EmptyImpl ∧
        cell.GetText = "" ∧
        cell.GetReferencedCells = .ok [] ∧
        ∃ s2, Cell.GetValue Demo.env 1 Demo.A1 s1 = some (.ok (.str ""), s2) :=
  ⟨by decide, C13_absent_then_empty Demo.env Demo.sheet5 Demo.A1 0 (by decide)⟩

/-- C14: `GetPrintableSize()` is `{0, 0}` on a sheet holding no cell; on a
sheet that holds cells at valid positions, its `rows` is the largest row index
of a held position plus one (an upper bound that some position attains) and
its `cols` the largest column index plus one; a sheet holding one cell at
`(r, c)` has size `{r + 1, c + 1}`.  `Position::NONE` is any position with
negative coordinates. -/
theorem C14_printable_size {Num : Type} (env : Env Num) (NONE : Position) (s : Sheet Num)
    (hN : NONE.row < 0 ∧ NONE.col < 0) (hkeys : s.KeysValid env) :
    Sheet.GetPrintableSize NONE ([] : Sheet Num) = ⟨0, 0⟩ ∧
    (s ≠ [] →
      (∀ k ∈ s.keys, k.row + 1 ≤ (Sheet.GetPrintableSize NONE s).rows ∧
        k.col + 1 ≤ (Sheet.GetPrintableSize NONE s).cols) ∧
      (∃ k ∈ s.keys, (Sheet.GetPrintableSize NONE s).rows = k.row + 1) ∧
      (∃ k ∈ s.keys, (Sheet.GetPrintableSize NONE s).cols = k.col + 1)) ∧
    (∀ (pos : Position) (c : Cell Num),
      Sheet.GetPrintableSize NONE [(pos, c)] = ⟨pos.row + 1, pos.col + 1⟩) := by
  refine ⟨rfl, ?_, ?_⟩
  · intro hne
    obtain ⟨hleft, hub, ⟨kr, hkr, hr⟩, ⟨kc, hkc, hc⟩⟩ :=
      Sheet.GetLeftRightCorners_spec NONE s hN hne (Sheet.KeysValid.nonneg env s hkeys)
    simp only [Sheet.GetPrintableSize, Sheet.isEmpty_false_of_ne_nil s hne, hleft]
    refine ⟨fun k hk => ?_, ⟨kr, hkr, ?_⟩, ⟨kc, hkc, ?_⟩⟩
    · have := hub k hk
      simp only [Bool.false_eq_true, if_false]
      constructor <;> omega
    · simp only [Bool.false_eq_true, if_false]
      omega
    · simp only [Bool.false_eq_true, if_false]
      omega
  · intro pos c
    simp [Sheet.GetPrintableSize, Sheet.GetLeftRightCorners, List.isEmpty]

/-- Instance of C14: the sheet holding only `C5` (row 4, column 2) has size `{5, 3}`. -/
theorem C14_witness :
    (Demo.noPosition.row < 0 ∧ Demo.noPosition.col < 0) ∧ Demo.sheetC5.KeysValid Demo.env ∧
      Sheet.GetPrintableSize Demo.noPosition Demo.sheetC5 = ⟨5, 3⟩ ∧
      Sheet.GetPrintableSize Demo.noPosition Demo.sheetDiamond = ⟨1, 4⟩ ∧
      Demo.sheetDiamond ≠ [] ∧
      (∀ k ∈ Demo.sheetDiamond.keys,
        k.row + 1 ≤ (Sheet.GetPrintableSize Demo.noPosition Demo.sheetDiamond).rows ∧
        k.col + 1 ≤ (Sheet.GetPrintableSize Demo.noPosition Demo.sheetDiamond).cols) ∧
      (∃ k ∈ Demo.sheetDiamond.keys,
        (Sheet.GetPrintableSize Demo.noPosition Demo.sheetDiamond).rows = k.row + 1) ∧
      (∃ k ∈ Demo.sheetDiamond.keys,
        (Sheet.GetPrintableSize Demo.noPosition Demo.sheetDiamond).cols = k.col + 1) :=
  ⟨by decide, Reachable.keysValid Demo.env Demo.sheetC5 Demo.sheetC5_reachable,
    by decide, by decide, Demo.sheetDiamond_ne_nil,
    (C14_printable_size Demo.env Demo.noPosition Demo.sheetDiamond (by decide)
      (Reachable.keysValid Demo.env Demo.sheetDiamond Demo.sheetDiamond_reachable)).2.1
      Demo.sheetDiamond_ne_nil⟩

/-- C15: on a sheet that holds its cells at valid positions, with printable
size `{R, C}`, `PrintTexts` returns and writes the `R` lines of the rows
`0` to `R - 1` in this order, each followed by one newline; line `i` is the
`C` fields of the columns `0` to `C - 1` joined by single tabs, field `(i, j)`
being `GetText()` of the cell held at `(i, j)` and the empty string when there
is none; on a sheet holding no cell it writes nothing.  `Position::NONE` is
any position with negative coordinates. -/
theorem C15_printTexts_grid {Num : Type} (env : Env Num) (NONE : Position) (s : Sheet Num)
    (hN : NONE.row < 0 ∧ NONE.col < 0) (hkeys : s.KeysValid env) :
    Sheet.PrintTexts env NONE s =
        (.ok (), s.gridText (Sheet.GetPrintableSize NONE s).rows
          (Sheet.GetPrintableSize NONE s).cols) ∧
      Sheet.PrintTexts env NONE ([] : Sheet Num) = (.ok (), "") := by
  refine ⟨?_, rfl⟩
  by_cases hne : s = []
  · subst hne
    rfl
  · obtain ⟨hleft, hub, ⟨kr, hkr, hr⟩, ⟨kc, hkc, hc⟩⟩ :=
      Sheet.GetLeftRightCorners_spec NONE s hN hne (Sheet.KeysValid.nonneg env s hkeys)
    have hbr := Position.IsValid_bounds env kr (hkeys kr hkr)
    have hbc := Position.IsValid_bounds env kc (hkeys kc hkc)
    have hrows : (Sheet.GetLeftRightCorners NONE s).2.row - 0 + 1 - 1 =
        (Sheet.GetLeftRightCorners NONE s).2.row := by omega
    have hcols : (Sheet.GetLeftRightCorners NONE s).2.col - 0 + 1 - 1 =
        (Sheet.GetLeftRightCorners NONE s).2.col := by omega
    simp only [Sheet.PrintTexts, Sheet.GetPrintableSize, Sheet.isEmpty_false_of_ne_nil s hne,
      hleft, Bool.false_eq_true, if_false, Sheet.gridText, hrows, hcols]
    have hmain := Sheet.PrintTextsRows_eq env s (Sheet.GetLeftRightCorners NONE s).2.row
      (Sheet.GetLeftRightCorners NONE s).2.col (by omega)
      ((Sheet.GetLeftRightCorners NONE s).2.row + 1 - 0).toNat 0 "" (by omega)
      (fun x y hx1 hx2 hy1 hy2 =>
        Position.IsValid_of_bounds env ⟨x, y⟩ ⟨hx1, hy1, by simp only; omega, by simp only; omega⟩)
    simpa [loopRange] using hmain

/-- Instance of C15: the texts of the diamond sheet, and of the sheet holding
only `C5`. -/
theorem C15_witness :
    (Demo.noPosition.row < 0 ∧ Demo.noPosition.col < 0) ∧
      Demo.sheetDiamond.KeysValid Demo.env ∧
      Sheet.PrintTexts Demo.env Demo.noPosition Demo.sheetDiamond =
        (.ok (), "=B1\t\t=B1\t=A1+C1\n") ∧
      Sheet.PrintTexts Demo.env Demo.noPosition Demo.sheetC5 =
        (.ok (), "\t\t\n\t\t\n\t\t\n\t\t\n\t\tx\n") ∧
      Sheet.PrintTexts Demo.env Demo.noPosition Demo.sheetDiamond =
        (.ok (), Demo.sheetDiamond.gridText
          (Sheet.GetPrintableSize Demo.noPosition Demo.sheetDiamond).rows
          (Sheet.GetPrintableSize Demo.noPosition Demo.sheetDiamond).cols) :=
  ⟨by decide, Reachable.keysValid Demo.env Demo.sheetDiamond Demo.sheetDiamond_reachable,
    by decide, by decide,
    (C15_printTexts_grid Demo.env Demo.noPosition Demo.sheetDiamond (by decide)
      (Reachable.keysValid Demo.env Demo.sheetDiamond Demo.sheetDiamond_reachable)).1⟩

/-- C16 (the code departs from the claim): for the tree of `A1+B1+A1`, which
mentions `A1`, `B1`, `A1`, the list `Formula::GetReferencedCells()` returns is
`A1`, `A1`, `B1`: `unique()` runs before `sort()` and removes nothing, since
the two `A1` are not adjacent. -/
theorem C16_duplicate_survives :
    Demo.repeated.GetCells = [Demo.A1, Demo.B1, Demo.A1] ∧
      (Formula.ofAST Demo.repeated).GetReferencedCells = [Demo.A1, Demo.A1, Demo.B1] := by
  decide

/-- C17 (the code departs from the claim): after `Cell::Clear()`, whatever the
cell was, `GetText()` returns the empty string and a second `Clear()` changes
nothing, but `GetReferencedCells()` dereferences the null `impl_`, and so does
`GetValue()`, whose first statement calls it. -/
theorem C17_cleared_cell_dereferences_null {Num : Type} (env : Env Num) (c : Cell Num)
    (pos : Position) (n : Nat) :
    c.Clear.GetText = "" ∧
      c.Clear.Clear = c.Clear ∧
      c.Clear.GetReferencedCells = .error .NullDereference ∧
      Cell.GetValue env (n + 1) pos [(pos, c.Clear)] =
        some (.error .NullDereference, [(pos, c.Clear)]) := by
  refine ⟨rfl, rfl, rfl, ?_⟩
  simp [Cell.GetValue, Sheet.find, Cell.Recomputes, Cell.GetReferencedCells, Cell.Clear]

/-- C18: when `GetValue` of a formula cell recomputes (the condition of its
`if` holds) and the run of the expression tree throws a `FormulaError`, the
call returns that very `FormulaError` as its value and stores it in the cache;
when the run returns a number, the call returns that number. -/
theorem C18_formula_error_is_value {Num : Type} (env : Env Num) (s : Sheet Num)
    (pos : Position) (cell : Cell Num) (f : Formula Num) (m : Nat)
    (hfind : s.find pos = some cell) (himpl : cell.impl_ = some (.FormulaImpl f))
    (hrc : Cell.Recomputes env s cell = .ok true) :
    (∀ fe s2, Exec.run env (Cell.GetValue env m) f.ast_.Execute s = some (.ok (.error fe), s2) →
      Cell.GetValue env (m + 1) pos s = some (.ok (.err fe), s2.SetCacheAt pos (.err fe))) ∧
    (∀ d s2, Exec.run env (Cell.GetValue env m) f.ast_.Execute s = some (.ok (.ok d), s2) →
      Cell.GetValue env (m + 1) pos s = some (.ok (.num d), s2.SetCacheAt pos (.num d))) := by
  have hgv := Cell.GetValue_formula_recompute env s pos cell f m hfind himpl hrc
  constructor
  · intro fe s2 hrun
    rw [hgv, hrun]
    rfl
  · intro d s2 hrun
    rw [hgv, hrun]
    rfl

/-- Instance of C18: `A1 = "=1/0"` has the value `FormulaError` of category `Div0`. -/
theorem C18_witness :
    Demo.sheetDiv.find Demo.A1 = some (Cell.ofFormula Demo.formulaDiv) ∧
      Cell.Recomputes Demo.env Demo.sheetDiv (Cell.ofFormula Demo.formulaDiv) = .ok true ∧
      Exec.run Demo.env (Cell.GetValue Demo.env 0) Demo.formulaDiv.ast_.Execute Demo.sheetDiv =
        some (.ok (.error ⟨.Div0⟩), Demo.sheetDiv) ∧
      Cell.GetValue Demo.env 1 Demo.A1 Demo.sheetDiv =
        some (.ok (.err ⟨.Div0⟩), Demo.sheetDiv.SetCacheAt Demo.A1 (.err ⟨.Div0⟩)) :=
  ⟨rfl, rfl, rfl,
    (C18_formula_error_is_value Demo.env Demo.sheetDiv Demo.A1 (Cell.ofFormula Demo.formulaDiv)
      Demo.formulaDiv 0 rfl rfl rfl).1 ⟨.Div0⟩ Demo.sheetDiv rfl⟩

/-- C19: `FormulaError::ToString` returns `#REF!` for `Ref`, `#VALUE!` for
`Value` and `#ARITHM!` for `Div0`, and it is injective: the three strings are
pairwise distinct, so the category is recoverable from the string. -/
theorem C19_toString_total_injective :
    FormulaError.ToString ⟨.Ref⟩ = "#REF!" ∧
      FormulaError.ToString ⟨.Value⟩ = "#VALUE!" ∧
      FormulaError.ToString ⟨.Div0⟩ = "#ARITHM!" ∧
      Function.Injective FormulaError.ToString := by
  refine ⟨rfl, rfl, rfl, ?_⟩
  intro a b h
  obtain ⟨ca⟩ := a
  obtain ⟨cb⟩ := b
  cases ca <;> cases cb <;> first | rfl | exact absurd h (by decide)

/-- C20: on a sheet whose reference graph has no cycle, the reference relation
is well founded, and for every candidate cell (or null pointer) and every head
position the recursive check `CheckForCircularDependencies` ends, with a
result or an exception, once the recursion budget is large enough; shared
sub-dependencies do not matter. -/
theorem C20_cycle_check_terminates {Num : Type} (env : Env Num) (s : Sheet Num)
    (hac : s.Acyclic) (cell : Option (Cell Num)) (head : Position) :
    WellFounded (fun q p => s.Edge p q) ∧
      ∃ n0, ∀ n, n0 ≤ n →
        ∃ x, Sheet.CheckForCircularDependencies env n s cell head = some x := by
  refine ⟨Sheet.wellFounded_of_acyclic s hac, ?_⟩
  cases cell with
  | none =>
    refine ⟨1, fun n hn => ⟨.ok false, ?_⟩⟩
    obtain ⟨m, rfl⟩ : ∃ m, n = m + 1 := ⟨n - 1, by omega⟩
    rfl
  | some c =>
    exact Sheet.Check_returns_of_refs env s head c
      (fun refs _ r _ => Sheet.Check_returns_at env s hac head r)

/-- Instance of C20: the diamond `D1 -> A1 -> B1`, `D1 -> C1 -> B1`, checked
from a candidate that references `A1` and `C1`, with head `D1`. -/
theorem C20_witness :
    Demo.sheetDiamond.Acyclic ∧
      Sheet.CheckForCircularDependencies Demo.env 3 Demo.sheetDiamond
        (some (Cell.ofFormula Demo.formulaA1C1)) Demo.D1 = some (.ok false) ∧
      WellFounded (fun q p => Demo.sheetDiamond.Edge p q) ∧
      ∃ n0, ∀ n, n0 ≤ n →
        ∃ x, Sheet.CheckForCircularDependencies Demo.env n Demo.sheetDiamond
          (some (Cell.ofFormula Demo.formulaA1C1)) Demo.D1 = some x :=
  ⟨(Reachable.invariant Demo.env Demo.sheetDiamond Demo.sheetDiamond_reachable).2,
    by decide,
    C20_cycle_check_terminates Demo.env Demo.sheetDiamond
      (Reachable.invariant Demo.env Demo.sheetDiamond Demo.sheetDiamond_reachable).2
      (some (Cell.ofFormula Demo.formulaA1C1)) Demo.D1⟩

end Spreadsheet
